import Mathlib

/-!
# DSpellCheck: the text-scanning engine of `SpellChecker.cpp`

A shallow embedding of `src/core/SpellChecker.cpp`.

* `TextPosition` is a signed machine integer; it is modelled by `Int`
  (no operation below approaches the 64-bit range).
* A `std::wstring` is a `List Char`; a `std::wstring_view` into it is a `View`
  (offset of `data()` from the start of the buffer, and `length()`).
* The tokenizer, the helpers of `SpellCheckerHelpers`, the speller and the editor are
  not part of the sources at hand.  They are parameters of the embedding (`Settings`,
  `Speller`, `Editor`), and a concrete instance following the specification is given
  in the second half of the definitions for the worked examples.
* An out-of-range access (`spellcheck_result[i]`, `std::wstring::erase`) is an explicit
  fault; loops that the source writes as `while (true)` take fuel.
-/

namespace DSpellCheck

/-! ## Data model -/

/-- A `std::wstring_view` into a decoded sequence: `off = data() - str.data()`, `len = length()`. -/
structure View where
  off : Nat
  len : Nat
deriving DecidableEq, Repr

/-- The characters a view denotes. -/
def View.chars (s : List Char) (v : View) : List Char :=
  (s.drop v.off).take v.len

/-- The class `MappedWstring`: a decoded sequence with its mapping to raw offsets.  The mapping
table is not in the sources; its three accessors are taken as they are used. -/
structure MappedWstring where
  str : List Char
  to_original_index : Int → Int
  from_original_index : Int → Int
  original_length : Int

/-- The class `WordForSpeller`: converted text and the `ends_with_dot` datum. -/
structure WordForSpeller where
  str : List Char
  ends_with_dot : Bool
deriving DecidableEq, Repr

/-- The class `SpellerWordData` of `SpellChecker.cpp`. -/
structure SpellerWordData where
  token : View
  word_for_speller : WordForSpeller
  word_start : Int
  word_end : Int
  is_correct : Bool
deriving DecidableEq, Repr

/-- What `m_settings` and `SpellCheckerHelpers` provide: the tokenizer chosen by
`do_with_tokenizer` and the word helpers. -/
structure Settings where
  prev_token_begin : List Char → Int → Int
  next_token_end : List Char → Int → Int
  get_all_tokens : List Char → List View
  cut_apostrophes : List Char → View → View
  apply_word_conversions : List Char → List Char
  is_word_spell_checking_needed : List Char → View → Int → Bool

/-- The active speller of `m_speller_container`. -/
structure Speller where
  is_working : Bool
  check_word : WordForSpeller → Bool
  check_words : List WordForSpeller → List Bool

/-- The part of `EditorInterface` read by the search functions. -/
structure Editor where
  get_current_pos : Int
  get_active_document_length : Int
  get_mapped_wstring_range : Int → Int → MappedWstring

/-- The collaborators a `SpellChecker` object holds. -/
structure Env where
  settings : Settings
  speller : Speller
  editor : Editor

/-! ## The scanner -/

/-- `SpellChecker::is_spellchecking_needed`. -/
def is_spellchecking_needed (env : Env) (s : List Char) (word : View) (word_start : Int) : Bool :=
  if !env.speller.is_working then false
  else env.settings.is_word_spell_checking_needed s word word_start

/-- `SpellChecker::to_word_for_speller`: the flag reads the character stored right after the
view (the terminating zero when the view ends the buffer). -/
def to_word_for_speller (env : Env) (s : List Char) (word : View) : WordForSpeller :=
  { ends_with_dot := s.getD (word.off + word.len) (Char.ofNat 0) == '.'
    str := env.settings.apply_word_conversions (word.chars s) }

/-- The first loop of `check_text` (lines 399-412): one record per eligible token. -/
def collect_words (env : Env) (text : MappedWstring) : List View → List SpellerWordData
  | [] => []
  | token :: rest =>
    let token := env.settings.cut_apostrophes text.str token
    let word_start := text.to_original_index (token.off : Int)
    let word_end := text.to_original_index ((token.off : Int) + (token.len : Int))
    if is_spellchecking_needed env text.str token word_start then
      { token := token
        word_for_speller := to_word_for_speller env text.str token
        word_start := word_start
        word_end := word_end
        is_correct := false } :: collect_words env text rest
    else collect_words env text rest

/-- The indexed loop of lines 418-419, from index `i` on: `none` is a read of
`spellcheck_result` past its end. -/
def assign_results (spellcheck_result : List Bool) : Nat → List SpellerWordData →
    Option (List SpellerWordData)
  | _, [] => some []
  | i, w :: ws =>
    match spellcheck_result[i]? with
    | none => none
    | some b =>
      match assign_results spellcheck_result (i + 1) ws with
      | none => none
      | some out => some ({ w with is_correct := b } :: out)

/-- A call made to the checking capability. -/
inductive SpellerCall where
  | check_words (ws : List WordForSpeller)
  | check_word (w : WordForSpeller)
deriving DecidableEq, Repr

/-- One run of `check_text`: the calls made to the speller, and the records returned
(`none` when the run faults). -/
structure CheckRun where
  calls : List SpellerCall
  result : Option (List SpellerWordData)

/-- `SpellChecker::check_text` (lines 388-424). -/
def check_text_run (env : Env) (text_to_check : MappedWstring) : CheckRun :=
  if text_to_check.str.isEmpty then { calls := [], result := some [] }
  else
    let tokens := env.settings.get_all_tokens text_to_check.str
    let words_to_check := collect_words env text_to_check tokens
    let words_for_speller := words_to_check.map fun w => w.word_for_speller
    let spellcheck_result := env.speller.check_words words_for_speller
    { calls := [SpellerCall.check_words words_for_speller]
      result :=
        if !spellcheck_result.isEmpty then assign_results spellcheck_result 0 words_to_check
        else some (words_to_check.map fun w => { w with is_correct := true }) }

/-- The value returned by `check_text`. -/
def check_text (env : Env) (text_to_check : MappedWstring) : Option (List SpellerWordData) :=
  (check_text_run env text_to_check).result

/-- `SpellChecker::get_misspelled_words` (lines 447-456). -/
def get_misspelled_words (env : Env) (text_to_check : MappedWstring) : Option (List View) :=
  (check_text env text_to_check).map fun words_to_check =>
    (words_to_check.filter fun w => !w.is_correct).map fun w => w.token

/-- The span `std::array{it->word_start, it->word_end}`. -/
def SpellerWordData.span (d : SpellerWordData) : Int × Int := (d.word_start, d.word_end)

/-- `SpellChecker::find_first_misspelling` (lines 458-467); the outer `none` is a fault of
`check_text`. -/
def find_first_misspelling (env : Env) (text_to_check : MappedWstring)
    (last_valid_position : Int) : Option (Option (Int × Int)) :=
  (check_text env text_to_check).map fun words_to_check =>
    (words_to_check.find? fun data =>
      !data.is_correct && decide (data.word_end > last_valid_position)).map SpellerWordData.span

/-- `SpellChecker::find_last_misspelling` (lines 469-480). -/
def find_last_misspelling (env : Env) (text_to_check : MappedWstring)
    (last_valid_position : Int) : Option (Option (Int × Int)) :=
  (check_text env text_to_check).map fun words_to_check =>
    (words_to_check.reverse.find? fun word_data =>
      !word_data.is_correct && decide (word_data.word_end < last_valid_position)).map
      SpellerWordData.span

/-! ## Token-boundary probes in the document -/

/-- `SpellChecker::next_token_end` and `SpellChecker::prev_token_begin` (lines 371-377) hand
the index to the tokenizer of the settings. -/
def next_token_end (env : Env) (target : List Char) (index : Int) : Int :=
  env.settings.next_token_end target index

/-- See `next_token_end`. -/
def prev_token_begin (env : Env) (target : List Char) (index : Int) : Int :=
  env.settings.prev_token_begin target index

/-- Result of a probe: the raw offset returned and the number of
`get_mapped_wstring_range` calls made. -/
structure Probe where
  pos : Int
  decodes : Nat
deriving DecidableEq, Repr

/-- The `while (start > 0)` loop of `prev_token_begin_in_document` (lines 179-189).  `start`
strictly decreases while it is positive, so `start.toNat + 1` rounds of fuel are never used
up; `n` counts the decode calls made so far. -/
def prev_token_begin_in_document_loop (env : Env) :
    Nat → (start prev_start shift : Int) → (n : Nat) → Probe
  | 0, start, _, _, n => { pos := start, decodes := n }
  | fuel + 1, start, prev_start, shift, n =>
    if start > 0 then
      let start := max (start - shift) 0
      let mapped_str := env.editor.get_mapped_wstring_range start prev_start
      let index := prev_token_begin env mapped_str.str ((mapped_str.str.length : Int) - 1)
      if index > 0 then { pos := mapped_str.to_original_index index, decodes := n + 1 }
      else prev_token_begin_in_document_loop env fuel start start (shift * 2) (n + 1)
    else { pos := start, decodes := n }

/-- `SpellChecker::prev_token_begin_in_document` (lines 176-190), with its decode count. -/
def prev_token_begin_in_document_probe (env : Env) (start : Int) : Probe :=
  prev_token_begin_in_document_loop env (start.toNat + 1) start (start + 1) 15 0

/-- `SpellChecker::prev_token_begin_in_document`. -/
def prev_token_begin_in_document (env : Env) (start : Int) : Int :=
  (prev_token_begin_in_document_probe env start).pos

/-- The `while (end > 0)` loop of `next_token_end_in_document` (lines 198-209).  `end_` grows
by at least 15 per round until it reaches `length`. -/
def next_token_end_in_document_loop (env : Env) (length : Int) :
    Nat → (end_ prev_end shift : Int) → (n : Nat) → Probe
  | 0, end_, _, _, n => { pos := end_, decodes := n }
  | fuel + 1, end_, prev_end, shift, n =>
    if end_ > 0 then
      let end_ := min (end_ + shift) length
      let mapped_str := env.editor.get_mapped_wstring_range prev_end end_
      let index := next_token_end env mapped_str.str 0
      if index < (mapped_str.str.length : Int) then
        { pos := mapped_str.to_original_index index, decodes := n + 1 }
      else if end_ = length then { pos := end_, decodes := n + 1 }
      else next_token_end_in_document_loop env length fuel end_ end_ (shift * 2) (n + 1)
    else { pos := end_, decodes := n }

/-- `SpellChecker::next_token_end_in_document` (lines 192-211), with its decode count. -/
def next_token_end_in_document_probe (env : Env) (end_ : Int) : Probe :=
  let length := env.editor.get_active_document_length
  if end_ = length then { pos := end_, decodes := 0 }
  else next_token_end_in_document_loop env length ((length - end_).toNat + 1) end_ end_ 15 0

/-- `SpellChecker::next_token_end_in_document`. -/
def next_token_end_in_document (env : Env) (end_ : Int) : Int :=
  (next_token_end_in_document_probe env end_).pos

/-! ## Cursor-relative search -/

/-- The local variables that survive an iteration of the search loops. -/
structure SearchState where
  current_position : Int
  iterator_pos : Int
  full_check : Bool
deriving DecidableEq, Repr

/-- How a search ended: the `set_selection` call it made, if any, and the wrap flag
`full_check` at that moment. -/
structure SearchResult where
  selection : Option (Int × Int)
  full_check : Bool
deriving DecidableEq, Repr

/-- One pass through the body of a `while (true)` loop. -/
inductive Step where
  | fault
  | done (r : SearchResult)
  | next (s : SearchState)
deriving DecidableEq, Repr

/-- What a search did within its fuel. -/
inductive Outcome where
  | out_of_fuel
  | fault
  | done (r : SearchResult)
deriving DecidableEq, Repr

/-- Running a loop body until it leaves the loop, for at most `fuel` passes. -/
def iterate_search (body : SearchState → Step) : Nat → SearchState → Outcome
  | 0, _ => Outcome.out_of_fuel
  | fuel + 1, s =>
    match body s with
    | Step.fault => Outcome.fault
    | Step.done r => Outcome.done r
    | Step.next s1 => iterate_search body fuel s1

/-- `std::wstring::erase (index, count)` as called on line 73 with
`count = size () - index`: it throws when `index` is not a position of the string. -/
def erase_tail (s : List Char) (index : Int) : Option (List Char) :=
  if 0 ≤ index ∧ index ≤ (s.length : Int) then some (s.take index.toNat) else none

/-- Lines 83-90 of `find_next_mistake`: leaving the loop or wrapping once the chunk reached the
end of the document. -/
def find_next_wrap (doc_length to_ : Int) (s : SearchState) : Step :=
  if to_ = doc_length then
    if s.full_check then Step.done { selection := none, full_check := true }
    else Step.next { current_position := 0, iterator_pos := 0, full_check := true }
  else Step.next s

/-- The body of the loop of `find_next_mistake` (lines 61-90). -/
def find_next_step (env : Env) (s : SearchState) : Step :=
  let doc_length := env.editor.get_active_document_length
  let from_ := s.iterator_pos
  let to_ := if s.iterator_pos + 4096 > doc_length then doc_length else s.iterator_pos + 4096
  if from_ < to_ then
    let text := env.editor.get_mapped_wstring_range from_ to_
    let size : Int := text.str.length
    let index :=
      if to_ ≠ doc_length ∧ next_token_end env text.str to_ = size then
        prev_token_begin env text.str (size - 1)
      else size
    match erase_tail text.str index with
    | none => Step.fault
    | some erased =>
      match find_first_misspelling env { text with str := erased } s.current_position with
      | none => Step.fault
      | some (some pos) => Step.done { selection := some pos, full_check := s.full_check }
      | some none =>
        find_next_wrap doc_length to_
          { s with iterator_pos := s.iterator_pos + (text.to_original_index index - from_) }
  else find_next_wrap doc_length to_ s

/-- `SpellChecker::find_next_mistake` (lines 53-92), run for at most `fuel` passes of its
loop. -/
def find_next_mistake (env : Env) (fuel : Nat) : Outcome :=
  iterate_search (find_next_step env) fuel
    { current_position := env.editor.get_current_pos
      iterator_pos := prev_token_begin_in_document env env.editor.get_current_pos
      full_check := false }

/-- Lines 124-131 of `find_prev_mistake`. -/
def find_prev_wrap (doc_length : Int) (s : SearchState) : Step :=
  if s.iterator_pos < 0 then
    if s.full_check then Step.done { selection := none, full_check := true }
    else Step.next
      { current_position := doc_length + 1, iterator_pos := doc_length, full_check := true }
  else Step.next s

/-- The body of the loop of `find_prev_mistake` (lines 102-132). -/
def find_prev_step (env : Env) (s : SearchState) : Step :=
  let doc_length := env.editor.get_active_document_length
  let from_ := if s.iterator_pos - 4096 < 0 then 0 else s.iterator_pos - 4096
  let to_ := s.iterator_pos
  if from_ < to_ then
    let text := env.editor.get_mapped_wstring_range from_ to_
    let offset := next_token_end env text.str 0
    match find_last_misspelling env text s.current_position with
    | none => Step.fault
    | some (some pos) => Step.done { selection := some pos, full_check := s.full_check }
    | some none =>
      find_prev_wrap doc_length
        { s with iterator_pos := s.iterator_pos - (4096 - (text.to_original_index offset - from_)) }
  else find_prev_wrap doc_length { s with iterator_pos := s.iterator_pos - 1 }

/-- `SpellChecker::find_prev_mistake` (lines 94-133), run for at most `fuel` passes of its
loop. -/
def find_prev_mistake (env : Env) (fuel : Nat) : Outcome :=
  iterate_search (find_prev_step env) fuel
    { current_position := env.editor.get_current_pos
      iterator_pos := next_token_end_in_document env env.editor.get_current_pos
      full_check := false }

/-! ## A concrete configuration following the specification

The examples below run the code above on documents in a single-byte encoding, with the simple
tokenizer, the apostrophe stripping and a dictionary speller as the specification describes
them. -/

/-- Modelled from the spec: the tokenizer sources are missing; §4.2 takes as word characters
the alphanumeric ones plus the internal punctuation (apostrophe, hyphen). -/
def is_word_char (c : Char) : Bool :=
  c.isAlphanum || c == Char.ofNat 39 || c == '-'

/-- Length of the longest run of characters satisfying `p` at the head of a sequence. -/
def run_length (p : Char → Bool) : List Char → Nat
  | [] => 0
  | c :: cs => if p c then run_length p cs + 1 else 0

/-- Walking backward over `s[n-1], s[n-2], ...` while `p` holds: the number of characters left
in front of the run. -/
def walk_back (p : Char → Bool) (s : List Char) : Nat → Nat
  | 0 => 0
  | n + 1 => if p (s.getD n ' ') then walk_back p s n else n + 1

/-- Modelled from the spec: the tokenizer sources are missing; §4.2 `prev_token_begin`: walk
backward from `index` (inclusive) skipping non-word characters, then skip backward over word
characters, and return the resulting start index (0 when nothing precedes). -/
def spec_prev_token_begin (s : List Char) (index : Int) : Int :=
  if index < 0 then 0
  else
    let n := min (index.toNat + 1) s.length
    let n1 := walk_back (fun c => !is_word_char c) s n
    (walk_back is_word_char s n1 : Nat)

/-- Modelled from the spec: the tokenizer sources are missing; §4.2 `next_token_end`: the
symmetric forward walk, bounded by the length of the sequence. -/
def spec_next_token_end (s : List Char) (index : Int) : Int :=
  let i := min index.toNat s.length
  let i1 := i + run_length (fun c => !is_word_char c) (s.drop i)
  ((i1 + run_length is_word_char (s.drop i1) : Nat) : Int)

/-- The scan behind `spec_get_all_tokens`: `pos` is the index of the head of the remaining
input, `cur` the start of the run of word characters being read, if any. -/
def scan_tokens : List Char → (pos : Nat) → (cur : Option Nat) → List View
  | [], _, none => []
  | [], pos, some st => [{ off := st, len := pos - st }]
  | c :: cs, pos, none =>
    if is_word_char c then scan_tokens cs (pos + 1) (some pos) else scan_tokens cs (pos + 1) none
  | c :: cs, pos, some st =>
    if is_word_char c then scan_tokens cs (pos + 1) (some st)
    else { off := st, len := pos - st } :: scan_tokens cs (pos + 1) none

/-- Modelled from the spec: the tokenizer sources are missing; §4.2 `get_all_tokens`: all
tokens (maximal runs of word characters) in left-to-right order. -/
def spec_get_all_tokens (s : List Char) : List View :=
  scan_tokens s 0 none

/-- Modelled from the spec: `SpellCheckerHelpers::cut_apostrophes` is missing; §4.3 strips the
leading and trailing apostrophes of a token. -/
def spec_cut_apostrophes (s : List Char) (v : View) : View :=
  let is_apostrophe := fun c : Char => c == Char.ofNat 39
  let lead := run_length is_apostrophe (v.chars s)
  let rest := (v.chars s).drop lead
  { off := v.off + lead, len := rest.length - run_length is_apostrophe rest.reverse }

/-- Modelled from the spec: the helpers of `SpellCheckerHelpers` and the tokenizer are
missing; the settings of §4.2 and §4.3 with the simple tokenizer, no case folding, and
`needed` as the eligibility predicate on the characters of a token. -/
def spec_settings (needed : List Char → Bool) : Settings :=
  { prev_token_begin := spec_prev_token_begin
    next_token_end := spec_next_token_end
    get_all_tokens := spec_get_all_tokens
    cut_apostrophes := spec_cut_apostrophes
    apply_word_conversions := fun w => w
    is_word_spell_checking_needed := fun s word _ => needed (word.chars s) }

/-- Modelled from the spec: the speller sources are missing; §6 checking capability that
judges exactly the words of `misspelled` incorrect, the batch aligned 1:1 with its input. -/
def dictionary_speller (misspelled : List (List Char)) : Speller :=
  { is_working := true
    check_word := fun w => !misspelled.contains w.str
    check_words := fun ws => ws.map fun w => !misspelled.contains w.str }

/-- Modelled from the spec: `EditorInterface::get_mapped_wstring_range` is missing; §4.1
`extract` for a single-byte encoding: decoded index `i` of the range is raw offset
`from_ + i`. -/
def byte_range (doc : List Char) (from_ to_ : Int) : MappedWstring :=
  let str := (doc.drop from_.toNat).take (to_ - from_).toNat
  { str := str
    to_original_index := fun i => i + from_
    from_original_index := fun r => max 0 (min (r - from_) (str.length : Int))
    original_length := from_ + (str.length : Int) }

/-- Modelled from the spec: the editor sources are missing; an editor showing the single-byte
document `doc` with the caret at `cursor`. -/
def byte_editor (doc : List Char) (cursor : Int) : Editor :=
  { get_current_pos := cursor
    get_active_document_length := (doc.length : Int)
    get_mapped_wstring_range := byte_range doc }

/-- The spell checker over the single-byte document `doc` with the caret at `cursor`, the
tokens satisfying `needed` eligible, and exactly the words of `misspelled` judged incorrect. -/
def spec_env_with (needed : List Char → Bool) (doc : List Char) (cursor : Int)
    (misspelled : List String) : Env :=
  { settings := spec_settings needed
    speller := dictionary_speller (misspelled.map String.toList)
    editor := byte_editor doc cursor }

/-- The spell checker `spec_env_with` in which every token is eligible. -/
def spec_env (doc : List Char) (cursor : Int) (misspelled : List String) : Env :=
  spec_env_with (fun _ => true) doc cursor misspelled

/-- The record `check_text` creates for an eligible token (after `cut_apostrophes`), before
the speller has answered. -/
def word_record (env : Env) (text : MappedWstring) (token : View) : SpellerWordData :=
  { token := token
    word_for_speller := to_word_for_speller env text.str token
    word_start := text.to_original_index (token.off : Int)
    word_end := text.to_original_index ((token.off : Int) + (token.len : Int))
    is_correct := false }

/-- A document that is a single word of 5000 letters. -/
def long_word_document : List Char :=
  List.replicate 5000 'a'

/-- A document made of a word of 5000 letters, a blank, and the word "Helo". -/
def long_word_then_helo : List Char :=
  List.replicate 5000 'a' ++ " Helo".toList

/-- The local `words_to_check` of `check_text` after its first loop. -/
def words_to_check (env : Env) (text : MappedWstring) : List SpellerWordData :=
  collect_words env text (env.settings.get_all_tokens text.str)

/-- The local `spellcheck_result` of `check_text`: the answer of the speller to the batch. -/
def spellcheck_result (env : Env) (text : MappedWstring) : List Bool :=
  env.speller.check_words ((words_to_check env text).map fun w => w.word_for_speller)

/-- The eligible tokens of a decoded sequence, in token order: the tokens of the tokenizer,
apostrophes cut, that pass `is_spellchecking_needed`. -/
def eligible_tokens (env : Env) (text : MappedWstring) : List View :=
  ((env.settings.get_all_tokens text.str).map (env.settings.cut_apostrophes text.str)).filter
    fun v => is_spellchecking_needed env text.str v (text.to_original_index (v.off : Int))

/-! ## Underlines -/

/-- A call made to the decoration store of the editor. -/
inductive IndicatorCall where
  | set_current_indicator (indicator : Int)
  | indicator_fill_range (start end_ : Int)
  | indicator_clear_range (start end_ : Int)
deriving DecidableEq, Repr

/-- `SpellChecker::create_word_underline` (lines 166-169); `indicator` stands for the constant
`spell_check_indicator_id`. -/
def create_word_underline (indicator start end_ : Int) : List IndicatorCall :=
  [IndicatorCall.set_current_indicator indicator, IndicatorCall.indicator_fill_range start end_]

/-- `SpellChecker::remove_underline` (lines 171-174). -/
def remove_underline (indicator start end_ : Int) : List IndicatorCall :=
  [IndicatorCall.set_current_indicator indicator, IndicatorCall.indicator_clear_range start end_]

/-- Lines 429-434 of `underline_misspelled_words`: the start and the end of every record that
is not correct, in one flat buffer. -/
def underline_buffer : List SpellerWordData → List Int
  | [] => []
  | result :: rest =>
    if result.is_correct then underline_buffer rest
    else result.word_start :: result.word_end :: underline_buffer rest

/-- Lines 436-444 of `underline_misspelled_words`: the loop over the buffer, two entries at a
time, followed by the last `remove_underline (prev_pos, text_len)`. -/
def underline_sweep (indicator text_len : Int) : (prev_pos : Int) → List Int → List IndicatorCall
  | prev_pos, a :: b :: rest =>
    remove_underline indicator prev_pos a ++ create_word_underline indicator a b ++
      underline_sweep indicator text_len b rest
  | prev_pos, _ => remove_underline indicator prev_pos text_len

/-- `SpellChecker::underline_misspelled_words` (lines 426-445): the calls made to the
decoration store; `none` when `check_text` faults. -/
def underline_misspelled_words (env : Env) (indicator : Int) (text_to_check : MappedWstring)
    (start_pos : Int) : Option (List IndicatorCall) :=
  (check_text env text_to_check).map fun words_to_check =>
    underline_sweep indicator text_to_check.original_length start_pos
      (underline_buffer words_to_check)

/-- `SpellChecker::clear_all_underlines` (lines 285-291). -/
def clear_all_underlines (env : Env) (indicator : Int) : List IndicatorCall :=
  if env.editor.get_active_document_length > 0 then
    [IndicatorCall.set_current_indicator indicator,
      IndicatorCall.indicator_clear_range 0 env.editor.get_active_document_length]
  else []

/-- Modelled from the spec: the decoration store of the editor is missing; §6 has it set the
active decoration kind, fill a raw-offset range and clear a raw-offset range.  As in the mock
editor, the store keeps the current indicator and one bit per indicator and raw offset. -/
structure Decorations where
  current_indicator : Int
  set_for : Int → Int → Bool

/-- Modelled from the spec: the decoration store of the editor is missing; the effect of one
call on it, a range being the raw offsets `start ≤ x < end_`. -/
def apply_call (d : Decorations) : IndicatorCall → Decorations
  | IndicatorCall.set_current_indicator indicator => { d with current_indicator := indicator }
  | IndicatorCall.indicator_fill_range start end_ =>
    { d with set_for := fun i x =>
        if i = d.current_indicator ∧ start ≤ x ∧ x < end_ then true else d.set_for i x }
  | IndicatorCall.indicator_clear_range start end_ =>
    { d with set_for := fun i x =>
        if i = d.current_indicator ∧ start ≤ x ∧ x < end_ then false else d.set_for i x }

/-- The decoration store after a sequence of calls. -/
def apply_calls (calls : List IndicatorCall) (d : Decorations) : Decorations :=
  calls.foldl apply_call d

/-- A decoration store without any decoration. -/
def no_decorations : Decorations :=
  { current_indicator := 0, set_for := fun _ _ => false }

/-- The spans of the records that are not correct, in the order of the records. -/
def misspelled_spans (words : List SpellerWordData) : List (Int × Int) :=
  (words.filter fun w => !w.is_correct).map SpellerWordData.span

/-- A painting operation on the spell-check indicator: fill (`value = true`) or clear
(`value = false`) the raw offsets `start ≤ x < end_`. -/
structure PaintOp where
  value : Bool
  start : Int
  end_ : Int
deriving DecidableEq, Repr

/-- The calls that carry out a painting operation. -/
def PaintOp.calls (indicator : Int) (op : PaintOp) : List IndicatorCall :=
  if op.value then create_word_underline indicator op.start op.end_
  else remove_underline indicator op.start op.end_

/-- The effect of a painting operation on the bits of one indicator. -/
def paint_one (f : Int → Bool) (op : PaintOp) : Int → Bool :=
  fun x => if op.start ≤ x ∧ x < op.end_ then op.value else f x

/-- The effect of a sequence of painting operations on the bits of one indicator. -/
def paint (ops : List PaintOp) (f : Int → Bool) : Int → Bool :=
  ops.foldl paint_one f

/-- A sequence of calls that carries out painting operations on the indicator. -/
def IsPainting (indicator : Int) (calls : List IndicatorCall) : Prop :=
  ∃ ops : List PaintOp, calls = ops.flatMap (PaintOp.calls indicator)

/-- The painting operations of the sweep over the misspelled spans: clear the gap in front
of a span, fill the span, and at last clear up to `text_len`. -/
def sweep_ops (text_len : Int) : (prev_pos : Int) → List (Int × Int) → List PaintOp
  | prev_pos, [] => [{ value := false, start := prev_pos, end_ := text_len }]
  | prev_pos, sp :: rest =>
    { value := false, start := prev_pos, end_ := sp.1 } ::
      { value := true, start := sp.1, end_ := sp.2 } :: sweep_ops text_len sp.2 rest

/-! ## The viewport highlighter -/

/-- A `POINT` of the editor window. -/
structure Point where
  x : Int
  y : Int
deriving DecidableEq, Repr

/-- A `RECT` of the editor window. -/
structure Rect where
  left : Int
  top : Int
  right : Int
  bottom : Int
deriving DecidableEq, Repr

/-- The part of `EditorInterface` read by `underline_misspelled_words_in_visible_text`, and
the answer of `SpellCheckerHelpers::is_spell_checking_needed_for_file` read by
`recheck_visible`. -/
structure Viewport where
  get_first_visible_line : Int
  get_document_line_from_visible : Int → Int
  get_lines_on_screen : Int
  editor_rect : Rect
  get_first_visible_column : Int
  is_line_visible : Int → Bool
  get_line_start_position : Int → Int
  get_line_end_position : Int → Int
  get_point_from_position : Int → Point
  char_position_from_point : Point → Int
  is_spell_checking_needed_for_file : Bool

/-- What a highlighting pass did: its calls to the decoration store, its calls to the
speller, and the number of `get_mapped_wstring_range` calls. -/
structure Run where
  calls : List IndicatorCall
  speller_calls : List SpellerCall
  decodes : Nat
deriving DecidableEq, Repr

/-- A pass that did nothing. -/
def Run.empty : Run :=
  { calls := [], speller_calls := [], decodes := 0 }

/-- One pass followed by another. -/
def Run.append (a b : Run) : Run :=
  { calls := a.calls ++ b.calls
    speller_calls := a.speller_calls ++ b.speller_calls
    decodes := a.decodes + b.decodes }

/-- Lines 250-259: where the chunk that starts at `start` is moved to when its start is not
in the visible rectangle, or when the text is scrolled horizontally. -/
def visible_start_probe (env : Env) (vp : Viewport) (start : Int) : Probe :=
  let rect := vp.editor_rect
  let start_point := vp.get_point_from_position start
  if start_point.y < rect.top then
    prev_token_begin_in_document_probe env (vp.char_position_from_point { x := 0, y := 0 })
  else if start_point.x < rect.left then
    prev_token_begin_in_document_probe env
      (vp.char_position_from_point { x := 0, y := start_point.y })
  else if vp.get_first_visible_column > 0 then prev_token_begin_in_document_probe env start
  else { pos := start, decodes := 0 }

/-- Lines 261-272: the end of the chunk, cut at `line_end` and moved when it is not in the
visible rectangle. -/
def visible_end_probe (env : Env) (vp : Viewport) (line_end end_ : Int) : Probe :=
  let rect := vp.editor_rect
  let end_ := if end_ > line_end then line_end else end_
  let end_point := vp.get_point_from_position end_
  if end_point.y > rect.bottom - rect.top then
    next_token_end_in_document_probe env
      (vp.char_position_from_point
        { x := rect.right - rect.left, y := rect.bottom - rect.top })
  else if end_point.x > rect.right then
    next_token_end_in_document_probe env
      (vp.char_position_from_point { x := rect.right - rect.left, y := end_point.y })
  else { pos := end_, decodes := 0 }

/-- The inner `for` loop of `underline_misspelled_words_in_visible_text` (lines 249-281) on a
line that ends at `line_end`, run for at most `fuel` rounds; `none` when the fuel runs out or
`check_text` faults. -/
def visible_range_loop (env : Env) (vp : Viewport) (indicator line_end : Int) :
    Nat → (start end_ : Int) → Option Run
  | 0, _, _ => none
  | fuel + 1, start, end_ =>
    if start < line_end then
      let start_probe := visible_start_probe env vp start
      let end_probe := visible_end_probe env vp line_end end_
      if start_probe.pos > end_probe.pos then
        some { calls := [], speller_calls := [],
               decodes := start_probe.decodes + end_probe.decodes }
      else
        let new_str := env.editor.get_mapped_wstring_range start_probe.pos end_probe.pos
        match underline_misspelled_words env indicator new_str start_probe.pos with
        | none => none
        | some calls =>
          match visible_range_loop env vp indicator line_end fuel (end_probe.pos + 1)
              (end_probe.pos + 1 + 4096) with
          | none => none
          | some rest =>
            some (Run.append
              { calls := calls, speller_calls := (check_text_run env new_str).calls,
                decodes := start_probe.decodes + end_probe.decodes + 1 } rest)
    else some Run.empty

/-- The outer `for` loop of `underline_misspelled_words_in_visible_text` (lines 224-282) from
document line `line` on, `remaining` lines being left up to the bottom visible line; `fuel`
bounds the inner loop of every line. -/
def visible_lines_loop (env : Env) (vp : Viewport) (indicator : Int) (fuel : Nat) :
    (remaining : Nat) → (line : Int) → Option Run
  | 0, _ => some Run.empty
  | remaining + 1, line =>
    if !vp.is_line_visible line then
      visible_lines_loop env vp indicator fuel remaining (line + 1)
    else
      let start := vp.get_line_start_position line
      if start ≥ env.editor.get_active_document_length then
        visible_lines_loop env vp indicator fuel remaining (line + 1)
      else if start = -1 then some Run.empty
      else
        let line_end := vp.get_line_end_position line
        let line_start_point := vp.get_point_from_position start
        let line_end_point := vp.get_point_from_position line_end
        if line_start_point.x = line_end_point.x ∧ line_start_point.y = line_end_point.y then
          visible_lines_loop env vp indicator fuel remaining (line + 1)
        else
          let start := start + vp.get_first_visible_column
          if start > line_end then
            visible_lines_loop env vp indicator fuel remaining (line + 1)
          else
            match visible_range_loop env vp indicator line_end fuel start (start + 4096) with
            | none => none
            | some r =>
              match visible_lines_loop env vp indicator fuel remaining (line + 1) with
              | none => none
              | some rest => some (Run.append r rest)

/-- `SpellChecker::underline_misspelled_words_in_visible_text` (lines 213-283); the inner
loop of every line runs for at most `fuel` rounds. -/
def underline_misspelled_words_in_visible_text (env : Env) (vp : Viewport) (indicator : Int)
    (fuel : Nat) : Option Run :=
  let top_visible_line := vp.get_first_visible_line
  let top_visible_line_index := vp.get_document_line_from_visible top_visible_line
  let bottom_visible_line_index :=
    vp.get_document_line_from_visible (top_visible_line + vp.get_lines_on_screen - 1)
  visible_lines_loop env vp indicator fuel
    (bottom_visible_line_index - top_visible_line_index + 1).toNat top_visible_line_index

/-- `SpellChecker::check_visible` (lines 482-486). -/
def check_visible (env : Env) (vp : Viewport) (indicator : Int) (fuel : Nat) : Option Run :=
  underline_misspelled_words_in_visible_text env vp indicator fuel

/-- `SpellChecker::recheck_visible` (lines 488-498). -/
def recheck_visible (env : Env) (vp : Viewport) (indicator : Int) (fuel : Nat) : Option Run :=
  if !env.speller.is_working then
    some { calls := clear_all_underlines env indicator, speller_calls := [], decodes := 0 }
  else if !vp.is_spell_checking_needed_for_file then
    some { calls := clear_all_underlines env indicator, speller_calls := [], decodes := 0 }
  else check_visible env vp indicator fuel

/-- Modelled from the spec: the geometry of the editor is missing; a window that shows a
document of one line of `length` raw offsets in full, without scrolling: offset `p` is drawn
at the point `(p, 0)` of a window of `length + 1` by 1 points. -/
def single_line_viewport (length : Int) : Viewport :=
  { get_first_visible_line := 0
    get_document_line_from_visible := fun l => l
    get_lines_on_screen := 1
    editor_rect := { left := 0, top := 0, right := length + 1, bottom := 1 }
    get_first_visible_column := 0
    is_line_visible := fun _ => true
    get_line_start_position := fun l => if l = 0 then 0 else -1
    get_line_end_position := fun l => if l = 0 then length else -1
    get_point_from_position := fun p => { x := p, y := 0 }
    char_position_from_point := fun pt => pt.x
    is_spell_checking_needed_for_file := true }

/-- The spell checker `spec_env` whose speller reports that it is not working. -/
def spec_env_not_working (doc : List Char) (cursor : Int) (misspelled : List String) : Env :=
  { spec_env doc cursor misspelled with
    speller := { dictionary_speller (misspelled.map String.toList) with is_working := false } }

/-! ## The list of all misspellings -/

/-- `std::lexicographical_compare` with the comparison `comp`. -/
def lexicographical_compare (comp : Char → Char → Bool) : List Char → List Char → Bool
  | [], [] => false
  | [], _ :: _ => true
  | _ :: _, [] => false
  | a :: as, b :: bs =>
    if comp a b then true
    else if comp b a then false
    else lexicographical_compare comp as bs

/-- `std::equal` over two whole ranges with the predicate `pred`. -/
def equal (pred : Char → Char → Bool) : List Char → List Char → Bool
  | [], [] => true
  | a :: as, b :: bs => pred a b && equal pred as bs
  | _, _ => false

/-- The loop of `std::unique`: `last` is the element kept last, and an element is dropped when
`pred last` holds of it. -/
def unique_from {α : Type} (pred : α → α → Bool) (last : α) : List α → List α
  | [] => []
  | b :: rest =>
    if pred last b then unique_from pred last rest else b :: unique_from pred b rest

/-- `std::unique` followed by the `erase` of line 515: of every run of consecutive elements
related by `pred` only the first one is kept. -/
def unique {α : Type} (pred : α → α → Bool) : List α → List α
  | [] => []
  | a :: rest => a :: unique_from pred a rest

/-- The comparison of line 506-510: `lhs` comes before `rhs` when it is lexicographically
smaller after `CharUpper`; `char_upper` stands for `CharUpper` on one character. -/
def misspelling_less (char_upper : Char → Char) (lhs rhs : List Char) : Bool :=
  lexicographical_compare (fun a b => decide (char_upper a < char_upper b)) lhs rhs

/-- The predicate of lines 511-514: equality after `CharUpper`. -/
def misspelling_same (char_upper : Char → Char) (lhs rhs : List Char) : Bool :=
  equal (fun a b => char_upper a == char_upper b) lhs rhs

/-- Lines 505-515 of `get_all_misspellings_as_string`: the misspelled words of the document
text `mapped_str`, sorted and made unique.  `sort` stands for `std::sort`, whose result is
any rearrangement that is sorted for the comparison. -/
def all_misspellings (env : Env) (char_upper : Char → Char)
    (sort : (List Char → List Char → Bool) → List (List Char) → List (List Char))
    (mapped_str : MappedWstring) : Option (List (List Char)) :=
  (get_misspelled_words env mapped_str).map fun misspelled_words =>
    unique (misspelling_same char_upper)
      (sort (misspelling_less char_upper) (misspelled_words.map (View.chars mapped_str.str)))

/-- `SpellChecker::get_all_misspellings_as_string` (lines 500-521) for the document text
`mapped_str` (the result of `to_mapped_wstring` on the whole document): every word followed by
a newline. -/
def get_all_misspellings_as_string (env : Env) (char_upper : Char → Char)
    (sort : (List Char → List Char → Bool) → List (List Char) → List (List Char))
    (mapped_str : MappedWstring) : Option (List Char) :=
  (all_misspellings env char_upper sort mapped_str).map fun misspelled_words =>
    misspelled_words.flatMap fun s => s ++ [Char.ofNat 10]

/-- Inserting a word in front of the first word it is smaller than. -/
def ordered_insert (less : List Char → List Char → Bool) (x : List Char) :
    List (List Char) → List (List Char)
  | [] => [x]
  | y :: ys => if less x y then x :: y :: ys else y :: ordered_insert less x ys

/-- Modelled from the spec: `std::sort` is a library routine; for the examples, sorting by
insertion. -/
def insertion_sort (less : List Char → List Char → Bool) : List (List Char) → List (List Char)
  | [] => []
  | x :: xs => ordered_insert less x (insertion_sort less xs)

/-! ## Erasing all misspellings -/

/-- A call `delete_range (start, length)` made to the editor. -/
structure DeleteCall where
  start : Int
  length : Int
deriving DecidableEq, Repr

/-- The loop of `erase_all_misspellings` (lines 353-359). -/
def erase_loop (mapped_str : MappedWstring) : (chars_removed : Int) → List View → List DeleteCall
  | _, [] => []
  | chars_removed, misspelling :: rest =>
    let start := mapped_str.to_original_index (misspelling.off : Int)
    let original_len :=
      mapped_str.to_original_index ((misspelling.off : Int) + (misspelling.len : Int)) - start
    { start := start - chars_removed, length := original_len } ::
      erase_loop mapped_str (chars_removed + original_len) rest

/-- `SpellChecker::erase_all_misspellings` (lines 347-360) for the document text `mapped_str`
(the result of `to_mapped_wstring` on the whole document): the `delete_range` calls it makes;
`none` when `check_text` faults. -/
def erase_all_misspellings (env : Env) (mapped_str : MappedWstring) : Option (List DeleteCall) :=
  (get_misspelled_words env mapped_str).map (erase_loop mapped_str 0)

/-- Modelled from the spec: `EditorInterface::delete_range` is missing; on a document kept
as the sequence of its raw units it removes `length` units from raw offset `start` on. -/
def delete_range (doc : List Char) (call : DeleteCall) : List Char :=
  doc.take call.start.toNat ++ doc.drop (call.start + call.length).toNat

/-- The document after a sequence of `delete_range` calls. -/
def apply_deletes (calls : List DeleteCall) (doc : List Char) : List Char :=
  calls.foldl delete_range doc

/-- The raw span of a token of the text `mapped_str`. -/
def view_span (mapped_str : MappedWstring) (v : View) : Int × Int :=
  (mapped_str.to_original_index (v.off : Int),
    mapped_str.to_original_index ((v.off : Int) + (v.len : Int)))

/-- Whether raw offset `i` lies in none of the spans. -/
def outside_spans (spans : List (Int × Int)) (i : Nat) : Bool :=
  spans.all fun sp => !(decide (sp.1 ≤ (i : Int)) && decide ((i : Int) < sp.2))

/-- The units of `t`, which sit at the raw offsets `base`, `base + 1`, ..., that lie in none
of the spans, in their order. -/
def keep_outside_from (base : Nat) (spans : List (Int × Int)) (t : List Char) : List Char :=
  ((t.enumFrom base).filter fun p => outside_spans spans p.1).map Prod.snd

/-- The document with exactly the raw offsets of the spans removed. -/
def keep_outside (spans : List (Int × Int)) (doc : List Char) : List Char :=
  keep_outside_from 0 spans doc

/-- The `delete_range` calls for a list of raw spans when `chars_removed` units were removed
before: every span is deleted at its start minus what was removed so far. -/
def delete_calls : (chars_removed : Int) → List (Int × Int) → List DeleteCall
  | _, [] => []
  | chars_removed, sp :: rest =>
    { start := sp.1 - chars_removed, length := sp.2 - sp.1 } ::
      delete_calls (chars_removed + (sp.2 - sp.1)) rest

/-! ## The word under the cursor -/

/-- The part of `EditorInterface` read by `is_word_under_cursor_correct`. -/
structure CursorQuery where
  get_mouse_cursor_pos : Option Point
  char_position_from_global_point : Int → Int → Option Int
  get_selection_start : Int
  get_selection_end : Int

/-- What `is_word_under_cursor_correct` hands back: its return value, the out-parameters
`pos` and `length`, and the calls it made to the speller. -/
structure WordUnderCursor where
  is_correct : Bool
  pos : Int
  length : Int
  speller_calls : List SpellerCall
deriving DecidableEq, Repr

/-- `std::wstring_view::substr (begin, end - begin)` as called on line 149: it throws when
`begin` is not a position of the text, and a count that is too large (or negative, hence huge
as an unsigned number) is cut at the end of the text. -/
def substr_view (size : Nat) (begin_ end_ : Int) : Option View :=
  if 0 ≤ begin_ ∧ begin_ ≤ (size : Int) then
    some { off := begin_.toNat
           len := if end_ - begin_ < 0 then size - begin_.toNat
                  else min (end_ - begin_).toNat (size - begin_.toNat) }
  else none

/-- `SpellChecker::get_word_at` (lines 143-150); `none` when `substr` throws. -/
def get_word_at (env : Env) (char_pos : Int) (text : MappedWstring) : Option View :=
  let index := text.from_original_index char_pos
  let index := if index ≥ (text.str.length : Int) then (text.str.length : Int) - 1 else index
  let begin_ := prev_token_begin env text.str index
  let end_ := next_token_end env text.str begin_
  substr_view text.str.length begin_ end_

/-- `SpellChecker::check_word` (lines 362-369): its result and the calls made to the
speller. -/
def check_word (env : Env) (s : List Char) (word : View) (word_start : Int) :
    Bool × List SpellerCall :=
  if !is_spellchecking_needed env s word word_start then (true, [])
  else
    (env.speller.check_word (to_word_for_speller env s word),
      [SpellerCall.check_word (to_word_for_speller env s word)])

/-- Lines 310-323 of `is_word_under_cursor_correct`: the position asked about and the
selection, or `none` when the mouse is not over a character. -/
def cursor_query_position (q : CursorQuery) (use_text_cursor : Bool) :
    Option (Int × Int × Int) :=
  if !use_text_cursor then
    match q.get_mouse_cursor_pos with
    | none => none
    | some p =>
      match q.char_position_from_global_point p.x p.y with
      | none => none
      | some mb_pos => some (mb_pos, 0, 0)
  else
    some (min q.get_selection_start q.get_selection_end, q.get_selection_start,
      q.get_selection_end)

/-- `SpellChecker::is_word_under_cursor_correct` (lines 300-345); `none` when `substr`
throws. -/
def is_word_under_cursor_correct (env : Env) (q : CursorQuery) (use_text_cursor : Bool) :
    Option WordUnderCursor :=
  let doc_length := env.editor.get_active_document_length
  if doc_length = 0 then
    some { is_correct := true, pos := -1, length := 0, speller_calls := [] }
  else
    match cursor_query_position q use_text_cursor with
    | none => some { is_correct := true, pos := -1, length := 0, speller_calls := [] }
    | some (init_char_pos, selection_start, selection_end) =>
      let start := prev_token_begin_in_document env init_char_pos
      let end_ := next_token_end_in_document env (start + 1)
      let mapped_str := env.editor.get_mapped_wstring_range start end_
      if mapped_str.str.isEmpty then
        some { is_correct := true, pos := -1, length := 0, speller_calls := [] }
      else
        match get_word_at env init_char_pos mapped_str with
        | none => none
        | some word =>
          if word.len = 0 then
            some { is_correct := true, pos := -1, length := 0, speller_calls := [] }
          else
            let word := env.settings.cut_apostrophes mapped_str.str word
            let pos := mapped_str.to_original_index (word.off : Int)
            let pos_end := mapped_str.to_original_index ((word.off : Int) + (word.len : Int))
            let word_len := pos_end - pos
            if selection_start ≠ selection_end ∧
                (selection_start ≠ pos ∨ selection_end ≠ pos + word_len) then
              some { is_correct := true, pos := pos, length := 0, speller_calls := [] }
            else
              let checked := check_word env mapped_str.str word pos
              if checked.1 then
                some { is_correct := true, pos := pos, length := 0,
                       speller_calls := checked.2 }
              else
                some { is_correct := false, pos := pos, length := word_len,
                       speller_calls := checked.2 }

/-! ## Decoding done by the searches -/

/-- The number of `get_mapped_wstring_range` calls of a pass of `find_next_mistake`
(line 69). -/
def find_next_pass_decodes (env : Env) (s : SearchState) : Nat :=
  let doc_length := env.editor.get_active_document_length
  let to_ := if s.iterator_pos + 4096 > doc_length then doc_length else s.iterator_pos + 4096
  if s.iterator_pos < to_ then 1 else 0

/-- The number of `get_mapped_wstring_range` calls of a pass of `find_prev_mistake`
(line 112). -/
def find_prev_pass_decodes (s : SearchState) : Nat :=
  let from_ := if s.iterator_pos - 4096 < 0 then 0 else s.iterator_pos - 4096
  if from_ < s.iterator_pos then 1 else 0

/-- The number of decode calls made by the passes of a loop within its fuel. -/
def iterate_decodes (body : SearchState → Step) (pass_decodes : SearchState → Nat) :
    Nat → SearchState → Nat
  | 0, _ => 0
  | fuel + 1, s =>
    pass_decodes s +
      match body s with
      | Step.next s1 => iterate_decodes body pass_decodes fuel s1
      | _ => 0

/-- The number of `get_mapped_wstring_range` calls of `find_next_mistake`: those of the probe
on line 57 and those of its loop. -/
def find_next_mistake_decodes (env : Env) (fuel : Nat) : Nat :=
  (prev_token_begin_in_document_probe env env.editor.get_current_pos).decodes +
    iterate_decodes (find_next_step env) (find_next_pass_decodes env) fuel
      { current_position := env.editor.get_current_pos
        iterator_pos := prev_token_begin_in_document env env.editor.get_current_pos
        full_check := false }

/-- The number of `get_mapped_wstring_range` calls of `find_prev_mistake`: those of the probe
on line 99 and those of its loop. -/
def find_prev_mistake_decodes (env : Env) (fuel : Nat) : Nat :=
  (next_token_end_in_document_probe env env.editor.get_current_pos).decodes +
    iterate_decodes (find_prev_step env) find_prev_pass_decodes fuel
      { current_position := env.editor.get_current_pos
        iterator_pos := next_token_end_in_document env env.editor.get_current_pos
        full_check := false }

/-- Modelled from the spec: the editor sources are missing; the text cursor of an editor
without a selection and without a mouse position, with the caret at `cursor`. -/
def caret_query (cursor : Int) : CursorQuery :=
  { get_mouse_cursor_pos := none
    char_position_from_global_point := fun _ _ => none
    get_selection_start := cursor
    get_selection_end := cursor }

/-- A document of 100 blanks. -/
def blank_document : List Char :=
  List.replicate 100 ' '

/-- A document made of the word "abcd" followed by 4094 blanks (4098 raw units). -/
def word_then_blanks : List Char :=
  "abcd".toList ++ List.replicate 4094 ' '

/-- A view moved `q` places to the right: the same token seen from a sequence that has `q`
more characters in front. -/
def View.shift (q : Nat) (v : View) : View :=
  { off := v.off + q, len := v.len }

/-- A document of 4090 blanks followed by "Helo wrold again": the first chunk of 4096
characters ends inside the word "wrold". -/
def blanks_then_words : List Char :=
  List.replicate 4090 ' ' ++ "Helo wrold again".toList

/-! ## String utilities -/

/-- `std::find_if` over a range: the index of the first element that satisfies `p`, the
length of the range when there is none. -/
def find_if {α : Type} (p : α → Bool) : List α → Nat
  | [] => 0
  | a :: l => if p a then 0 else find_if p l + 1

/-- `ltrim_inplace` of `string_utils.cpp` (lines 26-31): erases from the beginning up to the
first character with `iswspace (ch) == FALSE`; `iswspace` answers an `int`, `FALSE` is 0. -/
def ltrim_inplace (iswspace : Char → Int) (s : List Char) : List Char :=
  s.drop (find_if (fun ch => decide (iswspace ch = 0)) s)

/-- `rtrim_inplace` of `string_utils.cpp` (lines 33-38): the search runs over the reversed
range, and `base ()` of the reverse iterator found after `k` steps is the position
`size - k`, from which the string is erased up to its end. -/
def rtrim_inplace (iswspace : Char → Int) (s : List Char) : List Char :=
  s.take (s.length - find_if (fun ch => decide (iswspace ch = 0)) s.reverse)

/-- `trim_inplace` of `string_utils.cpp` (lines 40-43). -/
def trim_inplace (iswspace : Char → Int) (s : List Char) : List Char :=
  rtrim_inplace iswspace (ltrim_inplace iswspace s)

/-- `ltrim` of `CommonFunctions.h` (lines 64-68): the test is `!iswspace (ch)`, the `int`
being read as a truth value. -/
def ltrim (iswspace : Char → Int) (s : List Char) : List Char :=
  s.drop (find_if (fun ch => !decide (iswspace ch ≠ 0)) s)

/-- `rtrim` of `CommonFunctions.h` (lines 71-75). -/
def rtrim (iswspace : Char → Int) (s : List Char) : List Char :=
  s.take (s.length - find_if (fun ch => !decide (iswspace ch ≠ 0)) s.reverse)

/-- `trim` of `CommonFunctions.h` (lines 78-81). -/
def trim (iswspace : Char → Int) (s : List Char) : List Char :=
  rtrim iswspace (ltrim iswspace s)

/-- An `iswspace` for the examples: 8 for the blank, the tab and the line feed, 0 for every
other character. -/
def blank_iswspace (ch : Char) : Int :=
  if ch = ' ' ∨ ch = Char.ofNat 9 ∨ ch = Char.ofNat 10 then 8 else 0

/-- The inner loop of `std::search`, comparing the range from `first` on with the pattern:
`some true` when the pattern is used up (the search returns `first`), `none` when the range
is used up before the pattern (the search returns `last`), `some false` at the first pair
that fails the predicate (the search goes on from `first + 1`). -/
def search_match {α β : Type} (p : α → β → Bool) : List α → List β → Option Bool
  | _, [] => some true
  | [], _ :: _ => none
  | a :: l, b :: n => if p a b then search_match p l n else some false

/-- `std::search (first, last, s_first, s_last, p)`: the distance from `first` to the
iterator returned, which is the length of the range when `last` is returned. -/
def search {α β : Type} (p : α → β → Bool) : List α → List β → Nat
  | [], _ => 0
  | a :: l, needle =>
    match search_match p (a :: l) needle with
    | some true => 0
    | none => (a :: l).length
    | some false => search p l needle + 1

/-- `find_case_insensitive` of `string_utils.cpp` (lines 45-55); `none` stands for
`std::string_view::npos`, and `toupper` for `std::toupper`, which answers an `int`. -/
def find_case_insensitive (toupper : Char → Int) (str_haystack str_needle : List Char) :
    Option Nat :=
  let it := search (fun ch1 ch2 => decide (toupper ch1 = toupper ch2)) str_haystack str_needle
  if it = str_haystack.length then none else some it

/-- The needle occurs in the haystack at index `i` when case is ignored: `i + |needle|` is
at most `|haystack|` and the characters of the haystack from `i` on equal those of the
needle after upper-casing. -/
def occurs_at (toupper : Char → Int) (haystack needle : List Char) (i : Nat) : Prop :=
  i + needle.length ≤ haystack.length ∧
    ∀ j : Nat, j < needle.length →
      (haystack[i + j]?).map toupper = (needle[j]?).map toupper

/-- A `toupper` for the examples: the code of the upper-case form of an ASCII letter, the
code of every other character. -/
def ascii_toupper (ch : Char) : Int :=
  (ch.toUpper.toNat : Int)

/-- Modelled from the spec: the tokenizer and the class `MappedWstring` are missing; what the
boundary probes rely on of §4.1 and §4.2: in the text decoded from the raw range
`[from_, to_)` the index of every character maps to a raw offset of that range, the backward
walk of the tokenizer answers an index that is not after the one it was asked about (0 at
the least), and its forward walk from 0 answers an index that is not negative. -/
structure ProbeAssumptions (env : Env) : Prop where
  index_in_range : ∀ (from_ to_ i : Int), 0 ≤ from_ → 0 ≤ i →
    i < ((env.editor.get_mapped_wstring_range from_ to_).str.length : Int) →
    from_ ≤ (env.editor.get_mapped_wstring_range from_ to_).to_original_index i ∧
      (env.editor.get_mapped_wstring_range from_ to_).to_original_index i < to_
  prev_le : ∀ (s : List Char) (i : Int), env.settings.prev_token_begin s i ≤ max i 0
  next_nonneg : ∀ s : List Char, 0 ≤ env.settings.next_token_end s 0

/-- Lines 325-328 of `is_word_under_cursor_correct`: the range decoded around the position
asked about. -/
def text_around (env : Env) (init_char_pos : Int) : MappedWstring :=
  env.editor.get_mapped_wstring_range (prev_token_begin_in_document env init_char_pos)
    (next_token_end_in_document env (prev_token_begin_in_document env init_char_pos + 1))

/-- Modelled from the spec: the tokenizer, `cut_apostrophes` and the class `MappedWstring` are
missing; what `is_word_under_cursor_correct` relies on of §4.1 to §4.3 besides the
assumptions of the probes: the mapping of a decoded range does not decrease,
`from_original_index` of a raw offset at or after the start of the range answers an index
that is not negative and maps to a raw offset at or before the target, and `cut_apostrophes`
stays inside the token it is given. -/
structure CursorAssumptions (env : Env) : Prop where
  probes : ProbeAssumptions env
  monotone : ∀ (from_ to_ i j : Int), i ≤ j →
    (env.editor.get_mapped_wstring_range from_ to_).to_original_index i ≤
      (env.editor.get_mapped_wstring_range from_ to_).to_original_index j
  from_original : ∀ (from_ to_ r : Int), from_ ≤ r →
    0 ≤ (env.editor.get_mapped_wstring_range from_ to_).from_original_index r ∧
      (env.editor.get_mapped_wstring_range from_ to_).to_original_index
        ((env.editor.get_mapped_wstring_range from_ to_).from_original_index r) ≤ r
  cut_inside : ∀ (s : List Char) (v : View),
    v.off ≤ (env.settings.cut_apostrophes s v).off ∧
      (env.settings.cut_apostrophes s v).off + (env.settings.cut_apostrophes s v).len ≤
        v.off + v.len

/-- Lines 61-73 of `find_next_mistake`: the text handed to the scanner
(`find_first_misspelling`) in the pass that starts in state `s`; `none` when the pass decodes
nothing or `erase` throws. -/
def find_next_chunk_text (env : Env) (s : SearchState) : Option MappedWstring :=
  let doc_length := env.editor.get_active_document_length
  let from_ := s.iterator_pos
  let to_ := if s.iterator_pos + 4096 > doc_length then doc_length else s.iterator_pos + 4096
  if from_ < to_ then
    let text := env.editor.get_mapped_wstring_range from_ to_
    let size : Int := text.str.length
    let index :=
      if to_ ≠ doc_length ∧ next_token_end env text.str to_ = size then
        prev_token_begin env text.str (size - 1)
      else size
    (erase_tail text.str index).map fun erased => { text with str := erased }
  else none

/-- What the scanner finds chunk by chunk: the misspelled spans of the texts handed to it in
the first `fuel` passes of the loop of `find_next_mistake` from state `s` on; a pass that
selects, leaves the loop or faults is the last one. -/
def chunk_by_chunk_spans (env : Env) : Nat → SearchState → List (Int × Int)
  | 0, _ => []
  | fuel + 1, s =>
    (match find_next_chunk_text env s with
      | none => []
      | some text => ((check_text env text).map misspelled_spans).getD []) ++
    (match find_next_step env s with
      | Step.next s1 => chunk_by_chunk_spans env fuel s1
      | _ => [])

/-- Modelled from the spec: the geometry of the editor is missing; a window 3 points wide on
a document of one line of `length` raw offsets that is scrolled horizontally by one column:
offset `p` is drawn at the point `(p - 1, 0)`, and the point `(x, y)` shows offset `x + 1`. -/
def scrolled_viewport (length : Int) : Viewport :=
  { get_first_visible_line := 0
    get_document_line_from_visible := fun l => l
    get_lines_on_screen := 1
    editor_rect := { left := 0, top := 0, right := 3, bottom := 1 }
    get_first_visible_column := 1
    is_line_visible := fun _ => true
    get_line_start_position := fun l => if l = 0 then 0 else -1
    get_line_end_position := fun l => if l = 0 then length else -1
    get_point_from_position := fun p => { x := p - 1, y := 0 }
    char_position_from_point := fun pt => pt.x + 1
    is_spell_checking_needed_for_file := true }

/-! ## Records found by a predicate -/

/-- `find?` returns the leftmost element satisfying the predicate. -/
theorem find_some_iff_leftmost {α : Type} (p : α → Bool) (l : List α) (r : α) :
    l.find? p = some r ↔
      ∃ pre post, l = pre ++ r :: post ∧ p r = true ∧ ∀ x ∈ pre, p x = false := by
  induction l with
  | nil => simp
  | cons a t ih =>
    by_cases ha : p a = true
    · rw [List.find?_cons_of_pos _ ha]
      constructor
      · intro h
        cases h
        exact ⟨[], t, rfl, ha, by simp⟩
      · rintro ⟨pre, post, hl, _, hpre⟩
        cases pre with
        | nil =>
          simp only [List.nil_append, List.cons.injEq] at hl
          rw [hl.1]
        | cons b pre1 =>
          simp only [List.cons_append, List.cons.injEq] at hl
          have hb := hpre b (by simp)
          rw [← hl.1, ha] at hb
          cases hb
    · rw [List.find?_cons_of_neg _ ha, ih]
      have ha1 : p a = false := by simpa using ha
      constructor
      · rintro ⟨pre, post, hl, hr, hpre⟩
        refine ⟨a :: pre, post, by rw [hl]; rfl, hr, ?_⟩
        intro x hx
        rcases List.mem_cons.mp hx with hx | hx
        · rw [hx]; exact ha1
        · exact hpre x hx
      · rintro ⟨pre, post, hl, hr, hpre⟩
        cases pre with
        | nil =>
          simp only [List.nil_append, List.cons.injEq] at hl
          rw [hl.1, hr] at ha1
          cases ha1
        | cons b pre1 =>
          simp only [List.cons_append, List.cons.injEq] at hl
          exact ⟨pre1, post, hl.2, hr, fun x hx => hpre x (by simp [hx])⟩

/-- `find?` on the reversed list returns the rightmost element satisfying the predicate. -/
theorem find_reverse_some_iff_rightmost {α : Type} (p : α → Bool) (l : List α) (r : α) :
    l.reverse.find? p = some r ↔
      ∃ pre post, l = pre ++ r :: post ∧ p r = true ∧ ∀ x ∈ post, p x = false := by
  rw [find_some_iff_leftmost]
  constructor
  · rintro ⟨pre, post, hl, hr, hpre⟩
    refine ⟨post.reverse, pre.reverse, ?_, hr, fun x hx => hpre x (by simpa using hx)⟩
    have := congrArg List.reverse hl
    simpa using this
  · rintro ⟨pre, post, hl, hr, hpost⟩
    refine ⟨post.reverse, pre.reverse, ?_, hr, fun x hx => hpost x (by simpa using hx)⟩
    rw [hl]
    simp

/-- The condition tested by `find_first_misspelling` on a record. -/
theorem first_condition_iff (d : SpellerWordData) (p : Int) :
    (!d.is_correct && decide (d.word_end > p)) = true ↔ d.is_correct = false ∧ p < d.word_end := by
  cases d.is_correct <;> simp

/-- The condition tested by `find_last_misspelling` on a record. -/
theorem last_condition_iff (d : SpellerWordData) (p : Int) :
    (!d.is_correct && decide (d.word_end < p)) = true ↔ d.is_correct = false ∧ d.word_end < p := by
  cases d.is_correct <;> simp

/-! ## The first and the last misspelling of a chunk -/

/-- C3: on a decoded chunk whose scan yields `records`, `find_first_misspelling` with cursor
reference `p` returns a span exactly when it is the span `(word_start, word_end)` of the
leftmost record that is misspelled and has `word_end > p`, and it returns no value exactly when
no record is misspelled with `word_end > p`.  In the document "ok Helo ok" with only "Helo"
misspelled and the cursor at offset 0, `find_next_mistake` selects `(3, 7)` in its first pass. -/
theorem find_first_misspelling_is_leftmost :
    (∀ (env : Env) (chunk : MappedWstring) (p : Int) (records : List SpellerWordData),
        check_text env chunk = some records →
        (∀ span, find_first_misspelling env chunk p = some (some span) ↔
          ∃ pre r post, records = pre ++ r :: post ∧ span = (r.word_start, r.word_end) ∧
            (r.is_correct = false ∧ p < r.word_end) ∧
            ∀ x ∈ pre, ¬ (x.is_correct = false ∧ p < x.word_end)) ∧
        (find_first_misspelling env chunk p = some none ↔
          ∀ x ∈ records, ¬ (x.is_correct = false ∧ p < x.word_end))) ∧
    (∀ fuel : Nat, find_next_mistake (spec_env "ok Helo ok".toList 0 ["Helo"]) (fuel + 1) =
        Outcome.done { selection := some (3, 7), full_check := false }) := by
  refine ⟨?_, fun fuel => rfl⟩
  intro env chunk p records hrec
  unfold find_first_misspelling
  rw [hrec]
  simp only [Option.map_some', Option.some.injEq]
  constructor
  · intro span
    rw [Option.map_eq_some']
    constructor
    · rintro ⟨r, hfind, hspan⟩
      obtain ⟨pre, post, hl, hr, hpre⟩ := (find_some_iff_leftmost _ _ _).mp hfind
      refine ⟨pre, r, post, hl, hspan.symm, (first_condition_iff r p).mp hr, ?_⟩
      intro x hx hc
      have := hpre x hx
      rw [(first_condition_iff x p).mpr hc] at this
      cases this
    · rintro ⟨pre, r, post, hl, hspan, hr, hpre⟩
      refine ⟨r, (find_some_iff_leftmost _ _ _).mpr ⟨pre, post, hl, ?_, ?_⟩, hspan.symm⟩
      · exact (first_condition_iff r p).mpr hr
      · intro x hx
        by_contra hc
        exact hpre x hx ((first_condition_iff x p).mp (by simpa using hc))
  · rw [Option.map_eq_none', List.find?_eq_none]
    constructor
    · intro h x hx hc
      exact h x hx ((first_condition_iff x p).mpr hc)
    · intro h x hx hc
      exact h x hx ((first_condition_iff x p).mp hc)

/-- The scan of the chunk "ok Helo ok" yields three records, and no record is misspelled with
an end beyond 7, so `find_first_misspelling` returns no value for the reference 7. -/
theorem find_first_misspelling_is_leftmost_witness :
    find_first_misspelling (spec_env "ok Helo ok".toList 0 ["Helo"])
      (byte_range "ok Helo ok".toList 0 10) 7 = some none :=
  ((find_first_misspelling_is_leftmost.1 (spec_env "ok Helo ok".toList 0 ["Helo"])
      (byte_range "ok Helo ok".toList 0 10) 7 _ rfl).2).mpr (by decide)

/-! ## Invariants of the search loops -/

/-- A property kept by every pass that stays in the loop, and that makes every pass leaving the
loop produce a result satisfying `Post`, makes every finished search satisfy `Post`. -/
theorem iterate_search_done_of_invariant (body : SearchState → Step)
    (Inv : SearchState → Prop) (Post : SearchResult → Prop)
    (hnext : ∀ s s1, Inv s → body s = Step.next s1 → Inv s1)
    (hdone : ∀ s r, Inv s → body s = Step.done r → Post r) :
    ∀ (fuel : Nat) (s : SearchState) (r : SearchResult),
      Inv s → iterate_search body fuel s = Outcome.done r → Post r := by
  intro fuel
  induction fuel with
  | zero => intro s r _ h; simp [iterate_search] at h
  | succ n ih =>
    intro s r hs h
    unfold iterate_search at h
    cases hb : body s with
    | fault => rw [hb] at h; simp at h
    | done r1 =>
      rw [hb] at h
      simp only [Outcome.done.injEq] at h
      rw [← h]
      exact hdone s r1 hs hb
    | next s1 =>
      rw [hb] at h
      exact ih s1 r (hnext s s1 hs hb) h

/-- The wrap of `find_prev_mistake` either leaves the loop without a selection, or restarts
from the end of the document with reference `doc_length + 1`, or keeps the state. -/
theorem find_prev_wrap_cases (doc_length : Int) (s : SearchState) :
    (find_prev_wrap doc_length s = Step.done { selection := none, full_check := true }) ∨
    (s.full_check = false ∧ find_prev_wrap doc_length s = Step.next
      { current_position := doc_length + 1, iterator_pos := doc_length, full_check := true }) ∨
    (find_prev_wrap doc_length s = Step.next s) := by
  unfold find_prev_wrap
  by_cases h : s.iterator_pos < 0
  · cases hf : s.full_check <;> simp [h]
  · simp [h]

/-- The chunk decoded by a pass of `find_prev_mistake`. -/
theorem find_prev_step_cases (env : Env) (s : SearchState) :
    let from_ := if s.iterator_pos - 4096 < 0 then 0 else s.iterator_pos - 4096
    let text := env.editor.get_mapped_wstring_range from_ s.iterator_pos
    (from_ < s.iterator_pos ∧ find_last_misspelling env text s.current_position = none ∧
      find_prev_step env s = Step.fault) ∨
    (∃ pos, from_ < s.iterator_pos ∧
      find_last_misspelling env text s.current_position = some (some pos) ∧
      find_prev_step env s = Step.done { selection := some pos, full_check := s.full_check }) ∨
    (∃ ip, find_prev_step env s =
      find_prev_wrap env.editor.get_active_document_length { s with iterator_pos := ip }) := by
  intro from_ text
  by_cases hlt : from_ < s.iterator_pos
  · cases hfl : find_last_misspelling env text s.current_position with
    | none =>
      left
      refine ⟨hlt, rfl, ?_⟩
      simp only [find_prev_step]
      rw [if_pos hlt, hfl]
    | some o =>
      cases o with
      | none =>
        right; right
        refine ⟨s.iterator_pos -
          (4096 - (text.to_original_index (next_token_end env text.str 0) - from_)), ?_⟩
        simp only [find_prev_step]
        rw [if_pos hlt, hfl]
      | some pos =>
        right; left
        refine ⟨pos, hlt, rfl, ?_⟩
        simp only [find_prev_step]
        rw [if_pos hlt, hfl]
  · right; right
    refine ⟨s.iterator_pos - 1, ?_⟩
    simp only [find_prev_step]
    rw [if_neg hlt]

/-- C4: on a chunk whose scan yields `records`, `find_last_misspelling` with reference `p`
returns exactly the span of the rightmost record that is misspelled and has `word_end < p`
(strictly), and no value exactly when there is no such record; a pass of `find_prev_mistake`
whose chunk has such a record selects that span and leaves the loop; every span selected by
`find_prev_mistake` was returned by `find_last_misspelling` on a decoded chunk, for the cursor
position before the wrap and for `doc_length + 1` after it; and for the reference
`doc_length + 1` every misspelled record ending inside the document qualifies. -/
theorem find_last_misspelling_is_rightmost (env : Env) :
    (∀ (chunk : MappedWstring) (p : Int) (records : List SpellerWordData),
        check_text env chunk = some records →
        (∀ span, find_last_misspelling env chunk p = some (some span) ↔
          ∃ pre r post, records = pre ++ r :: post ∧ span = (r.word_start, r.word_end) ∧
            (r.is_correct = false ∧ r.word_end < p) ∧
            ∀ x ∈ post, ¬ (x.is_correct = false ∧ x.word_end < p)) ∧
        (find_last_misspelling env chunk p = some none ↔
          ∀ x ∈ records, ¬ (x.is_correct = false ∧ x.word_end < p))) ∧
    (∀ (s : SearchState) (span : Int × Int),
        (if s.iterator_pos - 4096 < 0 then 0 else s.iterator_pos - 4096) < s.iterator_pos →
        find_last_misspelling env
          (env.editor.get_mapped_wstring_range
            (if s.iterator_pos - 4096 < 0 then 0 else s.iterator_pos - 4096) s.iterator_pos)
          s.current_position = some (some span) →
        find_prev_step env s = Step.done { selection := some span, full_check := s.full_check }) ∧
    (∀ (fuel : Nat) (span : Int × Int) (wrapped : Bool),
        find_prev_mistake env fuel = Outcome.done { selection := some span, full_check := wrapped } →
        ∃ from_ to_, find_last_misspelling env (env.editor.get_mapped_wstring_range from_ to_)
          (if wrapped then env.editor.get_active_document_length + 1
            else env.editor.get_current_pos) = some (some span)) ∧
    (∀ (chunk : MappedWstring) (records : List SpellerWordData),
        check_text env chunk = some records →
        (∀ r ∈ records, r.word_end ≤ env.editor.get_active_document_length) →
        ∀ span, find_last_misspelling env chunk (env.editor.get_active_document_length + 1) =
            some (some span) ↔
          ∃ pre r post, records = pre ++ r :: post ∧ span = (r.word_start, r.word_end) ∧
            r.is_correct = false ∧ ∀ x ∈ post, x.is_correct = true) := by
  have key : ∀ (chunk : MappedWstring) (p : Int) (records : List SpellerWordData),
      check_text env chunk = some records →
      (∀ span, find_last_misspelling env chunk p = some (some span) ↔
        ∃ pre r post, records = pre ++ r :: post ∧ span = (r.word_start, r.word_end) ∧
          (r.is_correct = false ∧ r.word_end < p) ∧
          ∀ x ∈ post, ¬ (x.is_correct = false ∧ x.word_end < p)) ∧
      (find_last_misspelling env chunk p = some none ↔
        ∀ x ∈ records, ¬ (x.is_correct = false ∧ x.word_end < p)) := by
    intro chunk p records hrec
    unfold find_last_misspelling
    rw [hrec]
    simp only [Option.map_some', Option.some.injEq]
    constructor
    · intro span
      rw [Option.map_eq_some']
      constructor
      · rintro ⟨r, hfind, hspan⟩
        obtain ⟨pre, post, hl, hr, hpost⟩ := (find_reverse_some_iff_rightmost _ _ _).mp hfind
        refine ⟨pre, r, post, hl, hspan.symm, (last_condition_iff r p).mp hr, ?_⟩
        intro x hx hc
        have := hpost x hx
        rw [(last_condition_iff x p).mpr hc] at this
        cases this
      · rintro ⟨pre, r, post, hl, hspan, hr, hpost⟩
        refine ⟨r, (find_reverse_some_iff_rightmost _ _ _).mpr ⟨pre, post, hl, ?_, ?_⟩,
          hspan.symm⟩
        · exact (last_condition_iff r p).mpr hr
        · intro x hx
          by_contra hc
          exact hpost x hx ((last_condition_iff x p).mp (by simpa using hc))
    · rw [Option.map_eq_none', List.find?_eq_none]
      constructor
      · intro h x hx hc
        exact h x (by simpa using hx) ((last_condition_iff x p).mpr hc)
      · intro h x hx hc
        exact h x (by simpa using hx) ((last_condition_iff x p).mp hc)
  refine ⟨key, ?_, ?_, ?_⟩
  · intro s span hlt hfl
    simp only [find_prev_step]
    rw [if_pos hlt, hfl]
  · intro fuel span wrapped hrun
    have h := iterate_search_done_of_invariant (find_prev_step env)
      (fun s => s.current_position =
        if s.full_check then env.editor.get_active_document_length + 1
        else env.editor.get_current_pos)
      (fun r => ∀ sp, r.selection = some sp →
        ∃ from_ to_, find_last_misspelling env (env.editor.get_mapped_wstring_range from_ to_)
          (if r.full_check then env.editor.get_active_document_length + 1
            else env.editor.get_current_pos) = some (some sp))
      ?_ ?_ fuel _ _ ?_ hrun span rfl
    · exact h
    · intro s s1 hs hstep
      rcases find_prev_step_cases env s with ⟨_, _, hf⟩ | ⟨pos, _, _, hd⟩ | ⟨ip, hw⟩
      · rw [hf] at hstep; cases hstep
      · rw [hd] at hstep; cases hstep
      · rw [hw] at hstep
        rcases find_prev_wrap_cases env.editor.get_active_document_length
          { s with iterator_pos := ip } with hd | ⟨_, hn⟩ | hn
        · rw [hd] at hstep; cases hstep
        · rw [hn] at hstep
          cases hstep
          simp
        · rw [hn] at hstep
          cases hstep
          exact hs
    · intro s r hs hstep sp hsel
      rcases find_prev_step_cases env s with ⟨_, _, hf⟩ | ⟨pos, _, hfl, hd⟩ | ⟨ip, hw⟩
      · rw [hf] at hstep; cases hstep
      · rw [hd] at hstep
        cases hstep
        simp only [Option.some.injEq] at hsel
        rw [← hsel]
        simp only at hs
        exact ⟨_, _, by rw [← hs]; exact hfl⟩
      · rw [hw] at hstep
        rcases find_prev_wrap_cases env.editor.get_active_document_length
          { s with iterator_pos := ip } with hd | ⟨_, hn⟩ | hn
        · rw [hd] at hstep; cases hstep; cases hsel
        · rw [hn] at hstep; cases hstep
        · rw [hn] at hstep; cases hstep
    · simp
  · intro chunk records hrec hend span
    rw [(key chunk _ records hrec).1 span]
    constructor
    · rintro ⟨pre, r, post, hl, hspan, hr, hpost⟩
      refine ⟨pre, r, post, hl, hspan, hr.1, ?_⟩
      intro x hx
      have hx1 : x ∈ records := by rw [hl]; simp [hx]
      have := hend x hx1
      cases hc : x.is_correct with
      | true => rfl
      | false => exact absurd ⟨hc, by omega⟩ (hpost x hx)
    · rintro ⟨pre, r, post, hl, hspan, hr, hpost⟩
      have hr1 : r ∈ records := by rw [hl]; simp
      have := hend r hr1
      refine ⟨pre, r, post, hl, hspan, ⟨hr, by omega⟩, ?_⟩
      intro x hx hc
      rw [hpost x hx] at hc
      cases hc.1

/-- In "ok Helo ok" with the cursor at 0 the backward search wraps and then selects `(3, 7)`,
the span `find_last_misspelling` returns for the reference `10 + 1`. -/
theorem find_last_misspelling_is_rightmost_witness :
    ∃ from_ to_, find_last_misspelling (spec_env "ok Helo ok".toList 0 ["Helo"])
      ((spec_env "ok Helo ok".toList 0 ["Helo"]).editor.get_mapped_wstring_range from_ to_)
      (if true = true then
        (spec_env "ok Helo ok".toList 0 ["Helo"]).editor.get_active_document_length + 1
        else (spec_env "ok Helo ok".toList 0 ["Helo"]).editor.get_current_pos) =
      some (some (3, 7)) :=
  (find_last_misspelling_is_rightmost (spec_env "ok Helo ok".toList 0 ["Helo"])).2.2.1
    3 (3, 7) true rfl

/-- A span returned by `find_first_misspelling` ends strictly after the reference. -/
theorem find_first_misspelling_end_gt (env : Env) (text : MappedWstring) (p : Int)
    (span : Int × Int) (h : find_first_misspelling env text p = some (some span)) :
    p < span.2 := by
  unfold find_first_misspelling at h
  cases hc : check_text env text with
  | none => rw [hc] at h; cases h
  | some records =>
    rw [hc] at h
    simp only [Option.map_some', Option.some.injEq] at h
    obtain ⟨r, hfind, hspan⟩ := Option.map_eq_some'.mp h
    obtain ⟨_, _, _, hr, _⟩ := (find_some_iff_leftmost _ _ _).mp hfind
    rw [← hspan]
    exact ((first_condition_iff r p).mp hr).2

/-- The wrap of `find_next_mistake` either leaves the loop without a selection, or restarts
from offset 0 with reference 0, or keeps the state. -/
theorem find_next_wrap_cases (doc_length to_ : Int) (s : SearchState) :
    (find_next_wrap doc_length to_ s = Step.done { selection := none, full_check := true }) ∨
    (s.full_check = false ∧ find_next_wrap doc_length to_ s = Step.next
      { current_position := 0, iterator_pos := 0, full_check := true }) ∨
    (find_next_wrap doc_length to_ s = Step.next s) := by
  unfold find_next_wrap
  by_cases h : to_ = doc_length
  · cases hf : s.full_check <;> simp [h]
  · simp [h]

/-- The ways a pass of `find_next_mistake` can end. -/
theorem find_next_step_cases (env : Env) (s : SearchState) :
    (find_next_step env s = Step.fault) ∨
    (∃ text pos, find_first_misspelling env text s.current_position = some (some pos) ∧
      find_next_step env s = Step.done { selection := some pos, full_check := s.full_check }) ∨
    (∃ to_ ip, find_next_step env s =
      find_next_wrap env.editor.get_active_document_length to_ { s with iterator_pos := ip }) := by
  by_cases hlt : s.iterator_pos <
      (if s.iterator_pos + 4096 > env.editor.get_active_document_length then
        env.editor.get_active_document_length else s.iterator_pos + 4096)
  · simp only [find_next_step]
    rw [if_pos hlt]
    cases he : erase_tail _ _ with
    | none => left; rfl
    | some erased =>
      simp only []
      cases hff : find_first_misspelling env _ s.current_position with
      | none => left; rfl
      | some o =>
        cases o with
        | none => right; right; exact ⟨_, _, rfl⟩
        | some pos => right; left; exact ⟨_, pos, hff, rfl⟩
  · right; right
    refine ⟨if s.iterator_pos + 4096 > env.editor.get_active_document_length then
        env.editor.get_active_document_length else s.iterator_pos + 4096, s.iterator_pos, ?_⟩
    simp only [find_next_step]
    rw [if_neg hlt]

/-- Every span selected by `find_next_mistake` ends strictly after the reference in force: the
cursor position before the wrap, offset 0 after it. -/
theorem find_next_mistake_selection_end (env : Env) (fuel : Nat) (span : Int × Int)
    (wrapped : Bool)
    (h : find_next_mistake env fuel =
      Outcome.done { selection := some span, full_check := wrapped }) :
    (if wrapped then 0 else env.editor.get_current_pos) < span.2 := by
  have key := iterate_search_done_of_invariant (find_next_step env)
    (fun s => s.current_position = if s.full_check then 0 else env.editor.get_current_pos)
    (fun r => ∀ sp, r.selection = some sp →
      (if r.full_check then 0 else env.editor.get_current_pos) < sp.2)
    ?_ ?_ fuel _ _ ?_ h span rfl
  · exact key
  · intro s s1 hs hstep
    rcases find_next_step_cases env s with hf | ⟨text, pos, _, hd⟩ | ⟨to_, ip, hw⟩
    · rw [hf] at hstep; cases hstep
    · rw [hd] at hstep; cases hstep
    · rw [hw] at hstep
      rcases find_next_wrap_cases env.editor.get_active_document_length to_
        { s with iterator_pos := ip } with hd | ⟨_, hn⟩ | hn
      · rw [hd] at hstep; cases hstep
      · rw [hn] at hstep
        cases hstep
        simp
      · rw [hn] at hstep
        cases hstep
        exact hs
  · intro s r hs hstep sp hsel
    rcases find_next_step_cases env s with hf | ⟨text, pos, hff, hd⟩ | ⟨to_, ip, hw⟩
    · rw [hf] at hstep; cases hstep
    · rw [hd] at hstep
      cases hstep
      simp only [Option.some.injEq] at hsel
      rw [← hsel]
      simp only at hs
      rw [← hs]
      exact find_first_misspelling_end_gt env text _ pos hff
    · rw [hw] at hstep
      rcases find_next_wrap_cases env.editor.get_active_document_length to_
        { s with iterator_pos := ip } with hd | ⟨_, hn⟩ | hn
      · rw [hd] at hstep; cases hstep; cases hsel
      · rw [hn] at hstep; cases hstep
      · rw [hn] at hstep; cases hstep
  · simp

/-- C5, as stated, fails: in "ok Helo ok" with only "Helo" misspelled and the cursor at
offset 5, inside the token with raw span `(3, 7)`, `find_next_mistake` selects `(3, 7)` in its
first pass, before any wrap (the wrap flag is still unset). -/
theorem find_next_mistake_reports_token_under_cursor :
    ({ off := 3, len := 4 } : View) ∈ spec_get_all_tokens "ok Helo ok".toList ∧
    ((3 : Int) ≤ 5 ∧ (5 : Int) ≤ 7) ∧
    ¬ (∀ (fuel : Nat) (r : SearchResult),
        find_next_mistake (spec_env "ok Helo ok".toList 5 ["Helo"]) fuel = Outcome.done r →
        r.selection = some (3, 7) → r.full_check = true) := by
  refine ⟨by decide, by decide, ?_⟩
  intro h
  have := h 1 { selection := some (3, 7), full_check := false } rfl rfl
  cases this

/-- C5 (amended): for every document, every cursor position `p` and every span `(s, e)` with
`e ≤ p` (in particular the token at whose end the cursor sits, `p = e`), `find_next_mistake`
selects `(s, e)` only after the search has wrapped past the document end: a span selected
before the wrap ends strictly after the cursor. -/
theorem find_next_mistake_skips_token_before_wrap (env : Env) (fuel : Nat) (s e : Int)
    (wrapped : Bool) (hend : e ≤ env.editor.get_current_pos)
    (h : find_next_mistake env fuel =
      Outcome.done { selection := some (s, e), full_check := wrapped }) :
    wrapped = true := by
  have := find_next_mistake_selection_end env fuel (s, e) wrapped h
  cases wrapped with
  | true => rfl
  | false =>
    simp only [Bool.false_eq_true, if_false] at this
    omega

/-- With the cursor at offset 7, the end of "Helo" in "ok Helo ok", the search selects
`(3, 7)` in its second pass, after the wrap. -/
theorem find_next_mistake_skips_token_before_wrap_witness :
    (7 : Int) ≤ (spec_env "ok Helo ok".toList 7 ["Helo"]).editor.get_current_pos ∧
    find_next_mistake (spec_env "ok Helo ok".toList 7 ["Helo"]) 2 =
      Outcome.done { selection := some (3, 7), full_check := true } ∧
    true = true :=
  ⟨by decide, rfl,
    find_next_mistake_skips_token_before_wrap (spec_env "ok Helo ok".toList 7 ["Helo"]) 2 3 7 true
      (by decide) rfl⟩

/-! ## The scanning pass -/

/-- The first loop of `check_text` keeps exactly the eligible tokens, in token order. -/
theorem collect_words_eq (env : Env) (text : MappedWstring) (tokens : List View) :
    collect_words env text tokens =
      (((tokens.map (env.settings.cut_apostrophes text.str)).filter
        fun v => is_spellchecking_needed env text.str v (text.to_original_index (v.off : Int))).map
        (word_record env text)) := by
  induction tokens with
  | nil => rfl
  | cons t rest ih =>
    simp only [collect_words, List.map_cons]
    by_cases h : is_spellchecking_needed env text.str (env.settings.cut_apostrophes text.str t)
        (text.to_original_index ((env.settings.cut_apostrophes text.str t).off : Int)) = true
    · rw [if_pos h, ih]
      simp only [List.filter_cons]
      rw [if_pos h]
      rfl
    · rw [if_neg h, ih]
      simp only [List.filter_cons]
      rw [if_neg h]

/-- The records collected for a text are those of its eligible tokens. -/
theorem collect_words_eligible (env : Env) (text : MappedWstring) :
    collect_words env text (env.settings.get_all_tokens text.str) =
      (eligible_tokens env text).map (word_record env text) :=
  collect_words_eq env text _

/-- The indexed loop succeeds when the response covers every record, and then stores
`spellcheck_result[i + j]` in record `j`. -/
theorem assign_results_spec (resp : List Bool) :
    ∀ (words : List SpellerWordData) (i : Nat), i + words.length ≤ resp.length →
      ∃ out, assign_results resp i words = some out ∧ out.length = words.length ∧
        (out.map fun w => w.token) = (words.map fun w => w.token) ∧
        ∀ j w, words[j]? = some w →
          ∃ b, resp[i + j]? = some b ∧ out[j]? = some { w with is_correct := b } := by
  intro words
  induction words with
  | nil => intro i _; exact ⟨[], rfl, rfl, rfl, by simp⟩
  | cons w ws ih =>
    intro i hi
    simp only [List.length_cons] at hi
    have hlt : i < resp.length := by omega
    obtain ⟨out, hout, hlen, htok, hidx⟩ := ih (i + 1) (by omega)
    refine ⟨{ w with is_correct := resp[i] } :: out, ?_, by simp [hlen], by simp [htok], ?_⟩
    · simp only [assign_results]
      rw [List.getElem?_eq_getElem hlt, hout]
    · intro j w1 hj
      cases j with
      | zero =>
        simp only [List.getElem?_cons_zero, Option.some.injEq] at hj
        exact ⟨resp[i], by simp [List.getElem?_eq_getElem hlt], by simp [hj]⟩
      | succ k =>
        simp only [List.getElem?_cons_succ] at hj
        obtain ⟨b, hb, hk⟩ := hidx k w1 hj
        refine ⟨b, ?_, by simpa using hk⟩
        have : i + (k + 1) = i + 1 + k := by omega
        rw [this]
        exact hb

/-- The value of `check_text` on a non-empty text. -/
theorem check_text_of_ne_nil (env : Env) (text : MappedWstring) (hne : text.str ≠ []) :
    check_text env text =
      if (env.speller.check_words
          ((collect_words env text (env.settings.get_all_tokens text.str)).map
            fun w => w.word_for_speller)).isEmpty = false then
        assign_results
          (env.speller.check_words
            ((collect_words env text (env.settings.get_all_tokens text.str)).map
              fun w => w.word_for_speller)) 0
          (collect_words env text (env.settings.get_all_tokens text.str))
      else some ((collect_words env text (env.settings.get_all_tokens text.str)).map
        fun w => { w with is_correct := true }) := by
  have h : text.str.isEmpty = false := by
    cases hs : text.str with
    | nil => exact absurd hs hne
    | cons a t => rfl
  simp [check_text, check_text_run, h]

/-- The speller calls of `check_text` on a non-empty text. -/
theorem check_text_run_calls_of_ne_nil (env : Env) (text : MappedWstring) (hne : text.str ≠ []) :
    (check_text_run env text).calls =
      [SpellerCall.check_words ((eligible_tokens env text).map (to_word_for_speller env text.str))] := by
  have h : text.str.isEmpty = false := by
    cases hs : text.str with
    | nil => exact absurd hs hne
    | cons a t => rfl
  simp only [check_text_run, h, Bool.false_eq_true, if_false, collect_words_eligible,
    List.map_map]
  rfl

/-- C7, as stated, fails: on the empty mapped text `check_text` returns before reaching the
speller, so a call of `check_text` makes no `check_words` call at all. -/
theorem check_text_makes_no_call_on_empty_text :
    ¬ ∃ batch, (check_text_run (spec_env [] 0 []) (byte_range [] 0 0)).calls =
      [SpellerCall.check_words batch] := by
  rintro ⟨batch, h⟩
  have hcalls : (check_text_run (spec_env [] 0 []) (byte_range [] 0 0)).calls = [] := rfl
  rw [hcalls] at h
  cases h

/-- C7 (amended): for every non-empty mapped text, one call of `check_text` invokes the batch
operation `check_words` exactly once, passing the normalized forms of all eligible tokens in
left-to-right token order; for the empty text it invokes nothing; and it never invokes the
per-word operation `check_word`. -/
theorem check_text_calls_check_words_once (env : Env) (text : MappedWstring) :
    (text.str ≠ [] → (check_text_run env text).calls =
      [SpellerCall.check_words
        ((eligible_tokens env text).map (to_word_for_speller env text.str))]) ∧
    (text.str = [] → (check_text_run env text).calls = []) ∧
    (∀ w, SpellerCall.check_word w ∉ (check_text_run env text).calls) := by
  refine ⟨check_text_run_calls_of_ne_nil env text, ?_, ?_⟩
  · intro h
    simp [check_text_run, h]
  · intro w hw
    by_cases h : text.str = []
    · simp [check_text_run, h] at hw
    · rw [check_text_run_calls_of_ne_nil env text h] at hw
      simp at hw

/-- On "Helo wrold." the one call carries the batch "Helo", "wrold" (no trailing period read
after "Helo", one after "wrold"). -/
theorem check_text_calls_check_words_once_witness :
    (check_text_run (spec_env "Helo wrold.".toList 0 ["Helo", "wrold"])
        (byte_range "Helo wrold.".toList 0 11)).calls =
      [SpellerCall.check_words
        [{ str := "Helo".toList, ends_with_dot := false },
         { str := "wrold".toList, ends_with_dot := true }]] :=
  ((check_text_calls_check_words_once (spec_env "Helo wrold.".toList 0 ["Helo", "wrold"])
      (byte_range "Helo wrold.".toList 0 11)).1 (by decide)).trans (by decide)

/-- C9: for a non-empty text whose batch has `n` eligible tokens and a `check_words` response
that is empty or of length `n`, `check_text` reads the response only in bounds (it does not
fault), returns `n` records for the same tokens, and sets the `i`-th record's `is_correct` to
`response[i]` when the response is non-empty, and to `true` for every record when it is
empty. -/
theorem check_text_zips_response (env : Env) (text : MappedWstring) (hne : text.str ≠ [])
    (hresp : spellcheck_result env text = [] ∨
      (spellcheck_result env text).length = (words_to_check env text).length) :
    ∃ out, check_text env text = some out ∧
      out.length = (words_to_check env text).length ∧
      (spellcheck_result env text = [] →
        ∀ (i : Nat) (w : SpellerWordData), (words_to_check env text)[i]? = some w →
          out[i]? = some { w with is_correct := true }) ∧
      (spellcheck_result env text ≠ [] →
        ∀ (i : Nat) (w : SpellerWordData), (words_to_check env text)[i]? = some w →
          ∃ b, (spellcheck_result env text)[i]? = some b ∧
            out[i]? = some { w with is_correct := b }) := by
  rw [check_text_of_ne_nil env text hne]
  unfold spellcheck_result words_to_check at *
  generalize collect_words env text (env.settings.get_all_tokens text.str) = words at hresp ⊢
  generalize env.speller.check_words (words.map fun w => w.word_for_speller) = resp at hresp ⊢
  by_cases he : resp = []
  · subst he
    refine ⟨words.map fun w => { w with is_correct := true }, by simp, by simp, ?_, ?_⟩
    · intro _ i w hw
      simp [hw]
    · intro h
      exact absurd rfl h
  · have hlen : resp.length = words.length := by
      rcases hresp with h | h
      · exact absurd h he
      · exact h
    obtain ⟨out, hout, holen, _, hidx⟩ := assign_results_spec resp words 0 (by omega)
    have hemp : resp.isEmpty = false := by
      cases resp with
      | nil => exact absurd rfl he
      | cons a t => rfl
    refine ⟨out, by rw [if_pos hemp]; exact hout, holen, fun h => absurd h he, ?_⟩
    intro _ i w hw
    obtain ⟨b, hb, ho⟩ := hidx i w hw
    exact ⟨b, by simpa using hb, ho⟩

/-- On "ok Helo ok" the response has one answer per token, and the second record is marked
misspelled. -/
theorem check_text_zips_response_witness :
    ∃ out, check_text (spec_env "ok Helo ok".toList 0 ["Helo"])
        (byte_range "ok Helo ok".toList 0 10) = some out ∧ out.length = 3 ∧
      (out.map fun w => w.is_correct) = [true, false, true] := by
  obtain ⟨out, hout, hlen, _, _⟩ :=
    check_text_zips_response (spec_env "ok Helo ok".toList 0 ["Helo"])
      (byte_range "ok Helo ok".toList 0 10) (by decide) (Or.inr (by decide))
  refine ⟨out, hout, hlen, ?_⟩
  have h : check_text (spec_env "ok Helo ok".toList 0 ["Helo"])
      (byte_range "ok Helo ok".toList 0 10) = some _ := rfl
  rw [h] at hout
  cases hout
  rfl

/-- A datum of the records that does not depend on `is_correct` is left as it was by
`assign_results`. -/
theorem assign_results_map {β : Type} (f : SpellerWordData → β)
    (hf : ∀ (w : SpellerWordData) (b : Bool), f { w with is_correct := b } = f w)
    (resp : List Bool) :
    ∀ (words : List SpellerWordData) (i : Nat) (out : List SpellerWordData),
      assign_results resp i words = some out → out.map f = words.map f := by
  intro words
  induction words with
  | nil =>
    intro i out h
    simp only [assign_results, Option.some.injEq] at h
    rw [← h]
  | cons w ws ih =>
    intro i out h
    simp only [assign_results] at h
    cases hr : resp[i]? with
    | none => rw [hr] at h; cases h
    | some b =>
      rw [hr] at h
      cases ha : assign_results resp (i + 1) ws with
      | none => rw [ha] at h; cases h
      | some o =>
        rw [ha] at h
        simp only [Option.some.injEq] at h
        rw [← h]
        simp [ih (i + 1) o ha, hf]

/-- A datum of the records that does not depend on `is_correct` is, for the records
`check_text` returns on a non-empty text, the datum of the records of the eligible tokens. -/
theorem check_text_map {β : Type} (f : SpellerWordData → β)
    (hf : ∀ (w : SpellerWordData) (b : Bool), f { w with is_correct := b } = f w)
    (env : Env) (text : MappedWstring) (out : List SpellerWordData)
    (h : check_text env text = some out) (hne : text.str ≠ []) :
    out.map f = (eligible_tokens env text).map fun v => f (word_record env text v) := by
  rw [check_text_of_ne_nil env text hne] at h
  have hcw : (collect_words env text (env.settings.get_all_tokens text.str)).map f =
      (eligible_tokens env text).map fun v => f (word_record env text v) := by
    rw [collect_words_eligible, List.map_map]
    rfl
  split at h
  · rw [assign_results_map f hf _ _ _ _ h, hcw]
  · simp only [Option.some.injEq] at h
    rw [← h, List.map_map, ← hcw]
    exact List.map_congr_left fun w _ => hf w true

/-- The records `check_text` returns belong, in order, to the eligible tokens. -/
theorem check_text_tokens (env : Env) (text : MappedWstring) (out : List SpellerWordData)
    (h : check_text env text = some out) (hne : text.str ≠ []) :
    (out.map fun w => w.token) = eligible_tokens env text := by
  rw [check_text_map (fun w => w.token) (fun _ _ => rfl) env text out h hne]
  exact List.map_id _

/-- Every eligible token passes `is_spellchecking_needed`. -/
theorem eligible_tokens_needed (env : Env) (text : MappedWstring) (v : View)
    (hv : v ∈ eligible_tokens env text) :
    is_spellchecking_needed env text.str v (text.to_original_index (v.off : Int)) = true := by
  unfold eligible_tokens at hv
  exact (List.mem_filter.mp hv).2

/-- C10: in a scanning pass over any mapped text, whatever the speller answers, the batch sent
to `check_words` consists of the normalized forms of tokens that pass
`is_spellchecking_needed` (so a token failing the test is never sent), every word returned by
`get_misspelled_words` is a token that passes the test, and when the speller reports that it
is not working the batch is empty and `get_misspelled_words` returns nothing. -/
theorem ineligible_tokens_are_never_checked (env : Env) (text : MappedWstring) :
    (∀ batch, SpellerCall.check_words batch ∈ (check_text_run env text).calls →
      ∃ sent : List View, batch = sent.map (to_word_for_speller env text.str) ∧
        List.Sublist sent
          ((env.settings.get_all_tokens text.str).map (env.settings.cut_apostrophes text.str)) ∧
        ∀ v ∈ sent,
          is_spellchecking_needed env text.str v (text.to_original_index (v.off : Int)) = true) ∧
    (∀ misspelled, get_misspelled_words env text = some misspelled →
      ∀ v ∈ misspelled,
        is_spellchecking_needed env text.str v (text.to_original_index (v.off : Int)) = true) ∧
    (env.speller.is_working = false →
      (∀ batch, SpellerCall.check_words batch ∈ (check_text_run env text).calls → batch = []) ∧
      get_misspelled_words env text = some []) := by
  have hnw : env.speller.is_working = false → eligible_tokens env text = [] := by
    intro hw
    unfold eligible_tokens
    rw [List.filter_eq_nil_iff]
    intro v _
    simp [is_spellchecking_needed, hw]
  by_cases hne : text.str = []
  · have hcalls : (check_text_run env text).calls = [] := by simp [check_text_run, hne]
    have hms : get_misspelled_words env text = some [] := by
      simp [get_misspelled_words, check_text, check_text_run, hne]
    refine ⟨?_, ?_, fun _ => ⟨?_, hms⟩⟩
    · intro batch hb
      rw [hcalls] at hb
      cases hb
    · intro ms h v hv
      rw [hms] at h
      cases h
      cases hv
    · intro batch hb
      rw [hcalls] at hb
      cases hb
  · have hcalls := check_text_run_calls_of_ne_nil env text hne
    refine ⟨?_, ?_, ?_⟩
    · intro batch hb
      rw [hcalls] at hb
      simp only [List.mem_singleton, SpellerCall.check_words.injEq] at hb
      exact ⟨eligible_tokens env text, hb, List.filter_sublist _,
        fun v hv => eligible_tokens_needed env text v hv⟩
    · intro ms h v hv
      unfold get_misspelled_words at h
      cases hc : check_text env text with
      | none => rw [hc] at h; cases h
      | some out =>
        rw [hc] at h
        simp only [Option.map_some', Option.some.injEq] at h
        rw [← h] at hv
        obtain ⟨w, hw, hwv⟩ := List.mem_map.mp hv
        have hwo : w ∈ out := (List.mem_filter.mp hw).1
        have hmem : v ∈ out.map fun w => w.token := List.mem_map.mpr ⟨w, hwo, hwv⟩
        rw [check_text_tokens env text out hc hne] at hmem
        exact eligible_tokens_needed env text v hmem
    · intro hw
      constructor
      · intro batch hb
        rw [hcalls] at hb
        simp only [List.mem_singleton, SpellerCall.check_words.injEq] at hb
        rw [hb, hnw hw]
        rfl
      · have hcw : collect_words env text (env.settings.get_all_tokens text.str) = [] := by
          rw [collect_words_eligible, hnw hw]
          rfl
        unfold get_misspelled_words
        rw [check_text_of_ne_nil env text hne, hcw]
        split <;> rfl

/-- With numbers excluded from checking, the batch for "abc 123 xyz" holds "abc" and "xyz"
only, and "123" is not reported although the dictionary would judge it misspelled. -/
theorem ineligible_tokens_are_never_checked_witness :
    get_misspelled_words
        (spec_env_with (fun w => !w.all Char.isDigit) "abc 123 xyz".toList 0 ["123", "xyz"])
        (byte_range "abc 123 xyz".toList 0 11) = some [{ off := 8, len := 3 }] ∧
    is_spellchecking_needed
        (spec_env_with (fun w => !w.all Char.isDigit) "abc 123 xyz".toList 0 ["123", "xyz"])
        "abc 123 xyz".toList { off := 8, len := 3 }
        ((byte_range "abc 123 xyz".toList 0 11).to_original_index 8) = true :=
  ⟨rfl,
    (ineligible_tokens_are_never_checked
      (spec_env_with (fun w => !w.all Char.isDigit) "abc 123 xyz".toList 0 ["123", "xyz"])
      (byte_range "abc 123 xyz".toList 0 11)).2.1 [{ off := 8, len := 3 }] rfl
      { off := 8, len := 3 } (by simp)⟩

/-- C8: for every mapped text whose index mapping is non-decreasing (into non-negative raw
offsets), whose tokenizer yields non-overlapping tokens in left-to-right order, and whose
apostrophe cutting keeps a token inside itself, the records returned by `check_text` are in
token order and their raw spans are non-negative, half-open, sorted and pairwise
non-overlapping: each record has `0 ≤ word_start ≤ word_end`, and a record `r` in front of a
record `r'` has `r.word_end ≤ r'.word_start`. -/
theorem check_text_spans_sorted (env : Env) (text : MappedWstring)
    (out : List SpellerWordData)
    (hmono : ∀ i j : Int, 0 ≤ i → i ≤ j → text.to_original_index i ≤ text.to_original_index j)
    (hnonneg : 0 ≤ text.to_original_index 0)
    (htok : (env.settings.get_all_tokens text.str).Pairwise fun a b => a.off + a.len ≤ b.off)
    (hcut : ∀ v ∈ env.settings.get_all_tokens text.str,
      v.off ≤ (env.settings.cut_apostrophes text.str v).off ∧
      (env.settings.cut_apostrophes text.str v).off + (env.settings.cut_apostrophes text.str v).len
        ≤ v.off + v.len)
    (h : check_text env text = some out) :
    List.Sublist (out.map fun r => r.token)
      ((env.settings.get_all_tokens text.str).map (env.settings.cut_apostrophes text.str)) ∧
    (∀ r ∈ out, 0 ≤ r.word_start ∧ r.word_start ≤ r.word_end) ∧
    out.Pairwise (fun r r1 => r.word_end ≤ r1.word_start) := by
  by_cases hne : text.str = []
  · have : out = [] := by
      simp only [check_text, check_text_run, hne, List.isEmpty_nil, if_true,
        Option.some.injEq] at h
      exact h.symm
    subst this
    simp
  · have htoks := check_text_tokens env text out h hne
    have hspans := check_text_map (fun w => (w.word_start, w.word_end)) (fun _ _ => rfl)
      env text out h hne
    refine ⟨?_, ?_, ?_⟩
    · rw [htoks]
      exact List.filter_sublist _
    · intro r hr
      have hmem : (r.word_start, r.word_end) ∈ out.map fun w => (w.word_start, w.word_end) :=
        List.mem_map.mpr ⟨r, hr, rfl⟩
      rw [hspans] at hmem
      obtain ⟨v, _, hv⟩ := List.mem_map.mp hmem
      simp only [word_record, Prod.mk.injEq] at hv
      rw [← hv.1, ← hv.2]
      have h0 := hmono 0 (v.off : Int) (le_refl 0) (by omega)
      have h1 := hmono (v.off : Int) ((v.off : Int) + (v.len : Int)) (by omega) (by omega)
      omega
    · have hcutpw : ((env.settings.get_all_tokens text.str).map
          (env.settings.cut_apostrophes text.str)).Pairwise
          fun a b => a.off + a.len ≤ b.off := by
        rw [List.pairwise_map]
        refine List.Pairwise.imp_of_mem ?_ htok
        intro a b ha hb hab
        have h1 := hcut a ha
        have h2 := hcut b hb
        omega
      have helig : (eligible_tokens env text).Pairwise fun a b => a.off + a.len ≤ b.off :=
        List.Pairwise.sublist (List.filter_sublist _) hcutpw
      have hpw : (out.map fun w => (w.word_start, w.word_end)).Pairwise
          fun x y => x.2 ≤ y.1 := by
        rw [hspans, List.pairwise_map]
        refine List.Pairwise.imp ?_ helig
        intro a b hab
        simp only [word_record]
        exact hmono _ _ (by omega) (by exact_mod_cast hab)
      rw [List.pairwise_map] at hpw
      exact hpw

/-- The scan of "it's 'quoted' dogs'." (apostrophes cut from "'quoted'" and "dogs'") yields
the spans `(0, 4)`, `(6, 12)`, `(14, 18)`. -/
theorem check_text_spans_sorted_witness :
    ∃ out, check_text (spec_env "it's 'quoted' dogs'.".toList 0 ["dogs"])
        (byte_range "it's 'quoted' dogs'.".toList 0 20) = some out ∧
      (out.map fun r => (r.word_start, r.word_end)) = [(0, 4), (6, 12), (14, 18)] ∧
      out.Pairwise (fun r r1 => r.word_end ≤ r1.word_start) :=
  ⟨_, rfl, rfl,
    (check_text_spans_sorted (spec_env "it's 'quoted' dogs'.".toList 0 ["dogs"])
      (byte_range "it's 'quoted' dogs'.".toList 0 20) _
      (fun i j _ hij => by show i + 0 ≤ j + 0; omega) (by decide) (by decide) (by decide)
      rfl).2.2⟩

/-! ## A token that fills a whole chunk -/

/-- Walking backward over characters that all satisfy `p` reaches the start. -/
theorem walk_back_all (p : Char → Bool) (s : List Char) :
    ∀ n : Nat, (∀ i, i < n → p (s.getD i ' ') = true) → walk_back p s n = 0 := by
  intro n
  induction n with
  | zero => intro _; rfl
  | succ k ih =>
    intro h
    simp only [walk_back]
    rw [if_pos (h k (Nat.lt_succ_self k))]
    exact ih fun i hi => h i (Nat.lt_succ_of_lt hi)

/-- Walking backward stops at once at a character that does not satisfy `p`. -/
theorem walk_back_stop (p : Char → Bool) (s : List Char) (k : Nat)
    (h : p (s.getD k ' ') = false) : walk_back p s (k + 1) = k + 1 := by
  simp only [walk_back]
  rw [h]
  rfl

/-- In a sequence of word characters every position holds a word character. -/
theorem getD_word_char (w : List Char) (hw : ∀ c ∈ w, is_word_char c = true) (i : Nat)
    (hi : i < w.length) : is_word_char (w.getD i ' ') = true := by
  rw [List.getD_eq_getElem w ' ' hi]
  exact hw _ (List.getElem_mem hi)

/-- The forward walk over a sequence made of word characters only, started at its end, stays
at the end. -/
theorem spec_next_token_end_at_end (w : List Char) :
    spec_next_token_end w (w.length : Int) = (w.length : Int) := by
  simp [spec_next_token_end, run_length]

/-- The backward walk from the last character of a non-empty sequence made of word characters
only reaches index 0. -/
theorem spec_prev_token_begin_all_word (w : List Char) (hw : ∀ c ∈ w, is_word_char c = true)
    (hne : w ≠ []) : spec_prev_token_begin w ((w.length : Int) - 1) = 0 := by
  have hpos : 0 < w.length := List.length_pos.mpr hne
  obtain ⟨k, hk⟩ : ∃ k, w.length = k + 1 := ⟨w.length - 1, by omega⟩
  have hidx : ¬ ((w.length : Int) - 1 < 0) := by omega
  have hn : min (((w.length : Int) - 1).toNat + 1) w.length = k + 1 := by omega
  simp only [spec_prev_token_begin, if_neg hidx, hn]
  have hlast : (fun c => !is_word_char c) (w.getD k ' ') = false := by
    show (!is_word_char (w.getD k ' ')) = false
    rw [getD_word_char w hw k (by omega)]
    rfl
  rw [walk_back_stop _ w k hlast]
  rw [walk_back_all is_word_char w (k + 1) fun i hi => getD_word_char w hw i (by omega)]
  rfl

/-- The scan of an empty chunk finds nothing. -/
theorem find_first_misspelling_nil (env : Env) (text : MappedWstring) (p : Int)
    (h : text.str = []) : find_first_misspelling env text p = some none := by
  simp [find_first_misspelling, check_text, check_text_run, h]

/-- A pass of `find_next_mistake` over a chunk of 4096 word characters that is not the final
chunk trims the whole chunk away and leaves the state as it was. -/
theorem find_next_step_stuck (needed : List Char → Bool) (misspelled : List String)
    (cursor : Int) (w tail : List Char) (hw : ∀ c ∈ w, is_word_char c = true)
    (hlen : w.length = 4096) (htail : tail ≠ []) (s : SearchState) (hs : s.iterator_pos = 0) :
    find_next_step (spec_env_with needed (w ++ tail) cursor misspelled) s = Step.next s := by
  have htl : 0 < tail.length := List.length_pos.mpr htail
  have hne : w ≠ [] := by
    intro h
    rw [h] at hlen
    cases hlen
  have hdoc : (spec_env_with needed (w ++ tail) cursor misspelled).editor.get_active_document_length
      = 4096 + (tail.length : Int) := by
    simp [spec_env_with, byte_editor, hlen]
  have hstr : (byte_range (w ++ tail) 0 4096).str = w := by
    simp only [byte_range]
    have : ((4096 : Int) - 0).toNat = w.length := by rw [hlen]; rfl
    rw [this]
    simp
  have hsize : ((byte_range (w ++ tail) 0 4096).str.length : Int) = 4096 := by
    rw [hstr, hlen]
    rfl
  have hnte : spec_next_token_end w 4096 = 4096 := by
    have := spec_next_token_end_at_end w
    rw [hlen] at this
    exact this
  have hptb : spec_prev_token_begin w (4096 - 1) = 0 := by
    have := spec_prev_token_begin_all_word w hw hne
    rw [hlen] at this
    exact this
  simp only [find_next_step, hs, hdoc]
  have hto : ¬ ((0 : Int) + 4096 > 4096 + (tail.length : Int)) := by omega
  rw [if_neg hto]
  have hlt : (0 : Int) < 0 + 4096 := by omega
  rw [if_pos hlt]
  have hrng : (spec_env_with needed (w ++ tail) cursor misspelled).editor.get_mapped_wstring_range
      0 (0 + 4096) = byte_range (w ++ tail) 0 4096 := rfl
  rw [hrng, hsize, hstr]
  have hcond : (0 : Int) + 4096 ≠ 4096 + (tail.length : Int) ∧
      next_token_end (spec_env_with needed (w ++ tail) cursor misspelled) w (0 + 4096) = 4096 := by
    refine ⟨by omega, ?_⟩
    show spec_next_token_end w (0 + 4096) = 4096
    rw [show (0 : Int) + 4096 = 4096 from rfl]
    exact hnte
  rw [if_pos hcond]
  have hidx : prev_token_begin (spec_env_with needed (w ++ tail) cursor misspelled) w (4096 - 1)
      = 0 := hptb
  rw [hidx]
  have her : erase_tail w 0 = some [] := by simp [erase_tail]
  rw [her]
  simp only []
  rw [find_first_misspelling_nil _ _ _ rfl]
  simp only []
  have horig : (byte_range (w ++ tail) 0 4096).to_original_index 0 = 0 := rfl
  rw [horig]
  simp only [find_next_wrap]
  rw [if_neg hcond.1]
  cases s
  simp only at hs
  subst hs
  rfl

/-- A loop body that maps a state to itself never leaves the loop. -/
theorem iterate_search_stuck (body : SearchState → Step) (s : SearchState)
    (h : body s = Step.next s) : ∀ fuel, iterate_search body fuel s = Outcome.out_of_fuel := by
  intro fuel
  induction fuel with
  | zero => rfl
  | succ n ih =>
    simp only [iterate_search]
    rw [h]
    exact ih

/-- Started at offset 0 in a document that begins with a token of 4096 or more characters and
goes on after it, `find_next_mistake` never leaves its loop, whatever the speller answers. -/
theorem find_next_mistake_stuck (needed : List Char → Bool) (misspelled : List String)
    (w tail : List Char) (hw : ∀ c ∈ w, is_word_char c = true)
    (hlen : w.length = 4096) (htail : tail ≠ []) (fuel : Nat) :
    find_next_mistake (spec_env_with needed (w ++ tail) 0 misspelled) fuel =
      Outcome.out_of_fuel := by
  unfold find_next_mistake
  have h0 : prev_token_begin_in_document (spec_env_with needed (w ++ tail) 0 misspelled)
      (spec_env_with needed (w ++ tail) 0 misspelled).editor.get_current_pos = 0 := rfl
  rw [h0]
  exact iterate_search_stuck _ _
    (find_next_step_stuck needed misspelled 0 w tail hw hlen htail _ rfl) fuel

/-! ## Documents without a misspelled word -/

/-- Records filled from a response of `true` answers are all marked correct. -/
theorem assign_results_all_true (resp : List Bool) (hresp : ∀ b ∈ resp, b = true) :
    ∀ (words : List SpellerWordData) (i : Nat) (out : List SpellerWordData),
      assign_results resp i words = some out → ∀ r ∈ out, r.is_correct = true := by
  intro words
  induction words with
  | nil =>
    intro i out h r hr
    simp only [assign_results, Option.some.injEq] at h
    rw [← h] at hr
    cases hr
  | cons w ws ih =>
    intro i out h r hr
    simp only [assign_results] at h
    cases hg : resp[i]? with
    | none => rw [hg] at h; cases h
    | some b =>
      rw [hg] at h
      cases ha : assign_results resp (i + 1) ws with
      | none => rw [ha] at h; cases h
      | some o =>
        rw [ha] at h
        simp only [Option.some.injEq] at h
        rw [← h] at hr
        rcases List.mem_cons.mp hr with hr1 | hr1
        · rw [hr1]
          exact hresp b (List.getElem?_mem hg)
        · exact ih (i + 1) o ha r hr1

/-- When the speller answers `true` for every word of the batch, every record returned by
`check_text` is marked correct. -/
theorem check_text_all_correct (env : Env) (text : MappedWstring)
    (hsp : ∀ b ∈ spellcheck_result env text, b = true) (out : List SpellerWordData)
    (h : check_text env text = some out) : ∀ r ∈ out, r.is_correct = true := by
  by_cases hne : text.str = []
  · simp only [check_text, check_text_run, hne, List.isEmpty_nil, if_true,
      Option.some.injEq] at h
    intro r hr
    rw [← h] at hr
    cases hr
  · rw [check_text_of_ne_nil env text hne] at h
    split at h
    · exact assign_results_all_true _ hsp _ _ _ h
    · simp only [Option.some.injEq] at h
      intro r hr
      rw [← h] at hr
      obtain ⟨w, _, hw⟩ := List.mem_map.mp hr
      rw [← hw]

/-- When the response has one answer per word of the batch, `check_text` does not fault. -/
theorem check_text_total (env : Env) (text : MappedWstring)
    (hlen : (spellcheck_result env text).length = (words_to_check env text).length) :
    ∃ out, check_text env text = some out := by
  by_cases hne : text.str = []
  · exact ⟨[], by simp [check_text, check_text_run, hne]⟩
  · rw [check_text_of_ne_nil env text hne]
    split
    · obtain ⟨out, hout, _⟩ := assign_results_spec (spellcheck_result env text)
        (words_to_check env text) 0 (by omega)
      exact ⟨out, hout⟩
    · exact ⟨_, rfl⟩

/-- The dictionary speller answers once per word. -/
theorem dictionary_speller_length (needed : List Char → Bool) (doc : List Char) (cursor : Int)
    (misspelled : List String) (text : MappedWstring) :
    (spellcheck_result (spec_env_with needed doc cursor misspelled) text).length =
      (words_to_check (spec_env_with needed doc cursor misspelled) text).length := by
  simp [spellcheck_result, spec_env_with, dictionary_speller]

/-- With an empty dictionary of misspellings the speller answers `true` throughout. -/
theorem dictionary_speller_all_true (needed : List Char → Bool) (doc : List Char)
    (cursor : Int) (text : MappedWstring) :
    ∀ b ∈ spellcheck_result (spec_env_with needed doc cursor []) text, b = true := by
  intro b hb
  simp [spellcheck_result, spec_env_with, dictionary_speller] at hb
  exact hb.2

/-- Without a misspelled record `find_last_misspelling` returns no value. -/
theorem find_last_misspelling_none_of_all_correct (env : Env) (text : MappedWstring) (p : Int)
    (hsp : ∀ b ∈ spellcheck_result env text, b = true)
    (hlen : (spellcheck_result env text).length = (words_to_check env text).length) :
    find_last_misspelling env text p = some none := by
  obtain ⟨out, hout⟩ := check_text_total env text hlen
  have hall := check_text_all_correct env text hsp out hout
  unfold find_last_misspelling
  rw [hout]
  simp only [Option.map_some', Option.some.injEq, Option.map_eq_none', List.find?_eq_none]
  intro r hr
  rw [hall r (by simpa using hr)]
  simp

/-- A run over characters that all satisfy `p` covers the sequence. -/
theorem run_length_all (p : Char → Bool) (l : List Char) (h : ∀ c ∈ l, p c = true) :
    run_length p l = l.length := by
  induction l with
  | nil => rfl
  | cons a t ih =>
    simp only [run_length, List.length_cons]
    rw [if_pos (h a (by simp)), ih fun c hc => h c (by simp [hc])]

/-- No run starts at a character that does not satisfy `p`. -/
theorem run_length_none (p : Char → Bool) (l : List Char) (h : ∀ c ∈ l, p c = false) :
    run_length p l = 0 := by
  cases l with
  | nil => rfl
  | cons a t =>
    simp only [run_length]
    rw [h a (by simp)]
    rfl

/-- The forward walk from index 0 of a sequence of word characters reaches its end. -/
theorem spec_next_token_end_all_word (w : List Char) (hw : ∀ c ∈ w, is_word_char c = true) :
    spec_next_token_end w 0 = (w.length : Int) := by
  have h0 : run_length (fun c => !is_word_char c) w = 0 :=
    run_length_none _ w fun c hc => by simp [hw c hc]
  simp [spec_next_token_end, h0, run_length_all is_word_char w hw]

/-- A pass of `find_prev_mistake` over a chunk of 4096 word characters, none judged
misspelled, leaves the iterator where it was. -/
theorem find_prev_step_stuck (needed : List Char → Bool) (cursor : Int)
    (pre w : List Char) (hw : ∀ c ∈ w, is_word_char c = true) (hlen : w.length = 4096)
    (s : SearchState) (hs : s.iterator_pos = (pre.length : Int) + 4096) :
    find_prev_step (spec_env_with needed (pre ++ w) cursor []) s = Step.next s := by
  have hfrom : (if s.iterator_pos - 4096 < 0 then 0 else s.iterator_pos - 4096) =
      (pre.length : Int) := by
    rw [hs]
    have : ¬ ((pre.length : Int) + 4096 - 4096 < 0) := by omega
    rw [if_neg this]
    omega
  have hstr : (byte_range (pre ++ w) (pre.length : Int) ((pre.length : Int) + 4096)).str = w := by
    simp only [byte_range]
    have h1 : ((pre.length : Int)).toNat = pre.length := by simp
    have h2 : ((pre.length : Int) + 4096 - (pre.length : Int)).toNat = w.length := by
      rw [hlen]; omega
    rw [h1, h2]
    simp
  have hrng : (spec_env_with needed (pre ++ w) cursor []).editor.get_mapped_wstring_range
      (pre.length : Int) ((pre.length : Int) + 4096) =
      byte_range (pre ++ w) (pre.length : Int) ((pre.length : Int) + 4096) := rfl
  have hoff : next_token_end (spec_env_with needed (pre ++ w) cursor []) w 0 = 4096 := by
    show spec_next_token_end w 0 = 4096
    rw [spec_next_token_end_all_word w hw, hlen]
    rfl
  simp only [find_prev_step, hfrom]
  rw [hs]
  have hlt : (pre.length : Int) < (pre.length : Int) + 4096 := by omega
  rw [if_pos hlt, hrng]
  rw [find_last_misspelling_none_of_all_correct _ _ _
    (dictionary_speller_all_true needed _ cursor _) (dictionary_speller_length needed _ cursor _ _)]
  simp only []
  rw [hstr, hoff]
  have horig : (byte_range (pre ++ w) (pre.length : Int) ((pre.length : Int) + 4096)).to_original_index
      4096 = 4096 + (pre.length : Int) := rfl
  rw [horig]
  simp only [find_prev_wrap]
  have hip : ¬ ((pre.length : Int) + 4096 - (4096 - (4096 + (pre.length : Int) - (pre.length : Int)))
      < 0) := by omega
  rw [if_neg hip]
  cases s
  simp only at hs
  subst hs
  simp only [Step.next.injEq, SearchState.mk.injEq, true_and, and_true]
  omega

/-- Started at the end of a document that ends with a token of 4096 or more characters, none
of its words judged misspelled, `find_prev_mistake` never leaves its loop. -/
theorem find_prev_mistake_stuck (needed : List Char → Bool) (cursor : Int) (pre w : List Char)
    (hw : ∀ c ∈ w, is_word_char c = true) (hlen : w.length = 4096)
    (hc : cursor = (pre.length : Int) + 4096) (fuel : Nat) :
    find_prev_mistake (spec_env_with needed (pre ++ w) cursor []) fuel =
      Outcome.out_of_fuel := by
  unfold find_prev_mistake
  have h0 : next_token_end_in_document (spec_env_with needed (pre ++ w) cursor [])
      (spec_env_with needed (pre ++ w) cursor []).editor.get_current_pos = cursor := by
    simp [next_token_end_in_document, next_token_end_in_document_probe, spec_env_with,
      byte_editor, hc, hlen]
  rw [h0]
  exact iterate_search_stuck _ _ (find_prev_step_stuck needed _ pre w hw hlen _ hc) fuel

/-! ## The scan of a document with a very long word -/

/-- A run of word characters in front of the input is read into the token being scanned. -/
theorem scan_tokens_word_run (w rest : List Char) (hw : ∀ c ∈ w, is_word_char c = true) :
    ∀ (pos st : Nat), scan_tokens (w ++ rest) pos (some st) =
      scan_tokens rest (pos + w.length) (some st) := by
  induction w with
  | nil => intro pos st; rfl
  | cons a t ih =>
    intro pos st
    simp only [List.cons_append, scan_tokens, List.length_cons, List.append_eq]
    rw [if_pos (hw a (by simp)), ih (fun c hc => hw c (by simp [hc]))]
    congr 1
    omega

/-- A non-empty run of word characters at the start of the input opens a token at 0. -/
theorem scan_tokens_leading_run (w rest : List Char) (hw : ∀ c ∈ w, is_word_char c = true)
    (hne : w ≠ []) :
    spec_get_all_tokens (w ++ rest) = scan_tokens rest w.length (some 0) := by
  cases w with
  | nil => exact absurd rfl hne
  | cons a t =>
    simp only [spec_get_all_tokens, List.cons_append, scan_tokens, List.length_cons,
      List.append_eq]
    rw [if_pos (hw a (by simp)), scan_tokens_word_run t rest (fun c hc => hw c (by simp [hc]))]
    congr 1
    omega

/-- The scan of a document made of 5000 letters `a`, a blank and "Helo", with only "Helo" in
the dictionary of misspellings: two records, the long word judged correct and "Helo" at
`(5001, 5005)` judged misspelled. -/
theorem check_text_long_word_then_helo (w : List Char) (hw : ∀ c ∈ w, c = 'a')
    (hlen : w.length = 5000) (cursor : Int) :
    (check_text (spec_env (w ++ " Helo".toList) cursor ["Helo"])
        (byte_range (w ++ " Helo".toList) 0 5005)).map
      (List.map fun r => (r.word_start, r.word_end, r.is_correct)) =
      some [(0, 5000, true), (5001, 5005, false)] := by
  have hne : w ≠ [] := by
    intro h; rw [h] at hlen; cases hlen
  have hword : ∀ c ∈ w, is_word_char c = true := fun c hc => by rw [hw c hc]; decide
  have hstr : (byte_range (w ++ " Helo".toList) 0 5005).str = w ++ " Helo".toList := by
    simp only [byte_range]
    have h1 : ((5005 : Int) - 0).toNat = 5005 := rfl
    have h2 : (0 : Int).toNat = 0 := rfl
    rw [h1, h2, List.drop_zero]
    exact List.take_of_length_le (by simp [hlen])
  have htokens : spec_get_all_tokens (w ++ " Helo".toList) =
      [{ off := 0, len := 5000 }, { off := 5001, len := 4 }] := by
    rw [scan_tokens_leading_run w _ hword hne, hlen]
    decide
  have hchars1 : View.chars (w ++ " Helo".toList) { off := 0, len := 5000 } = w := by
    simp only [View.chars, List.drop_zero]
    exact List.take_left' hlen
  have hchars2 : View.chars (w ++ " Helo".toList) { off := 5001, len := 4 } = "Helo".toList := by
    simp only [View.chars]
    have : (5001 : Nat) = w.length + 1 := by omega
    rw [this, List.drop_append]
    rfl
  have hapo : ∀ c ∈ w, (fun c : Char => c == Char.ofNat 39) c = false :=
    fun c hc => by rw [hw c hc]; decide
  have hcut1 : spec_cut_apostrophes (w ++ " Helo".toList) { off := 0, len := 5000 } =
      { off := 0, len := 5000 } := by
    simp only [spec_cut_apostrophes, hchars1]
    rw [run_length_none _ w hapo, List.drop_zero,
      run_length_none _ w.reverse (fun c hc => hapo c (List.mem_reverse.mp hc)), hlen]
  have hcut2 : spec_cut_apostrophes (w ++ " Helo".toList) { off := 5001, len := 4 } =
      { off := 5001, len := 4 } := by
    simp only [spec_cut_apostrophes, hchars2]
    decide
  have hcontains : (["Helo"].map String.toList).contains w = false := by
    have hwne : w ≠ "Helo".toList := by
      intro h
      have := congrArg List.length h
      rw [hlen] at this
      cases this
    simpa using hwne
  have hcontains2 : (["Helo"].map String.toList).contains "Helo".toList = true := by decide
  have hcw : collect_words (spec_env (w ++ " Helo".toList) cursor ["Helo"])
      (byte_range (w ++ " Helo".toList) 0 5005)
      (spec_get_all_tokens (w ++ " Helo".toList)) =
      [word_record (spec_env (w ++ " Helo".toList) cursor ["Helo"])
          (byte_range (w ++ " Helo".toList) 0 5005) { off := 0, len := 5000 },
        word_record (spec_env (w ++ " Helo".toList) cursor ["Helo"])
          (byte_range (w ++ " Helo".toList) 0 5005) { off := 5001, len := 4 }] := by
    rw [htokens]
    simp only [collect_words, hstr]
    have e1 : (spec_env (w ++ " Helo".toList) cursor ["Helo"]).settings.cut_apostrophes
        (w ++ " Helo".toList) { off := 0, len := 5000 } = { off := 0, len := 5000 } := hcut1
    have e2 : (spec_env (w ++ " Helo".toList) cursor ["Helo"]).settings.cut_apostrophes
        (w ++ " Helo".toList) { off := 5001, len := 4 } = { off := 5001, len := 4 } := hcut2
    rw [e1, e2]
    have n1 : ∀ (v : View) (i : Int), is_spellchecking_needed
        (spec_env (w ++ " Helo".toList) cursor ["Helo"]) (w ++ " Helo".toList) v i = true :=
      fun _ _ => rfl
    rw [if_pos (n1 _ _), if_pos (n1 _ _)]
    simp only [word_record, hstr]
  have hne2 : (byte_range (w ++ " Helo".toList) 0 5005).str ≠ [] := by
    rw [hstr]
    simp
  rw [check_text_of_ne_nil _ _ hne2]
  have htk : (spec_env (w ++ " Helo".toList) cursor ["Helo"]).settings.get_all_tokens
      (byte_range (w ++ " Helo".toList) 0 5005).str = spec_get_all_tokens (w ++ " Helo".toList) := by
    rw [hstr]
    rfl
  rw [htk, hcw]
  have hresp : (spec_env (w ++ " Helo".toList) cursor ["Helo"]).speller.check_words
      ([word_record (spec_env (w ++ " Helo".toList) cursor ["Helo"])
          (byte_range (w ++ " Helo".toList) 0 5005) { off := 0, len := 5000 },
        word_record (spec_env (w ++ " Helo".toList) cursor ["Helo"])
          (byte_range (w ++ " Helo".toList) 0 5005) { off := 5001, len := 4 }].map
        fun r => r.word_for_speller) = [true, false] := by
    simp only [List.map, word_record, to_word_for_speller, hstr]
    show [!(["Helo"].map String.toList).contains
          (View.chars (w ++ " Helo".toList) { off := 0, len := 5000 }),
        !(["Helo"].map String.toList).contains
          (View.chars (w ++ " Helo".toList) { off := 5001, len := 4 })] = [true, false]
    rw [hchars1, hchars2, hcontains, hcontains2]
    rfl
  rw [hresp]
  rfl

/-! ## The searches on a document with a very long word -/

/-- The letter `a` is a word character. -/
theorem replicate_a_word (n : Nat) : ∀ c ∈ List.replicate n 'a', is_word_char c = true := by
  intro c hc
  rw [List.eq_of_mem_replicate hc]
  decide

/-- A sequence that starts with a repeated character is not empty. -/
theorem replicate_append_ne_nil (n : Nat) (hn : 0 < n) (c : Char) (rest : List Char) :
    List.replicate n c ++ rest ≠ [] := by
  intro h
  have hl := congrArg List.length h
  rw [List.length_append, List.length_replicate, List.length_nil] at hl
  omega

/-- The document of 5000 letters is a chunk of 4096 letters followed by 904 more. -/
theorem long_word_document_split :
    long_word_document = List.replicate 4096 'a' ++ List.replicate 904 'a' := by
  unfold long_word_document
  rw [List.append_replicate_replicate]

/-- The document of 5000 letters is 904 letters followed by a chunk of 4096 letters. -/
theorem long_word_document_split_end :
    long_word_document = List.replicate 904 'a' ++ List.replicate 4096 'a' := by
  unfold long_word_document
  rw [List.append_replicate_replicate]

/-- With an empty dictionary of misspellings, the scan of any text returns records that are
all marked correct. -/
theorem no_misspelling_without_dictionary (doc : List Char) (cursor : Int)
    (text : MappedWstring) :
    ∃ out, check_text (spec_env doc cursor []) text = some out ∧
      out.all (fun r => r.is_correct) = true := by
  obtain ⟨out, hout⟩ := check_text_total (spec_env doc cursor []) text
    (dictionary_speller_length _ doc cursor [] text)
  refine ⟨out, hout, ?_⟩
  rw [List.all_eq_true]
  exact check_text_all_correct _ text (dictionary_speller_all_true _ doc cursor text) out hout

/-- C1 (the code at the failing input): in the document that is one word of 5000 letters, no
word is judged misspelled (the scan of the whole document marks every record correct), the
cursor 0 lies in `[0, 5000]`, and `find_next_mistake` never terminates: for every amount of
fuel the loop is still running, its first chunk `[0, 4096)` being trimmed to nothing in every
pass. -/
theorem find_next_mistake_hangs_on_long_word :
    (∃ out, check_text (spec_env long_word_document 0 [])
        (byte_range long_word_document 0 5000) = some out ∧
      out.all (fun r => r.is_correct) = true) ∧
    find_next_step (spec_env long_word_document 0 [])
        { current_position := 0, iterator_pos := 0, full_check := false } =
      Step.next { current_position := 0, iterator_pos := 0, full_check := false } ∧
    ∀ fuel : Nat, find_next_mistake (spec_env long_word_document 0 []) fuel =
      Outcome.out_of_fuel := by
  refine ⟨no_misspelling_without_dictionary _ _ _, ?_, ?_⟩
  · rw [long_word_document_split]
    exact find_next_step_stuck _ [] 0 _ _ (replicate_a_word 4096) (List.length_replicate _ _)
      (by
        have h := replicate_append_ne_nil 904 (by omega) 'a' []
        rwa [List.append_nil] at h) _ rfl
  · intro fuel
    rw [long_word_document_split]
    exact find_next_mistake_stuck _ [] _ _ (replicate_a_word 4096) (List.length_replicate _ _)
      (by
        have h := replicate_append_ne_nil 904 (by omega) 'a' []
        rwa [List.append_nil] at h) fuel

/-- C2 (the code at the failing input): the document made of a word of 5000 letters, a blank
and "Helo" contains exactly one misspelled word, "Helo" with raw span `(5001, 5005)` (the scan
of the whole document yields the long word, judged correct, and "Helo", judged misspelled);
with the cursor at offset 0, `find_next_mistake` never terminates and so never selects that
span: every pass trims the chunk `[0, 4096)` to nothing and leaves the iterator at 0. -/
theorem find_next_mistake_hangs_before_misspelling :
    (check_text (spec_env long_word_then_helo 0 ["Helo"])
        (byte_range long_word_then_helo 0 5005)).map
      (List.map fun r => (r.word_start, r.word_end, r.is_correct)) =
      some [(0, 5000, true), (5001, 5005, false)] ∧
    find_next_step (spec_env long_word_then_helo 0 ["Helo"])
        { current_position := 0, iterator_pos := 0, full_check := false } =
      Step.next { current_position := 0, iterator_pos := 0, full_check := false } ∧
    ∀ fuel : Nat, find_next_mistake (spec_env long_word_then_helo 0 ["Helo"]) fuel =
      Outcome.out_of_fuel := by
  have hsplit : long_word_then_helo =
      List.replicate 4096 'a' ++ (List.replicate 904 'a' ++ " Helo".toList) := by
    unfold long_word_then_helo
    rw [← List.append_assoc, List.append_replicate_replicate]
  refine ⟨?_, ?_, ?_⟩
  · exact check_text_long_word_then_helo (List.replicate 5000 'a')
      (fun c hc => List.eq_of_mem_replicate hc) (List.length_replicate _ _) 0
  · rw [hsplit]
    exact find_next_step_stuck _ ["Helo"] 0 _ _ (replicate_a_word 4096)
      (List.length_replicate _ _) (replicate_append_ne_nil 904 (by omega) 'a' _) _ rfl
  · intro fuel
    rw [hsplit]
    exact find_next_mistake_stuck _ ["Helo"] _ _ (replicate_a_word 4096)
      (List.length_replicate _ _) (replicate_append_ne_nil 904 (by omega) 'a' _) fuel

/-- C6 (the code at the failing input): in the document that is one word of 5000 letters, no
word judged misspelled, with the cursor at the document end, a pass of `find_prev_mistake`
selects nothing and leaves the iterator position at 5000 (it does not decrease), and
`find_prev_mistake` never terminates. -/
theorem find_prev_mistake_hangs_on_long_word :
    (∃ out, check_text (spec_env long_word_document 5000 [])
        (byte_range long_word_document 0 5000) = some out ∧
      out.all (fun r => r.is_correct) = true) ∧
    find_prev_step (spec_env long_word_document 5000 [])
        { current_position := 5000, iterator_pos := 5000, full_check := false } =
      Step.next { current_position := 5000, iterator_pos := 5000, full_check := false } ∧
    ∀ fuel : Nat, find_prev_mistake (spec_env long_word_document 5000 []) fuel =
      Outcome.out_of_fuel := by
  refine ⟨no_misspelling_without_dictionary _ _ _, ?_, ?_⟩
  · rw [long_word_document_split_end]
    exact find_prev_step_stuck _ 5000 _ _ (replicate_a_word 4096) (List.length_replicate _ _)
      _ (by rw [List.length_replicate]; rfl)
  · intro fuel
    rw [long_word_document_split_end]
    exact find_prev_mistake_stuck _ 5000 _ _ (replicate_a_word 4096)
      (List.length_replicate _ _) (by rw [List.length_replicate]; rfl) fuel

/-! ## The specification's tokenizer and apostrophe cutting fit the scanner -/

/-- A run is no longer than the sequence it is read from. -/
theorem run_length_le (p : Char → Bool) (l : List Char) : run_length p l ≤ l.length := by
  induction l with
  | nil => exact Nat.le_refl 0
  | cons a t ih =>
    simp only [run_length, List.length_cons]
    split <;> omega

/-- Cutting apostrophes keeps a view inside the token it was cut from. -/
theorem spec_cut_apostrophes_inside (s : List Char) (v : View) :
    v.off ≤ (spec_cut_apostrophes s v).off ∧
    (spec_cut_apostrophes s v).off + (spec_cut_apostrophes s v).len ≤ v.off + v.len := by
  have h1 := run_length_le (fun c : Char => c == Char.ofNat 39) (v.chars s)
  have h2 : (v.chars s).length ≤ v.len := by
    unfold View.chars
    exact List.length_take_le _ _
  simp only [spec_cut_apostrophes, List.length_drop]
  omega

/-- The tokens read by the scan start at or after the token being read (or the current
position when none is), end inside the input, and are ordered without overlap. -/
theorem scan_tokens_ordered :
    ∀ (s : List Char) (pos : Nat) (cur : Option Nat), (∀ st, cur = some st → st ≤ pos) →
      (∀ v ∈ scan_tokens s pos cur, cur.getD pos ≤ v.off ∧ v.off + v.len ≤ pos + s.length) ∧
      (scan_tokens s pos cur).Pairwise fun a b => a.off + a.len ≤ b.off := by
  intro s
  induction s with
  | nil =>
    intro pos cur hcur
    cases cur with
    | none => simp [scan_tokens]
    | some st =>
      have := hcur st rfl
      simp only [scan_tokens, List.mem_singleton, forall_eq, Option.getD_some, List.length_nil,
        List.pairwise_cons, List.not_mem_nil, false_implies, implies_true, List.Pairwise.nil,
        and_self, and_true]
      omega
  | cons c cs ih =>
    intro pos cur hcur
    cases cur with
    | none =>
      simp only [scan_tokens]
      split
      · obtain ⟨hb, hp⟩ := ih (pos + 1) (some pos) (fun st h => by cases h; omega)
        refine ⟨fun v hv => ?_, hp⟩
        have := hb v hv
        simp only [Option.getD_some, Option.getD_none, List.length_cons] at this ⊢
        omega
      · obtain ⟨hb, hp⟩ := ih (pos + 1) none (fun st h => by cases h)
        refine ⟨fun v hv => ?_, hp⟩
        have := hb v hv
        simp only [Option.getD_none, List.length_cons] at this ⊢
        omega
    | some st =>
      have hst := hcur st rfl
      simp only [scan_tokens]
      split
      · obtain ⟨hb, hp⟩ := ih (pos + 1) (some st) (fun st1 h => by cases h; omega)
        refine ⟨fun v hv => ?_, hp⟩
        have := hb v hv
        simp only [Option.getD_some, List.length_cons] at this ⊢
        omega
      · obtain ⟨hb, hp⟩ := ih (pos + 1) none (fun st1 h => by cases h)
        refine ⟨fun v hv => ?_, ?_⟩
        · rcases List.mem_cons.mp hv with hv1 | hv1
          · rw [hv1]
            simp only [Option.getD_some, List.length_cons]
            omega
          · have := hb v hv1
            simp only [Option.getD_some, Option.getD_none, List.length_cons] at this ⊢
            omega
        · rw [List.pairwise_cons]
          refine ⟨fun v hv => ?_, hp⟩
          have := hb v hv
          simp only [Option.getD_none] at this
          simp only
          omega

/-- The tokens of the specification's tokenizer are ordered and do not overlap. -/
theorem spec_get_all_tokens_ordered (s : List Char) :
    (spec_get_all_tokens s).Pairwise fun a b => a.off + a.len ≤ b.off :=
  (scan_tokens_ordered s 0 none (fun _ h => by cases h)).2

/-- The mapping of a single-byte range is non-decreasing and, for a range that starts inside
the document, non-negative. -/
theorem byte_range_monotone (doc : List Char) (from_ to_ : Int) (hfrom : 0 ≤ from_) :
    (∀ i j : Int, 0 ≤ i → i ≤ j →
      (byte_range doc from_ to_).to_original_index i ≤
        (byte_range doc from_ to_).to_original_index j) ∧
    0 ≤ (byte_range doc from_ to_).to_original_index 0 := by
  constructor
  · intro i j _ hij
    show i + from_ ≤ j + from_
    omega
  · show 0 ≤ 0 + from_
    omega

/-! ## The sweep of `underline_misspelled_words` -/

/-- The buffer of the sweep lists the starts and ends of the misspelled spans. -/
theorem underline_buffer_eq (words : List SpellerWordData) :
    underline_buffer words = (misspelled_spans words).flatMap fun sp => [sp.1, sp.2] := by
  induction words with
  | nil => rfl
  | cons w rest ih =>
    cases hw : w.is_correct with
    | true => simp [underline_buffer, misspelled_spans, hw, ih, List.filter_cons]
    | false =>
      simp [underline_buffer, misspelled_spans, hw, ih, List.filter_cons,
        SpellerWordData.span]

/-- The calls of the sweep carry out the painting operations `sweep_ops`. -/
theorem underline_sweep_eq (indicator text_len : Int) (spans : List (Int × Int)) :
    ∀ prev_pos : Int,
      underline_sweep indicator text_len prev_pos (spans.flatMap fun sp => [sp.1, sp.2]) =
        (sweep_ops text_len prev_pos spans).flatMap (PaintOp.calls indicator) := by
  induction spans with
  | nil =>
    intro prev_pos
    simp [underline_sweep, sweep_ops, PaintOp.calls]
  | cons sp rest ih =>
    intro prev_pos
    show underline_sweep indicator text_len prev_pos
        (sp.1 :: sp.2 :: rest.flatMap fun sp => [sp.1, sp.2]) = _
    rw [underline_sweep, ih sp.2]
    simp [sweep_ops, PaintOp.calls]

/-- The decoration store after the calls of a sequence of painting operations: the bits of
the indicator are painted, every other indicator is left alone. -/
theorem apply_calls_paint (indicator : Int) (ops : List PaintOp) :
    ∀ (d : Decorations) (i x : Int),
      (apply_calls (ops.flatMap (PaintOp.calls indicator)) d).set_for i x =
        if i = indicator then paint ops (d.set_for indicator) x else d.set_for i x := by
  induction ops with
  | nil =>
    intro d i x
    by_cases h : i = indicator <;> simp [apply_calls, paint, h]
  | cons op rest ih =>
    intro d i x
    have hstep : apply_calls ((op :: rest).flatMap (PaintOp.calls indicator)) d =
        apply_calls (rest.flatMap (PaintOp.calls indicator))
          (apply_calls (PaintOp.calls indicator op) d) := by
      simp [apply_calls, List.foldl_append]
    rw [hstep, ih]
    have hone : ∀ j y, (apply_calls (PaintOp.calls indicator op) d).set_for j y =
        if j = indicator then paint_one (d.set_for indicator) op y else d.set_for j y := by
      intro j y
      cases hv : op.value <;>
        by_cases hj : j = indicator <;>
        simp [apply_calls, PaintOp.calls, create_word_underline, remove_underline, apply_call,
          paint_one, hv, hj]
    by_cases h : i = indicator
    · rw [if_pos h, if_pos h]
      have hf : (apply_calls (PaintOp.calls indicator op) d).set_for indicator =
          paint_one (d.set_for indicator) op := by
        funext y
        rw [hone indicator y, if_pos rfl]
      rw [hf]
      rfl
    · rw [if_neg h, if_neg h, hone i x, if_neg h]

/-- After the sweep over sorted, non-overlapping spans inside `[prev_pos, text_len)`, an
offset of that range is set exactly when it lies in a span, and every other offset is as
before. -/
theorem paint_sweep_ops (text_len : Int) (spans : List (Int × Int)) :
    ∀ (prev_pos : Int) (f : Int → Bool),
      spans.Pairwise (fun a b => a.2 ≤ b.1) →
      (∀ sp ∈ spans, prev_pos ≤ sp.1 ∧ sp.1 ≤ sp.2 ∧ sp.2 ≤ text_len) →
      ∀ x : Int,
        (prev_pos ≤ x ∧ x < text_len →
          (paint (sweep_ops text_len prev_pos spans) f x = true ↔
            ∃ sp ∈ spans, sp.1 ≤ x ∧ x < sp.2)) ∧
        (¬ (prev_pos ≤ x ∧ x < text_len) →
          paint (sweep_ops text_len prev_pos spans) f x = f x) := by
  induction spans with
  | nil =>
    intro prev_pos f _ _ x
    simp only [sweep_ops, paint, List.foldl_cons, List.foldl_nil, paint_one]
    constructor
    · intro hx
      rw [if_pos hx]
      simp
    · intro hx
      rw [if_neg hx]
  | cons sp rest ih =>
    intro prev_pos f hpw hin x
    have hsp := hin sp (by simp)
    have hrest : ∀ sp1 ∈ rest, sp.2 ≤ sp1.1 ∧ sp1.1 ≤ sp1.2 ∧ sp1.2 ≤ text_len := by
      intro sp1 h1
      have h2 := hin sp1 (by simp [h1])
      exact ⟨(List.pairwise_cons.mp hpw).1 sp1 h1, h2.2.1, h2.2.2⟩
    have hunf : paint (sweep_ops text_len prev_pos (sp :: rest)) f =
        paint (sweep_ops text_len sp.2 rest)
          (paint_one (paint_one f { value := false, start := prev_pos, end_ := sp.1 })
            { value := true, start := sp.1, end_ := sp.2 }) := rfl
    rw [hunf]
    obtain ⟨hinside, houtside⟩ := ih sp.2 _ (List.pairwise_cons.mp hpw).2 hrest x
    by_cases hge : sp.2 ≤ x
    · constructor
      · intro hx
        rw [hinside ⟨hge, hx.2⟩]
        constructor
        · rintro ⟨sp1, h1, h2⟩
          exact ⟨sp1, by simp [h1], h2⟩
        · rintro ⟨sp1, h1, h2⟩
          rcases List.mem_cons.mp h1 with h3 | h3
          · rw [h3] at h2
            omega
          · exact ⟨sp1, h3, h2⟩
      · intro hx
        have hlen : ¬ (sp.2 ≤ x ∧ x < text_len) := by omega
        rw [houtside hlen]
        simp only [paint_one]
        have h1 : ¬ (sp.1 ≤ x ∧ x < sp.2) := by omega
        have h2 : ¬ (prev_pos ≤ x ∧ x < sp.1) := by omega
        rw [if_neg h1, if_neg h2]
    · have hout : ¬ (sp.2 ≤ x ∧ x < text_len) := by omega
      rw [houtside hout]
      simp only [paint_one]
      constructor
      · intro hx
        by_cases h1 : sp.1 ≤ x ∧ x < sp.2
        · rw [if_pos h1]
          simp only [true_iff]
          exact ⟨sp, by simp, h1⟩
        · rw [if_neg h1]
          have h2 : prev_pos ≤ x ∧ x < sp.1 := by omega
          rw [if_pos h2]
          simp only [Bool.false_eq_true, false_iff, not_exists, not_and]
          intro sp1 hm hle
          rcases List.mem_cons.mp hm with h3 | h3
          · rw [h3] at hle
            omega
          · have := (hrest sp1 h3).1
            omega
      · intro hx
        have h1 : ¬ (sp.1 ≤ x ∧ x < sp.2) := by omega
        have h2 : ¬ (prev_pos ≤ x ∧ x < sp.1) := by omega
        rw [if_neg h1, if_neg h2]

/-- C11: for a chunk that starts at raw offset `start_pos` and whose `original_length` is the
raw end `end_`, and every prior decoration store `d`: if the misspelled spans computed for
the chunk are sorted, non-overlapping and contained in `[start_pos, end_)`, then after the
calls of `underline_misspelled_words` an offset of `[start_pos, end_)` carries the spell-check
indicator exactly when it lies in a misspelled span, every offset outside `[start_pos, end_)`
is decorated as in `d`, and no other indicator is touched.  On "Helo wrold." with "Helo" and
"wrold" misspelled exactly `[0, 4)` and `[5, 10)` end up underlined. -/
theorem underline_misspelled_words_decorates :
    (∀ (env : Env) (indicator : Int) (text : MappedWstring) (start_pos : Int)
        (d : Decorations) (words : List SpellerWordData),
      check_text env text = some words →
      (misspelled_spans words).Pairwise (fun a b => a.2 ≤ b.1) →
      (∀ sp ∈ misspelled_spans words,
        start_pos ≤ sp.1 ∧ sp.1 ≤ sp.2 ∧ sp.2 ≤ text.original_length) →
      ∃ calls, underline_misspelled_words env indicator text start_pos = some calls ∧
        (∀ x : Int, start_pos ≤ x → x < text.original_length →
          ((apply_calls calls d).set_for indicator x = true ↔
            ∃ sp ∈ misspelled_spans words, sp.1 ≤ x ∧ x < sp.2)) ∧
        (∀ x : Int, ¬ (start_pos ≤ x ∧ x < text.original_length) →
          (apply_calls calls d).set_for indicator x = d.set_for indicator x) ∧
        (∀ i x : Int, i ≠ indicator → (apply_calls calls d).set_for i x = d.set_for i x)) ∧
    (∃ calls, underline_misspelled_words (spec_env "Helo wrold.".toList 0 ["Helo", "wrold"]) 7
        (byte_range "Helo wrold.".toList 0 11) 0 = some calls ∧
      ((List.range 11).map fun x => (apply_calls calls no_decorations).set_for 7 (x : Int)) =
        [true, true, true, true, false, true, true, true, true, true, false]) := by
  refine ⟨?_, ⟨_, rfl, by decide⟩⟩
  intro env indicator text start_pos d words hwords hpw hin
  have hcalls : underline_misspelled_words env indicator text start_pos =
      some ((sweep_ops text.original_length start_pos (misspelled_spans words)).flatMap
        (PaintOp.calls indicator)) := by
    simp only [underline_misspelled_words, hwords, Option.map_some']
    rw [underline_buffer_eq, underline_sweep_eq]
  refine ⟨_, hcalls, ?_⟩
  refine ⟨?_, ?_, ?_⟩
  · intro x h1 h2
    rw [apply_calls_paint, if_pos rfl]
    exact (paint_sweep_ops _ _ start_pos _ hpw hin x).1 ⟨h1, h2⟩
  · intro x hx
    rw [apply_calls_paint, if_pos rfl]
    exact (paint_sweep_ops _ _ start_pos _ hpw hin x).2 hx
  · intro i x hi
    rw [apply_calls_paint, if_neg hi]

/-- On "ok Helo ok" the sweep leaves the indicator on `[3, 7)` only, whatever was decorated
inside the chunk before. -/
theorem underline_misspelled_words_decorates_witness :
    ∃ calls, underline_misspelled_words (spec_env "ok Helo ok".toList 0 ["Helo"]) 7
        (byte_range "ok Helo ok".toList 0 10) 0 = some calls ∧
      ∀ x : Int, 0 ≤ x → x < 10 →
        ((apply_calls calls { current_indicator := 0, set_for := fun _ _ => true }).set_for 7 x
          = true ↔ ∃ sp ∈ [((3 : Int), (7 : Int))], sp.1 ≤ x ∧ x < sp.2) := by
  obtain ⟨calls, hcalls, hin, _, _⟩ :=
    underline_misspelled_words_decorates.1 (spec_env "ok Helo ok".toList 0 ["Helo"]) 7
      (byte_range "ok Helo ok".toList 0 10) 0
      { current_indicator := 0, set_for := fun _ _ => true } _ rfl (by decide) (by decide)
  exact ⟨calls, hcalls, hin⟩

/-! ## Highlighting passes paint -/

/-- The calls of a sequence of painting operations on the indicator. -/
theorem painting_append (indicator : Int) (a b : List IndicatorCall)
    (ha : IsPainting indicator a)
    (hb : IsPainting indicator b) :
    IsPainting indicator (a ++ b) := by
  obtain ⟨o1, h1⟩ := ha
  obtain ⟨o2, h2⟩ := hb
  exact ⟨o1 ++ o2, by rw [h1, h2, List.flatMap_append]⟩

/-- The calls of `underline_misspelled_words` are painting operations. -/
theorem underline_misspelled_words_painting (env : Env) (indicator : Int)
    (text : MappedWstring) (start_pos : Int) (calls : List IndicatorCall)
    (h : underline_misspelled_words env indicator text start_pos = some calls) :
    IsPainting indicator calls := by
  unfold underline_misspelled_words at h
  cases hc : check_text env text with
  | none => rw [hc] at h; cases h
  | some words =>
    rw [hc] at h
    simp only [Option.map_some', Option.some.injEq] at h
    rw [underline_buffer_eq, underline_sweep_eq] at h
    exact ⟨_, h.symm⟩

/-- The calls of `clear_all_underlines` are painting operations. -/
theorem clear_all_underlines_painting (env : Env) (indicator : Int) :
    IsPainting indicator (clear_all_underlines env indicator) := by
  unfold clear_all_underlines
  split
  · exact ⟨[{ value := false, start := 0, end_ := env.editor.get_active_document_length }],
      by simp [PaintOp.calls, remove_underline]⟩
  · exact ⟨[], rfl⟩

/-- The calls of the inner loop of the viewport highlighter are painting operations. -/
theorem visible_range_loop_painting (env : Env) (vp : Viewport) (indicator line_end : Int) :
    ∀ (fuel : Nat) (start end_ : Int) (run : Run),
      visible_range_loop env vp indicator line_end fuel start end_ = some run →
      IsPainting indicator run.calls := by
  intro fuel
  induction fuel with
  | zero => intro start end_ run h; simp [visible_range_loop] at h
  | succ n ih =>
    intro start end_ run h
    simp only [visible_range_loop] at h
    split at h
    · split at h
      · simp only [Option.some.injEq] at h
        rw [← h]
        exact ⟨[], rfl⟩
      · split at h
        · cases h
        · rename_i calls hcalls
          split at h
          · cases h
          · rename_i rest hrest
            simp only [Option.some.injEq] at h
            rw [← h]
            exact painting_append indicator _ _
              (underline_misspelled_words_painting env indicator _ _ calls hcalls)
              (ih _ _ rest hrest)
    · simp only [Option.some.injEq] at h
      rw [← h]
      exact ⟨[], rfl⟩

/-- The calls of the outer loop of the viewport highlighter are painting operations. -/
theorem visible_lines_loop_painting (env : Env) (vp : Viewport) (indicator : Int)
    (fuel : Nat) :
    ∀ (remaining : Nat) (line : Int) (run : Run),
      visible_lines_loop env vp indicator fuel remaining line = some run →
      IsPainting indicator run.calls := by
  intro remaining
  induction remaining with
  | zero =>
    intro line run h
    simp only [visible_lines_loop, Option.some.injEq] at h
    rw [← h]
    exact ⟨[], rfl⟩
  | succ n ih =>
    intro line run h
    simp only [visible_lines_loop] at h
    split at h
    · exact ih _ run h
    · split at h
      · exact ih _ run h
      · split at h
        · simp only [Option.some.injEq] at h
          rw [← h]
          exact ⟨[], rfl⟩
        · split at h
          · exact ih _ run h
          · split at h
            · exact ih _ run h
            · split at h
              · cases h
              · rename_i r hr
                split at h
                · cases h
                · rename_i rest hrest
                  simp only [Option.some.injEq] at h
                  rw [← h]
                  exact painting_append indicator _ _
                    (visible_range_loop_painting env vp indicator _ fuel _ _ r hr)
                    (ih _ rest hrest)

/-- The calls of `recheck_visible` are painting operations. -/
theorem recheck_visible_painting (env : Env) (vp : Viewport) (indicator : Int) (fuel : Nat)
    (run : Run) (h : recheck_visible env vp indicator fuel = some run) :
    IsPainting indicator run.calls := by
  unfold recheck_visible at h
  split at h
  · simp only [Option.some.injEq] at h
    rw [← h]
    exact clear_all_underlines_painting env indicator
  · split at h
    · simp only [Option.some.injEq] at h
      rw [← h]
      exact clear_all_underlines_painting env indicator
    · exact visible_lines_loop_painting env vp indicator fuel _ _ run h

/-- A sequence of painting operations either overwrites an offset with a value that does not
depend on what was there, or leaves it alone. -/
theorem paint_const_or_id (x : Int) (ops : List PaintOp) :
    (∃ b, ∀ g : Int → Bool, paint ops g x = b) ∨ (∀ g : Int → Bool, paint ops g x = g x) := by
  induction ops with
  | nil => right; intro g; rfl
  | cons op rest ih =>
    have hunf : ∀ g, paint (op :: rest) g = paint rest (paint_one g op) := fun _ => rfl
    rcases ih with ⟨b, hb⟩ | hid
    · left
      exact ⟨b, fun g => by rw [hunf, hb]⟩
    · by_cases hc : op.start ≤ x ∧ x < op.end_
      · left
        refine ⟨op.value, fun g => ?_⟩
        rw [hunf, hid]
        simp only [paint_one]
        rw [if_pos hc]
      · right
        intro g
        rw [hunf, hid]
        simp only [paint_one]
        rw [if_neg hc]

/-- Painting twice is painting once. -/
theorem paint_idem (ops : List PaintOp) (f : Int → Bool) :
    paint ops (paint ops f) = paint ops f := by
  funext x
  rcases paint_const_or_id x ops with ⟨b, hb⟩ | hid
  · rw [hb, hb]
  · rw [hid]

/-- The current indicator after the calls of a sequence of painting operations. -/
theorem apply_calls_current (indicator : Int) (ops : List PaintOp) :
    ∀ d : Decorations,
      (apply_calls (ops.flatMap (PaintOp.calls indicator)) d).current_indicator =
        if ops = [] then d.current_indicator else indicator := by
  induction ops with
  | nil => intro d; rfl
  | cons op rest ih =>
    intro d
    have hstep : apply_calls ((op :: rest).flatMap (PaintOp.calls indicator)) d =
        apply_calls (rest.flatMap (PaintOp.calls indicator))
          (apply_calls (PaintOp.calls indicator op) d) := by
      simp [apply_calls, List.foldl_append]
    have hone : (apply_calls (PaintOp.calls indicator op) d).current_indicator = indicator := by
      cases hv : op.value <;>
        simp [apply_calls, PaintOp.calls, create_word_underline, remove_underline, apply_call, hv]
    rw [hstep, ih, hone]
    simp

/-- Two decoration stores with the same current indicator and the same bits are equal. -/
theorem decorations_ext (a b : Decorations) (hc : a.current_indicator = b.current_indicator)
    (hs : ∀ i x, a.set_for i x = b.set_for i x) : a = b := by
  cases a
  cases b
  simp only at hc hs
  simp only [Decorations.mk.injEq]
  exact ⟨hc, funext fun i => funext fun x => hs i x⟩

/-- Carrying out the calls of painting operations twice leaves the decoration store that
carrying them out once leaves. -/
theorem apply_calls_painting_idem (indicator : Int) (ops : List PaintOp) (d : Decorations) :
    apply_calls (ops.flatMap (PaintOp.calls indicator))
        (apply_calls (ops.flatMap (PaintOp.calls indicator)) d) =
      apply_calls (ops.flatMap (PaintOp.calls indicator)) d := by
  apply decorations_ext
  · rw [apply_calls_current, apply_calls_current]
    split <;> rfl
  · intro i x
    rw [apply_calls_paint]
    by_cases h : i = indicator
    · rw [if_pos h]
      have hf : (apply_calls (ops.flatMap (PaintOp.calls indicator)) d).set_for indicator =
          paint ops (d.set_for indicator) := by
        funext y
        rw [apply_calls_paint, if_pos rfl]
      rw [hf, paint_idem, apply_calls_paint, if_pos h]
    · rw [if_neg h]

/-- When the highlighting pass (`recheck_visible`, or
`underline_misspelled_words_in_visible_text` itself) comes back with the calls `run.calls`,
making the same calls a second time leaves the decoration store that the first run left.
Nothing is said here about a pass that does not come back. -/
theorem returned_pass_twice_is_once (env : Env) (vp : Viewport) (indicator : Int) (fuel : Nat)
    (run : Run) (d : Decorations) :
    (recheck_visible env vp indicator fuel = some run →
      apply_calls run.calls (apply_calls run.calls d) = apply_calls run.calls d) ∧
    (underline_misspelled_words_in_visible_text env vp indicator fuel = some run →
      apply_calls run.calls (apply_calls run.calls d) = apply_calls run.calls d) := by
  constructor
  · intro h
    obtain ⟨ops, hops⟩ := recheck_visible_painting env vp indicator fuel run h
    rw [hops]
    exact apply_calls_painting_idem indicator ops d
  · intro h
    obtain ⟨ops, hops⟩ := visible_lines_loop_painting env vp indicator fuel _ _ run h
    rw [hops]
    exact apply_calls_painting_idem indicator ops d

/-- The pass over "Helo wrold." in a window that shows the whole line makes ten calls and one
decode, and repeating it changes nothing. -/
theorem returned_pass_twice_is_once_example :
    ∃ run, recheck_visible (spec_env "Helo wrold.".toList 0 ["Helo", "wrold"])
        (single_line_viewport 11) 7 2 = some run ∧
      run.calls.length = 10 ∧ run.decodes = 1 ∧
      apply_calls run.calls (apply_calls run.calls no_decorations) =
        apply_calls run.calls no_decorations :=
  ⟨_, rfl, rfl, rfl,
    (returned_pass_twice_is_once (spec_env "Helo wrold.".toList 0 ["Helo", "wrold"])
      (single_line_viewport 11) 7 2 _ no_decorations).1 rfl⟩

/-- C15: whenever the checking capability reports that it is not working, `recheck_visible`
comes back having made exactly the calls of `clear_all_underlines`: one clear of the raw range
`[0, document length)` on the spell-check indicator when the length is positive, no call at
all when it is 0; it makes no fill call, no `check_words` or `check_word` call, and decodes no
range; afterwards no offset of `[0, document length)` carries the indicator. -/
theorem recheck_visible_clears_when_not_working (env : Env) (vp : Viewport) (indicator : Int)
    (fuel : Nat) (hnw : env.speller.is_working = false) :
    ∃ run, recheck_visible env vp indicator fuel = some run ∧
      run.calls =
        (if env.editor.get_active_document_length > 0 then
          [IndicatorCall.set_current_indicator indicator,
            IndicatorCall.indicator_clear_range 0 env.editor.get_active_document_length]
        else []) ∧
      (∀ a b, IndicatorCall.indicator_fill_range a b ∉ run.calls) ∧
      run.speller_calls = [] ∧ run.decodes = 0 ∧
      ∀ (d : Decorations) (x : Int), 0 ≤ x → x < env.editor.get_active_document_length →
        (apply_calls run.calls d).set_for indicator x = false := by
  refine ⟨{ calls := clear_all_underlines env indicator, speller_calls := [], decodes := 0 },
    by simp [recheck_visible, hnw], rfl, ?_, rfl, rfl, ?_⟩
  · intro a b hmem
    simp only [clear_all_underlines] at hmem
    split at hmem <;> simp at hmem
  · intro d x h0 hx
    have hpos : env.editor.get_active_document_length > 0 := by omega
    simp [clear_all_underlines, hpos, apply_calls, apply_call, h0, hx]

/-- With a speller that is not working, the pass over "Helo wrold." makes the one clear of
`[0, 11)` and nothing else. -/
theorem recheck_visible_clears_when_not_working_witness :
    recheck_visible (spec_env_not_working "Helo wrold.".toList 0 ["Helo", "wrold"])
        (single_line_viewport 11) 7 0 =
      some { calls := [IndicatorCall.set_current_indicator 7,
                       IndicatorCall.indicator_clear_range 0 11],
             speller_calls := [], decodes := 0 } := by
  obtain ⟨run, hrun, hcalls, _, hsp, hdec, _⟩ :=
    recheck_visible_clears_when_not_working
      (spec_env_not_working "Helo wrold.".toList 0 ["Helo", "wrold"])
      (single_line_viewport 11) 7 0 rfl
  rw [hrun]
  cases run
  simp only at hcalls hsp hdec
  rw [hcalls, hsp, hdec]
  rfl

/-! ## Sorting and removing duplicates without regard to case -/

/-- The two ways in which a non-empty list is lexicographically smaller than another. -/
theorem lex_cons_inv (p q : List Char) (h : List.Lex (fun a b : Char => a < b) p q) :
    ∀ (a : Char) (l1 : List Char) (b : Char) (l2 : List Char), p = a :: l1 → q = b :: l2 →
      a < b ∨ (a = b ∧ List.Lex (fun a b : Char => a < b) l1 l2) := by
  cases h with
  | nil => intro a l1 b l2 hp _; cases hp
  | cons h1 =>
    intro a l1 b l2 hp hq
    cases hp
    cases hq
    exact Or.inr ⟨rfl, h1⟩
  | rel h1 =>
    intro a l1 b l2 hp hq
    cases hp
    cases hq
    exact Or.inl h1

/-- The comparison of `get_all_misspellings_as_string` is the lexicographic order of the
upper-cased words. -/
theorem misspelling_less_iff (char_upper : Char → Char) :
    ∀ x y : List Char, misspelling_less char_upper x y = true ↔
      List.Lex (fun a b : Char => a < b) (x.map char_upper) (y.map char_upper) := by
  intro x
  induction x with
  | nil =>
    intro y
    cases y with
    | nil => simp [misspelling_less, lexicographical_compare, List.Lex.not_nil_right]
    | cons b bs =>
      simp only [misspelling_less, lexicographical_compare, List.map_nil, List.map_cons,
        true_iff]
      exact List.Lex.nil
  | cons a as ih =>
    intro y
    cases y with
    | nil => simp [misspelling_less, lexicographical_compare, List.Lex.not_nil_right]
    | cons b bs =>
      simp only [misspelling_less, lexicographical_compare, List.map_cons, decide_eq_true_eq]
      by_cases h1 : char_upper a < char_upper b
      · rw [if_pos h1]
        simp only [true_iff]
        exact List.Lex.rel h1
      · rw [if_neg h1]
        by_cases h2 : char_upper b < char_upper a
        · rw [if_pos h2]
          simp only [Bool.false_eq_true, false_iff]
          intro hlex
          rcases lex_cons_inv _ _ hlex _ _ _ _ rfl rfl with h | ⟨h, _⟩
          · exact h1 h
          · rw [h] at h2
            exact lt_irrefl _ h2
        · rw [if_neg h2]
          have heq : char_upper a = char_upper b := le_antisymm (not_lt.mp h2) (not_lt.mp h1)
          rw [heq, List.Lex.cons_iff]
          exact ih bs

/-- The predicate of the `std::unique` call is equality of the upper-cased words. -/
theorem misspelling_same_iff (char_upper : Char → Char) :
    ∀ x y : List Char, misspelling_same char_upper x y = true ↔
      x.map char_upper = y.map char_upper := by
  intro x
  induction x with
  | nil =>
    intro y
    cases y <;> simp [misspelling_same, equal]
  | cons a as ih =>
    intro y
    cases y with
    | nil => simp [misspelling_same, equal]
    | cons b bs =>
      have := ih bs
      simp only [misspelling_same] at this
      simp [misspelling_same, equal, this]

/-- What `unique_from` keeps was in its input. -/
theorem unique_from_subset {α : Type} (pred : α → α → Bool) :
    ∀ (l : List α) (last x : α), x ∈ unique_from pred last l → x ∈ l := by
  intro l
  induction l with
  | nil => intro last x h; cases h
  | cons b rest ih =>
    intro last x h
    simp only [unique_from] at h
    split at h
    · exact List.mem_cons_of_mem _ (ih last x h)
    · rcases List.mem_cons.mp h with h1 | h1
      · rw [h1]; exact List.mem_cons_self _ _
      · exact List.mem_cons_of_mem _ (ih b x h1)

/-- What `unique` keeps was in its input. -/
theorem unique_subset {α : Type} (pred : α → α → Bool) (l : List α) (x : α)
    (h : x ∈ unique pred l) : x ∈ l := by
  cases l with
  | nil => cases h
  | cons a rest =>
    simp only [unique] at h
    rcases List.mem_cons.mp h with h1 | h1
    · rw [h1]; exact List.mem_cons_self _ _
    · exact List.mem_cons_of_mem _ (unique_from_subset pred rest a x h1)

/-- For a reflexive predicate, every element of the input of `unique_from` is related to
`last` or to an element that is kept. -/
theorem unique_from_covers {α : Type} (pred : α → α → Bool)
    (hrefl : ∀ a, pred a a = true) :
    ∀ (l : List α) (last x : α), x ∈ l →
      pred last x = true ∨ ∃ y ∈ unique_from pred last l, pred y x = true := by
  intro l
  induction l with
  | nil => intro last x h; cases h
  | cons b rest ih =>
    intro last x h
    simp only [unique_from]
    rcases List.mem_cons.mp h with h1 | h1
    · subst h1
      by_cases hp : pred last x = true
      · exact Or.inl hp
      · rw [if_neg hp]
        exact Or.inr ⟨x, List.mem_cons_self _ _, hrefl x⟩
    · by_cases hp : pred last b = true
      · rw [if_pos hp]
        exact ih last x h1
      · rw [if_neg hp]
        rcases ih b x h1 with h2 | ⟨y, hy, hyx⟩
        · exact Or.inr ⟨b, List.mem_cons_self _ _, h2⟩
        · exact Or.inr ⟨y, List.mem_cons_of_mem _ hy, hyx⟩

/-- For a reflexive predicate, every element of the input of `unique` is related to an
element that is kept. -/
theorem unique_covers {α : Type} (pred : α → α → Bool)
    (hrefl : ∀ a, pred a a = true) (l : List α) (x : α) (h : x ∈ l) :
    ∃ y ∈ unique pred l, pred y x = true := by
  cases l with
  | nil => cases h
  | cons a rest =>
    simp only [unique]
    rcases List.mem_cons.mp h with h1 | h1
    · subst h1
      exact ⟨x, List.mem_cons_self _ _, hrefl x⟩
    · rcases unique_from_covers pred hrefl rest a x h1 with h2 | ⟨y, hy, hyx⟩
      · exact ⟨a, List.mem_cons_self _ _, h2⟩
      · exact ⟨y, List.mem_cons_of_mem _ hy, hyx⟩

/-- In a list where no element is `less` than one in front of it, what `unique_from` keeps
is a chain in which every element is neither related by `pred` to its predecessor nor `less`
than it. -/
theorem unique_from_chain {α : Type} (pred less : α → α → Bool) :
    ∀ (l : List α) (last : α),
      (last :: l).Pairwise (fun a b => less b a = false) →
      List.Chain (fun a b => pred a b = false ∧ less b a = false) last
        (unique_from pred last l) := by
  intro l
  induction l with
  | nil => intro last _; exact List.Chain.nil
  | cons b rest ih =>
    intro last hpw
    simp only [unique_from]
    have hlast := List.pairwise_cons.mp hpw
    have hb := List.pairwise_cons.mp hlast.2
    by_cases hp : pred last b = true
    · rw [if_pos hp]
      exact ih last (List.pairwise_cons.mpr
        ⟨fun x hx => hlast.1 x (List.mem_cons_of_mem _ hx), hb.2⟩)
    · rw [if_neg hp]
      refine List.Chain.cons ⟨by simpa using hp, hlast.1 b (List.mem_cons_self _ _)⟩ ?_
      exact ih b hlast.2

/-- C13: when `std::sort` returns a rearrangement of the misspelled words that is sorted for
the comparison, `get_all_misspellings_as_string` returns the words of `all_misspellings`, each
followed by a newline; consecutive words are strictly increasing in the lexicographic order
of the upper-cased words (so no two entries are equal ignoring case), and the upper-cased
output words are exactly the upper-cased misspelled tokens of the document.  On
"Helo wrold." with "Helo" and "wrold" misspelled the result is "Helo", "wrold". -/
theorem all_misspellings_sorted_unique :
    (∀ (env : Env) (char_upper : Char → Char)
        (sort : (List Char → List Char → Bool) → List (List Char) → List (List Char))
        (mapped_str : MappedWstring) (views : List View),
      get_misspelled_words env mapped_str = some views →
      (sort (misspelling_less char_upper) (views.map (View.chars mapped_str.str))).Perm
        (views.map (View.chars mapped_str.str)) →
      (sort (misspelling_less char_upper) (views.map (View.chars mapped_str.str))).Pairwise
        (fun a b => misspelling_less char_upper b a = false) →
      ∃ words, all_misspellings env char_upper sort mapped_str = some words ∧
        get_all_misspellings_as_string env char_upper sort mapped_str =
          some (words.flatMap fun s => s ++ [Char.ofNat 10]) ∧
        words.Chain' (fun a b =>
          List.Lex (fun c d : Char => c < d) (a.map char_upper) (b.map char_upper)) ∧
        ∀ u : List Char, u ∈ words.map (List.map char_upper) ↔
          u ∈ (views.map (View.chars mapped_str.str)).map (List.map char_upper)) ∧
    (all_misspellings (spec_env "Helo wrold.".toList 0 ["Helo", "wrold"]) Char.toUpper
        insertion_sort (byte_range "Helo wrold.".toList 0 11) =
      some ["Helo".toList, "wrold".toList] ∧
     get_all_misspellings_as_string (spec_env "Helo wrold.".toList 0 ["Helo", "wrold"])
        Char.toUpper insertion_sort (byte_range "Helo wrold.".toList 0 11) =
      some ("Helo".toList ++ [Char.ofNat 10] ++ "wrold".toList ++ [Char.ofNat 10])) := by
  refine ⟨?_, by decide, by decide⟩
  intro env char_upper sort mapped_str views hviews hperm hsorted
  have hall : all_misspellings env char_upper sort mapped_str =
      some (unique (misspelling_same char_upper)
        (sort (misspelling_less char_upper) (views.map (View.chars mapped_str.str)))) := by
    simp only [all_misspellings, hviews, Option.map_some']
  refine ⟨_, hall, by simp only [get_all_misspellings_as_string, hall, Option.map_some'],
    ?_, ?_⟩
  · generalize sort (misspelling_less char_upper) (views.map (View.chars mapped_str.str)) = l
      at hsorted
    cases l with
    | nil => exact List.chain'_nil
    | cons a rest =>
      show List.Chain _ a (unique_from (misspelling_same char_upper) a rest)
      refine List.Chain.imp ?_
        (unique_from_chain (misspelling_same char_upper) (misspelling_less char_upper) rest a
          hsorted)
      intro x y hxy
      rcases (List.Lex.isTrichotomous (fun c d : Char => c < d)).trichotomous
        (x.map char_upper) (y.map char_upper) with h | h | h
      · exact h
      · have := (misspelling_same_iff char_upper x y).mpr h
        rw [this] at hxy
        cases hxy.1
      · have := (misspelling_less_iff char_upper y x).mpr h
        rw [this] at hxy
        cases hxy.2
  · intro u
    constructor
    · intro hu
      obtain ⟨w, hw, hwu⟩ := List.mem_map.mp hu
      have hw1 := unique_subset _ _ w hw
      exact List.mem_map.mpr ⟨w, hperm.subset hw1, hwu⟩
    · intro hu
      obtain ⟨w, hw, hwu⟩ := List.mem_map.mp hu
      have hw1 := hperm.symm.subset hw
      obtain ⟨y, hy, hyw⟩ := unique_covers (misspelling_same char_upper)
        (fun a => (misspelling_same_iff char_upper a a).mpr rfl) _ w hw1
      refine List.mem_map.mpr ⟨y, hy, ?_⟩
      rw [← hwu]
      exact (misspelling_same_iff char_upper y w).mp hyw

/-- In "zed Abc abc ABC zed b" with every word misspelled, insertion sort returns a sorted
rearrangement, and the list of misspellings keeps one spelling of "abc", then "b", "zed". -/
theorem all_misspellings_sorted_unique_witness :
    ∃ words, all_misspellings
        (spec_env "zed Abc abc ABC zed b".toList 0 ["zed", "Abc", "abc", "ABC", "b"])
        Char.toUpper insertion_sort (byte_range "zed Abc abc ABC zed b".toList 0 21) =
        some words ∧
      words.map (List.map Char.toUpper) = ["ABC".toList, "B".toList, "ZED".toList] ∧
      words.Chain' (fun a b =>
        List.Lex (fun c d : Char => c < d) (a.map Char.toUpper) (b.map Char.toUpper)) := by
  obtain ⟨words, hwords, _, hchain, _⟩ :=
    all_misspellings_sorted_unique.1
      (spec_env "zed Abc abc ABC zed b".toList 0 ["zed", "Abc", "abc", "ABC", "b"])
      Char.toUpper insertion_sort (byte_range "zed Abc abc ABC zed b".toList 0 21) _ rfl
      (by decide) (by decide)
  refine ⟨words, hwords, ?_, hchain⟩
  have h : all_misspellings
      (spec_env "zed Abc abc ABC zed b".toList 0 ["zed", "Abc", "abc", "ABC", "b"])
      Char.toUpper insertion_sort (byte_range "zed Abc abc ABC zed b".toList 0 21) =
      some _ := rfl
  rw [h] at hwords
  cases hwords
  decide

/-! ## Deleting spans from left to right -/

/-- The loop of `erase_all_misspellings` deletes the raw spans of the misspelled tokens. -/
theorem erase_loop_eq (mapped_str : MappedWstring) (views : List View) :
    ∀ chars_removed : Int, erase_loop mapped_str chars_removed views =
      delete_calls chars_removed (views.map (view_span mapped_str)) := by
  induction views with
  | nil => intro r; rfl
  | cons v rest ih =>
    intro r
    simp only [erase_loop, List.map_cons, delete_calls, view_span, ih]

/-- The `i`-th deletion starts at the start of the `i`-th span minus the lengths of the spans
in front of it (and what was removed before), and has the length of the span. -/
theorem delete_calls_index (spans : List (Int × Int)) :
    ∀ (chars_removed : Int) (i : Nat) (c : DeleteCall),
      (delete_calls chars_removed spans)[i]? = some c →
      ∃ sp, spans[i]? = some sp ∧ c.length = sp.2 - sp.1 ∧
        c.start = sp.1 - (chars_removed + ((spans.take i).map fun q => q.2 - q.1).sum) := by
  induction spans with
  | nil => intro r i c h; simp [delete_calls] at h
  | cons sp rest ih =>
    intro r i c h
    cases i with
    | zero =>
      simp only [delete_calls, List.getElem?_cons_zero, Option.some.injEq] at h
      refine ⟨sp, by simp, ?_, ?_⟩
      · rw [← h]
      · rw [← h]
        simp
    | succ k =>
      simp only [delete_calls, List.getElem?_cons_succ] at h
      obtain ⟨sp1, h1, h2, h3⟩ := ih _ k c h
      refine ⟨sp1, by simpa using h1, h2, ?_⟩
      rw [h3]
      simp only [List.take_succ_cons, List.map_cons, List.sum_cons]
      omega

/-- The number of deletions is the number of spans. -/
theorem delete_calls_length (spans : List (Int × Int)) :
    ∀ chars_removed : Int, (delete_calls chars_removed spans).length = spans.length := by
  induction spans with
  | nil => intro r; rfl
  | cons sp rest ih => intro r; simp [delete_calls, ih]

/-- Keeping the units outside the spans, piece by piece. -/
theorem keep_outside_from_append (base : Nat) (spans : List (Int × Int)) (a b : List Char) :
    keep_outside_from base spans (a ++ b) =
      keep_outside_from base spans a ++ keep_outside_from (base + a.length) spans b := by
  simp only [keep_outside_from, List.enumFrom_append, List.filter_append, List.map_append]

/-- A piece whose raw offsets all lie outside the spans is kept whole. -/
theorem keep_outside_from_all (base : Nat) (spans : List (Int × Int)) (a : List Char)
    (h : ∀ i : Nat, base ≤ i → i < base + a.length → outside_spans spans i = true) :
    keep_outside_from base spans a = a := by
  simp only [keep_outside_from]
  rw [List.filter_eq_self.mpr, List.enumFrom_map_snd]
  intro p hp
  exact h p.1 (List.le_fst_of_mem_enumFrom hp) (List.fst_lt_add_of_mem_enumFrom hp)

/-- A piece whose raw offsets all lie in a span is dropped. -/
theorem keep_outside_from_none (base : Nat) (spans : List (Int × Int)) (a : List Char)
    (h : ∀ i : Nat, base ≤ i → i < base + a.length → outside_spans spans i = false) :
    keep_outside_from base spans a = [] := by
  simp only [keep_outside_from]
  rw [List.filter_eq_nil_iff.mpr, List.map_nil]
  intro p hp
  rw [h p.1 (List.le_fst_of_mem_enumFrom hp) (List.fst_lt_add_of_mem_enumFrom hp)]
  simp

/-- Spans that agree on the raw offsets of a piece keep the same units of it. -/
theorem keep_outside_from_congr (base : Nat) (s1 s2 : List (Int × Int)) (a : List Char)
    (h : ∀ i : Nat, base ≤ i → i < base + a.length →
      outside_spans s1 i = outside_spans s2 i) :
    keep_outside_from base s1 a = keep_outside_from base s2 a := by
  simp only [keep_outside_from]
  rw [List.filter_congr]
  intro p hp
  exact h p.1 (List.le_fst_of_mem_enumFrom hp) (List.fst_lt_add_of_mem_enumFrom hp)

/-- Removing the first of sorted spans: the units in front of it are kept, its own units are
dropped, and the remaining spans are removed from what follows. -/
theorem keep_outside_from_cons (base : Nat) (s e : Int) (rest : List (Int × Int))
    (t : List Char) (hbase : (base : Int) ≤ s) (hse : s ≤ e)
    (he : e ≤ (base : Int) + (t.length : Int)) (hrest : ∀ sp ∈ rest, e ≤ sp.1) :
    keep_outside_from base ((s, e) :: rest) t =
      t.take (s.toNat - base) ++ keep_outside_from e.toNat rest (t.drop (e.toNat - base)) := by
  have hsplit : t = t.take (s.toNat - base) ++
      ((t.drop (s.toNat - base)).take (e.toNat - s.toNat) ++ t.drop (e.toNat - base)) := by
    have h1 : t.drop (e.toNat - base) =
        (t.drop (s.toNat - base)).drop (e.toNat - s.toNat) := by
      rw [List.drop_drop]
      congr 1
      omega
    rw [h1, List.take_append_drop, List.take_append_drop]
  have hl1 : (t.take (s.toNat - base)).length = s.toNat - base := by
    rw [List.length_take]
    omega
  have hl2 : ((t.drop (s.toNat - base)).take (e.toNat - s.toNat)).length =
      e.toNat - s.toNat := by
    rw [List.length_take, List.length_drop]
    omega
  conv_lhs => rw [hsplit]
  rw [keep_outside_from_append, keep_outside_from_append, hl1, hl2]
  rw [keep_outside_from_all, keep_outside_from_none, List.nil_append]
  · have hb : base + (s.toNat - base) + (e.toNat - s.toNat) = e.toNat := by omega
    rw [hb]
    congr 1
    apply keep_outside_from_congr
    intro i hi _
    have hout : ¬ (s ≤ (i : Int) ∧ (i : Int) < e) := by omega
    simp only [outside_spans, List.all_cons]
    have : (!(decide (s ≤ (i : Int)) && decide ((i : Int) < e))) = true := by
      simp only [Bool.not_eq_true', Bool.and_eq_false_iff, decide_eq_false_iff_not]
      omega
    rw [this, Bool.true_and]
  · intro i h1 h2
    rw [hl2] at h2
    simp only [outside_spans, List.all_cons]
    have : (!(decide (s ≤ (i : Int)) && decide ((i : Int) < e))) = false := by
      simp only [Bool.not_eq_false', Bool.and_eq_true, decide_eq_true_eq]
      omega
    rw [this, Bool.false_and]
  · intro i h1 h2
    rw [hl1] at h2
    simp only [outside_spans, List.all_cons, Bool.and_eq_true, List.all_eq_true]
    constructor
    · simp only [Bool.not_eq_true', Bool.and_eq_false_iff, decide_eq_false_iff_not]
      omega
    · intro sp hsp
      have := hrest sp hsp
      simp only [Bool.not_eq_true', Bool.and_eq_false_iff, decide_eq_false_iff_not]
      omega

/-- Deleting sorted spans from left to right, every start moved by what was removed before,
removes exactly the units of the spans. -/
theorem apply_deletes_spans (spans : List (Int × Int)) :
    ∀ (chars_removed : Int) (base : Nat) (pre t : List Char),
      (pre.length : Int) = (base : Int) - chars_removed →
      spans.Pairwise (fun a b => a.2 ≤ b.1) →
      (∀ sp ∈ spans, (base : Int) ≤ sp.1 ∧ sp.1 ≤ sp.2 ∧
        sp.2 ≤ (base : Int) + (t.length : Int)) →
      apply_deletes (delete_calls chars_removed spans) (pre ++ t) =
        pre ++ keep_outside_from base spans t := by
  induction spans with
  | nil =>
    intro r base pre t _ _ _
    rw [keep_outside_from_all base [] t (fun _ _ _ => rfl)]
    rfl
  | cons sp rest ih =>
    intro r base pre t hpre hpw hin
    obtain ⟨s, e⟩ := sp
    have hsp := hin (s, e) (by simp)
    simp only at hsp
    have hrest : ∀ sp1 ∈ rest, e ≤ sp1.1 := (List.pairwise_cons.mp hpw).1
    have hunf : apply_deletes (delete_calls r ((s, e) :: rest)) (pre ++ t) =
        apply_deletes (delete_calls (r + (e - s)) rest)
          (delete_range (pre ++ t) { start := s - r, length := e - s }) := rfl
    have htake : (s - r).toNat = pre.length + (s.toNat - base) := by omega
    have hdrop : (s - r + (e - s)).toNat = pre.length + (e.toNat - base) := by omega
    have hdel : delete_range (pre ++ t) { start := s - r, length := e - s } =
        (pre ++ t.take (s.toNat - base)) ++ t.drop (e.toNat - base) := by
      simp only [delete_range]
      rw [htake, hdrop, List.take_append, List.drop_append]
    rw [hunf, hdel]
    rw [ih (r + (e - s)) e.toNat (pre ++ t.take (s.toNat - base)) (t.drop (e.toNat - base))
      ?_ (List.pairwise_cons.mp hpw).2 ?_]
    · rw [keep_outside_from_cons base s e rest t hsp.1 hsp.2.1 hsp.2.2 hrest,
        List.append_assoc]
    · rw [List.length_append, List.length_take]
      omega
    · intro sp1 h1
      have h2 := hin sp1 (by simp [h1])
      have h3 := hrest sp1 h1
      rw [List.length_drop]
      omega

/-- C14: for every document (raw units `doc`, text `mapped_str`) whose misspelled tokens have
sorted, non-overlapping raw spans `(s_1, e_1)`, ..., `(s_n, e_n)` inside the document,
`erase_all_misspellings` makes `n` deletions, the `i`-th at offset `s_i` minus the total
length of the earlier deletions and of length `e_i - s_i`, and the resulting document is
the original with exactly the raw offsets of those spans removed and all other units kept in
order.  "a mispeled word" with only "mispeled" misspelled becomes "a  word". -/
theorem erase_all_misspellings_removes_spans :
    (∀ (env : Env) (mapped_str : MappedWstring) (views : List View) (doc : List Char),
      get_misspelled_words env mapped_str = some views →
      (views.map (view_span mapped_str)).Pairwise (fun a b => a.2 ≤ b.1) →
      (∀ sp ∈ views.map (view_span mapped_str),
        0 ≤ sp.1 ∧ sp.1 ≤ sp.2 ∧ sp.2 ≤ (doc.length : Int)) →
      ∃ calls, erase_all_misspellings env mapped_str = some calls ∧
        calls.length = views.length ∧
        (∀ (i : Nat) (c : DeleteCall), calls[i]? = some c →
          ∃ sp, (views.map (view_span mapped_str))[i]? = some sp ∧
            c.length = sp.2 - sp.1 ∧
            c.start = sp.1 -
              (((views.map (view_span mapped_str)).take i).map fun q => q.2 - q.1).sum) ∧
        apply_deletes calls doc = keep_outside (views.map (view_span mapped_str)) doc) ∧
    (∃ calls, erase_all_misspellings (spec_env "a mispeled word".toList 0 ["mispeled"])
        (byte_range "a mispeled word".toList 0 15) = some calls ∧
      calls = [{ start := 2, length := 8 }] ∧
      apply_deletes calls "a mispeled word".toList = "a  word".toList) := by
  refine ⟨?_, ⟨_, rfl, rfl, by decide⟩⟩
  intro env mapped_str views doc hviews hpw hin
  have hcalls : erase_all_misspellings env mapped_str =
      some (delete_calls 0 (views.map (view_span mapped_str))) := by
    simp only [erase_all_misspellings, hviews, Option.map_some', erase_loop_eq]
  refine ⟨_, hcalls, by rw [delete_calls_length, List.length_map], ?_, ?_⟩
  · intro i c hc
    obtain ⟨sp, h1, h2, h3⟩ := delete_calls_index _ 0 i c hc
    exact ⟨sp, h1, h2, by rw [h3, zero_add]⟩
  · have h := apply_deletes_spans (views.map (view_span mapped_str)) 0 0 [] doc (by simp) hpw
      (fun sp hsp => by
        have := hin sp hsp
        simp only [Nat.cast_zero, zero_add]
        exact this)
    simpa [keep_outside] using h

/-- In "xx a yy b zz" with "xx", "yy" and "zz" misspelled the deletions are made at 0, 3
and 6, and the document becomes " a  b ". -/
theorem erase_all_misspellings_removes_spans_witness :
    ∃ calls, erase_all_misspellings (spec_env "xx a yy b zz".toList 0 ["xx", "yy", "zz"])
        (byte_range "xx a yy b zz".toList 0 12) = some calls ∧
      calls = [{ start := 0, length := 2 }, { start := 3, length := 2 },
        { start := 6, length := 2 }] ∧
      apply_deletes calls "xx a yy b zz".toList = " a  b ".toList := by
  obtain ⟨calls, hcalls, _, _, hdoc⟩ :=
    erase_all_misspellings_removes_spans.1
      (spec_env "xx a yy b zz".toList 0 ["xx", "yy", "zz"])
      (byte_range "xx a yy b zz".toList 0 12) _ "xx a yy b zz".toList rfl
      (by decide) (by decide)
  have h : erase_all_misspellings (spec_env "xx a yy b zz".toList 0 ["xx", "yy", "zz"])
      (byte_range "xx a yy b zz".toList 0 12) = some _ := rfl
  refine ⟨calls, hcalls, ?_, ?_⟩
  · rw [h] at hcalls
    cases hcalls
    rfl
  · rw [hdoc]
    decide

/-! ## The empty document -/

/-- C16: on an empty document (length 0, the caret at offset 0) `find_next_mistake` and
`find_prev_mistake` terminate (in their second pass, after one wrap) without a
`set_selection` call and without decoding any range, `is_word_under_cursor_correct` returns
true with `pos = -1` and `length = 0` whatever the cursor or mouse position, and `check_text`
on an empty decoded sequence returns an empty list without calling the speller. -/
theorem empty_document_is_a_no_op (env : Env)
    (hlen : env.editor.get_active_document_length = 0)
    (hcur : env.editor.get_current_pos = 0) :
    (∀ fuel : Nat, find_next_mistake env (fuel + 2) =
      Outcome.done { selection := none, full_check := true }) ∧
    (∀ fuel : Nat, find_next_mistake_decodes env fuel = 0) ∧
    (∀ fuel : Nat, find_prev_mistake env (fuel + 2) =
      Outcome.done { selection := none, full_check := true }) ∧
    (∀ fuel : Nat, find_prev_mistake_decodes env fuel = 0) ∧
    (∀ (q : CursorQuery) (use_text_cursor : Bool),
      is_word_under_cursor_correct env q use_text_cursor =
        some { is_correct := true, pos := -1, length := 0, speller_calls := [] }) ∧
    (∀ text : MappedWstring, text.str = [] →
      check_text env text = some [] ∧ (check_text_run env text).calls = []) := by
  have hprobe : prev_token_begin_in_document_probe env 0 = { pos := 0, decodes := 0 } := by
    simp [prev_token_begin_in_document_probe, prev_token_begin_in_document_loop]
  have hprobe2 : next_token_end_in_document_probe env 0 = { pos := 0, decodes := 0 } := by
    simp [next_token_end_in_document_probe, hlen]
  have hn1 : find_next_step env { current_position := 0, iterator_pos := 0, full_check := false }
      = Step.next { current_position := 0, iterator_pos := 0, full_check := true } := by
    simp [find_next_step, find_next_wrap, hlen]
  have hn2 : find_next_step env { current_position := 0, iterator_pos := 0, full_check := true }
      = Step.done { selection := none, full_check := true } := by
    simp [find_next_step, find_next_wrap, hlen]
  have hp1 : find_prev_step env { current_position := 0, iterator_pos := 0, full_check := false }
      = Step.next { current_position := 1, iterator_pos := 0, full_check := true } := by
    simp [find_prev_step, find_prev_wrap, hlen]
  have hp2 : find_prev_step env { current_position := 1, iterator_pos := 0, full_check := true }
      = Step.done { selection := none, full_check := true } := by
    simp [find_prev_step, find_prev_wrap, hlen]
  refine ⟨?_, ?_, ?_, ?_, ?_, ?_⟩
  · intro fuel
    simp only [find_next_mistake, hcur, prev_token_begin_in_document, hprobe, iterate_search,
      hn1, hn2]
  · intro fuel
    simp only [find_next_mistake_decodes, hcur, prev_token_begin_in_document, hprobe, zero_add]
    cases fuel with
    | zero => rfl
    | succ n =>
      cases n with
      | zero => simp [iterate_decodes, find_next_pass_decodes, hlen, hn1]
      | succ m => simp [iterate_decodes, find_next_pass_decodes, hlen, hn1, hn2]
  · intro fuel
    simp only [find_prev_mistake, hcur, next_token_end_in_document, hprobe2, iterate_search,
      hp1, hp2]
  · intro fuel
    simp only [find_prev_mistake_decodes, hcur, next_token_end_in_document, hprobe2, zero_add]
    cases fuel with
    | zero => rfl
    | succ n =>
      cases n with
      | zero => simp [iterate_decodes, find_prev_pass_decodes, hp1]
      | succ m => simp [iterate_decodes, find_prev_pass_decodes, hp1, hp2]
  · intro q use_text_cursor
    simp [is_word_under_cursor_correct, hlen]
  · intro text htext
    simp [check_text, check_text_run, htext]

/-- The empty single-byte document: both searches end after two passes with nothing selected
and nothing decoded. -/
theorem empty_document_is_a_no_op_witness :
    find_next_mistake (spec_env [] 0 ["Helo"]) 2 =
      Outcome.done { selection := none, full_check := true } ∧
    find_prev_mistake (spec_env [] 0 ["Helo"]) 2 =
      Outcome.done { selection := none, full_check := true } ∧
    find_next_mistake_decodes (spec_env [] 0 ["Helo"]) 2 = 0 ∧
    find_prev_mistake_decodes (spec_env [] 0 ["Helo"]) 2 = 0 :=
  ⟨(empty_document_is_a_no_op (spec_env [] 0 ["Helo"]) rfl rfl).1 0,
    (empty_document_is_a_no_op (spec_env [] 0 ["Helo"]) rfl rfl).2.2.1 0,
    (empty_document_is_a_no_op (spec_env [] 0 ["Helo"]) rfl rfl).2.1 2,
    (empty_document_is_a_no_op (spec_env [] 0 ["Helo"]) rfl rfl).2.2.2.1 2⟩

/-! ## The cost of the boundary probes -/

/-- Doubling the shift: what is left of a distance after one step of `shift` is covered by one
attempt less with the doubled shift. -/
theorem doubling_step (d shift : Int) (m : Nat) (hshift : 0 < shift)
    (h : d ≤ shift * (2 ^ (m + 1) - 1)) :
    d - shift ≤ shift * 2 * (2 ^ m - 1) ∧ 0 ≤ shift * 2 * (2 ^ m - 1) := by
  have hP : (1 : Int) ≤ 2 ^ m := one_le_pow₀ (by norm_num)
  have e1 : shift * (2 ^ (m + 1) - 1) - shift = shift * 2 * (2 ^ m - 1) := by ring
  constructor
  · linarith
  · exact mul_nonneg (by omega) (by omega)

/-- The backward probe started with `n` decode calls made, at a distance covered by `m`
doubling attempts, makes at most `m` more. -/
theorem prev_loop_decodes_le (env : Env) :
    ∀ (fuel : Nat) (start prev_start shift : Int) (n m : Nat), 0 < shift →
      start ≤ shift * (2 ^ m - 1) →
      (prev_token_begin_in_document_loop env fuel start prev_start shift n).decodes ≤ n + m := by
  intro fuel
  induction fuel with
  | zero =>
    intro start prev_start shift n m _ _
    simp [prev_token_begin_in_document_loop]
  | succ f ih =>
    intro start prev_start shift n m hshift hm
    simp only [prev_token_begin_in_document_loop]
    by_cases hpos : start > 0
    · rw [if_pos hpos]
      cases m with
      | zero =>
        simp only [pow_zero, sub_self, mul_zero] at hm
        omega
      | succ m1 =>
        obtain ⟨h1, h2⟩ := doubling_step start shift m1 hshift hm
        split
        · simp only
          omega
        · have := ih (max (start - shift) 0) (max (start - shift) 0) (shift * 2) (n + 1) m1
            (by omega) (max_le h1 h2)
          omega
    · rw [if_neg hpos]
      simp only
      omega

/-- The forward probe started below the document length with `n` decode calls made, at a
distance covered by `m` doubling attempts, makes at most `m` more. -/
theorem next_loop_decodes_le (env : Env) (length : Int) :
    ∀ (fuel : Nat) (end_ prev_end shift : Int) (n m : Nat), 0 < shift → end_ < length →
      length - end_ ≤ shift * (2 ^ m - 1) →
      (next_token_end_in_document_loop env length fuel end_ prev_end shift n).decodes
        ≤ n + m := by
  intro fuel
  induction fuel with
  | zero =>
    intro end_ prev_end shift n m _ _ _
    simp [next_token_end_in_document_loop]
  | succ f ih =>
    intro end_ prev_end shift n m hshift hlt hm
    simp only [next_token_end_in_document_loop]
    by_cases hpos : end_ > 0
    · rw [if_pos hpos]
      cases m with
      | zero =>
        simp only [pow_zero, sub_self, mul_zero] at hm
        omega
      | succ m1 =>
        obtain ⟨h1, h2⟩ := doubling_step (length - end_) shift m1 hshift hm
        split
        · simp only
          omega
        · split
          · simp only
            omega
          · rename_i hne
            have hlt2 : min (end_ + shift) length < length := by
              rcases min_choice (end_ + shift) length with h | h
              · rw [h]
                have := min_le_right (end_ + shift) length
                omega
              · exact absurd h hne
            have hmin : min (end_ + shift) length = end_ + shift := by
              rcases min_choice (end_ + shift) length with h | h
              · exact h
              · exact absurd h hne
            have := ih (min (end_ + shift) length) (min (end_ + shift) length) (shift * 2)
              (n + 1) m1 (by omega) hlt2 (by rw [hmin]; linarith)
            omega
    · rw [if_neg hpos]
      simp only
      omega

/-- The backward probe does not depend on its fuel once the fuel exceeds the start
position. -/
theorem prev_loop_fuel (env : Env) :
    ∀ (f1 f2 : Nat) (start prev_start shift : Int) (n : Nat), 0 < shift →
      start.toNat + 1 ≤ f1 → start.toNat + 1 ≤ f2 →
      prev_token_begin_in_document_loop env f1 start prev_start shift n =
        prev_token_begin_in_document_loop env f2 start prev_start shift n := by
  intro f1
  induction f1 with
  | zero => intro f2 start prev_start shift n _ h1 _; omega
  | succ g1 ih =>
    intro f2 start prev_start shift n hshift h1 h2
    cases f2 with
    | zero => omega
    | succ g2 =>
      simp only [prev_token_begin_in_document_loop]
      by_cases hpos : start > 0
      · rw [if_pos hpos, if_pos hpos]
        split
        · rfl
        · exact ih g2 _ _ _ _ (by omega) (by omega) (by omega)
      · rw [if_neg hpos, if_neg hpos]

/-- The forward probe does not depend on its fuel once the fuel exceeds the distance to the
end of the document. -/
theorem next_loop_fuel (env : Env) (length : Int) :
    ∀ (f1 f2 : Nat) (end_ prev_end shift : Int) (n : Nat), 0 < shift →
      (length - end_).toNat + 1 ≤ f1 → (length - end_).toNat + 1 ≤ f2 →
      next_token_end_in_document_loop env length f1 end_ prev_end shift n =
        next_token_end_in_document_loop env length f2 end_ prev_end shift n := by
  intro f1
  induction f1 with
  | zero => intro f2 end_ prev_end shift n _ h1 _; omega
  | succ g1 ih =>
    intro f2 end_ prev_end shift n hshift h1 h2
    cases f2 with
    | zero => omega
    | succ g2 =>
      simp only [next_token_end_in_document_loop]
      by_cases hpos : end_ > 0
      · rw [if_pos hpos, if_pos hpos]
        split
        · rfl
        · split
          · rfl
          · rename_i hne
            have hmin : min (end_ + shift) length = end_ + shift := by
              rcases min_choice (end_ + shift) length with h | h
              · exact h
              · exact absurd h hne
            have hlt : end_ + shift < length := by
              have := min_le_right (end_ + shift) length
              omega
            exact ih g2 _ _ _ _ (by omega) (by rw [hmin]; omega) (by rw [hmin]; omega)
      · rw [if_neg hpos, if_neg hpos]

/-- C19: `prev_token_begin_in_document (p)` terminates (its result is the same for every
amount of fuel above `p`) after at most `k` decode calls whenever `15 * (2 ^ k - 1) ≥ p`, in
particular for the least such `k`: every attempt with `start > 0` decodes the window
`[max (start - shift) 0, prev_start)`, returns at once when a token start at a decoded
index `> 0` is found in it, and otherwise goes on with the doubled shift, the first shift
being 15.  Symmetrically `next_token_end_in_document (q)`, for `q` not beyond the document
length, terminates after at most `k` decode calls whenever
`15 * (2 ^ k - 1) ≥ document length - q`. -/
theorem probes_make_logarithmic_decodes (env : Env) :
    (∀ (p : Int) (k : Nat), p ≤ 15 * (2 ^ k - 1) →
      (prev_token_begin_in_document_probe env p).decodes ≤ k) ∧
    (∀ (p : Int) (fuel : Nat), p.toNat + 1 ≤ fuel →
      prev_token_begin_in_document_loop env fuel p (p + 1) 15 0 =
        prev_token_begin_in_document_probe env p) ∧
    (∀ (fuel : Nat) (start prev_start shift : Int) (n : Nat), start > 0 →
      prev_token_begin_in_document_loop env (fuel + 1) start prev_start shift n =
        if prev_token_begin env
            (env.editor.get_mapped_wstring_range (max (start - shift) 0) prev_start).str
            (((env.editor.get_mapped_wstring_range (max (start - shift) 0)
              prev_start).str.length : Int) - 1) > 0 then
          { pos := (env.editor.get_mapped_wstring_range (max (start - shift) 0)
              prev_start).to_original_index
                (prev_token_begin env
                  (env.editor.get_mapped_wstring_range (max (start - shift) 0) prev_start).str
                  (((env.editor.get_mapped_wstring_range (max (start - shift) 0)
                    prev_start).str.length : Int) - 1))
            decodes := n + 1 }
        else
          prev_token_begin_in_document_loop env fuel (max (start - shift) 0)
            (max (start - shift) 0) (shift * 2) (n + 1)) ∧
    (∀ (q : Int) (k : Nat), q ≤ env.editor.get_active_document_length →
      env.editor.get_active_document_length - q ≤ 15 * (2 ^ k - 1) →
      (next_token_end_in_document_probe env q).decodes ≤ k) ∧
    (∀ (q : Int) (fuel : Nat), q ≠ env.editor.get_active_document_length →
      (env.editor.get_active_document_length - q).toNat + 1 ≤ fuel →
      next_token_end_in_document_loop env env.editor.get_active_document_length fuel q q 15 0 =
        next_token_end_in_document_probe env q) := by
  refine ⟨?_, ?_, ?_, ?_, ?_⟩
  · intro p k hk
    have := prev_loop_decodes_le env (p.toNat + 1) p (p + 1) 15 0 k (by norm_num) hk
    simpa [prev_token_begin_in_document_probe] using this
  · intro p fuel hfuel
    exact prev_loop_fuel env fuel (p.toNat + 1) p (p + 1) 15 0 (by norm_num) hfuel (le_refl _)
  · intro fuel start prev_start shift n hpos
    simp only [prev_token_begin_in_document_loop]
    rw [if_pos hpos]
  · intro q k hq hk
    simp only [next_token_end_in_document_probe]
    by_cases he : q = env.editor.get_active_document_length
    · rw [if_pos he]
      exact Nat.zero_le k
    · rw [if_neg he]
      have := next_loop_decodes_le env env.editor.get_active_document_length
        ((env.editor.get_active_document_length - q).toNat + 1) q q 15 0 k (by norm_num)
        (by omega) hk
      simpa using this
  · intro q fuel hq hfuel
    simp only [next_token_end_in_document_probe]
    rw [if_neg hq]
    exact next_loop_fuel env _ fuel _ q q 15 0 (by norm_num) hfuel (le_refl _)

/-- In a document of 100 blanks the backward probe from offset 100 needs the windows of 15,
30 and 60 characters: three decode calls, and `15 * (2 ^ 3 - 1) = 105 ≥ 100`; the forward
probe from offset 1 needs three as well. -/
theorem probes_make_logarithmic_decodes_witness :
    prev_token_begin_in_document_probe (spec_env blank_document 100 []) 100 =
      { pos := 0, decodes := 3 } ∧
    (prev_token_begin_in_document_probe (spec_env blank_document 100 []) 100).decodes ≤ 3 ∧
    (next_token_end_in_document_probe (spec_env blank_document 100 []) 1).decodes ≤ 3 :=
  ⟨by decide,
    (probes_make_logarithmic_decodes (spec_env blank_document 100 [])).1 100 3 (by decide),
    (probes_make_logarithmic_decodes (spec_env blank_document 100 [])).2.2.2.1 1 3
      (by decide) (by decide)⟩

/-! ## The period after a word -/

/-- The flag of `to_word_for_speller` tells whether the character stored right after the view
is a period. -/
theorem ends_with_dot_iff (env : Env) (s : List Char) (v : View) :
    (to_word_for_speller env s v).ends_with_dot = true ↔ s[v.off + v.len]? = some '.' := by
  simp only [to_word_for_speller, List.getD_eq_getElem?_getD, beq_iff_eq]
  cases h : s[v.off + v.len]? with
  | none =>
    simp only [Option.getD_none]
    constructor
    · intro h1
      exact absurd h1 (by decide)
    · intro h1
      cases h1
  | some c => simp

/-- C20, as stated, fails: in "dogs'." the token "dogs'" (decoded indices 0 to 5) is followed
by a period, but the apostrophe is cut before the word is normalized, so the word handed to
the speller, "dogs", has its ends-with-period flag unset. -/
theorem ends_with_dot_misses_period_after_apostrophe :
    spec_get_all_tokens "dogs'.".toList = [{ off := 0, len := 5 }] ∧
    "dogs'.".toList[5]? = some '.' ∧
    (check_text_run (spec_env "dogs'.".toList 0 []) (byte_range "dogs'.".toList 0 6)).calls =
      [SpellerCall.check_words [{ str := "dogs".toList, ends_with_dot := false }]] := by
  decide

/-- C20 (amended): for every non-empty text, the words handed to `check_words` are those of
the eligible tokens in order, and the ends-with-period flag of each is set if and only if the
character immediately following the token after apostrophe stripping is a period; for a
token from whose end nothing is stripped this is the character following the unstripped
token. -/
theorem ends_with_dot_reads_after_stripped_token (env : Env) (text : MappedWstring)
    (hne : text.str ≠ []) :
    (∃ batch, (check_text_run env text).calls = [SpellerCall.check_words batch] ∧
      batch.length = (eligible_tokens env text).length ∧
      ∀ (i : Nat) (v : View), (eligible_tokens env text)[i]? = some v →
        ∃ w, batch[i]? = some w ∧
          (w.ends_with_dot = true ↔ text.str[v.off + v.len]? = some '.')) ∧
    (∀ t ∈ env.settings.get_all_tokens text.str,
      (env.settings.cut_apostrophes text.str t).off +
          (env.settings.cut_apostrophes text.str t).len = t.off + t.len →
      ((to_word_for_speller env text.str
          (env.settings.cut_apostrophes text.str t)).ends_with_dot = true ↔
        text.str[t.off + t.len]? = some '.')) := by
  constructor
  · refine ⟨_, check_text_run_calls_of_ne_nil env text hne, by simp, ?_⟩
    intro i v hv
    refine ⟨to_word_for_speller env text.str v, by simp [hv], ?_⟩
    exact ends_with_dot_iff env text.str v
  · intro t _ hend
    rw [ends_with_dot_iff, hend]

/-- In "etc. dogs'." the word "etc" is handed over with the flag set and "dogs" with the flag
unset. -/
theorem ends_with_dot_reads_after_stripped_token_witness :
    ∃ batch, (check_text_run (spec_env "etc. dogs'.".toList 0 [])
        (byte_range "etc. dogs'.".toList 0 11)).calls = [SpellerCall.check_words batch] ∧
      batch = [{ str := "etc".toList, ends_with_dot := true },
               { str := "dogs".toList, ends_with_dot := false }] := by
  obtain ⟨batch, hbatch, _, _⟩ :=
    (ends_with_dot_reads_after_stripped_token (spec_env "etc. dogs'.".toList 0 [])
      (byte_range "etc. dogs'.".toList 0 11) (by decide)).1
  refine ⟨batch, hbatch, ?_⟩
  have h : (check_text_run (spec_env "etc. dogs'.".toList 0 [])
      (byte_range "etc. dogs'.".toList 0 11)).calls =
      [SpellerCall.check_words [{ str := "etc".toList, ends_with_dot := true },
               { str := "dogs".toList, ends_with_dot := false }]] := by decide
  rw [h] at hbatch
  simp only [List.cons.injEq, SpellerCall.check_words.injEq, and_true] at hbatch
  exact hbatch.symm

/-! ## A token cut by the start of a backward chunk -/

/-- A run of characters that are not word characters closes the token being read and yields
no further token. -/
theorem scan_tokens_nonword_run (r : List Char) (hr : ∀ c ∈ r, is_word_char c = false) :
    ∀ pos : Nat, scan_tokens r pos none = [] := by
  induction r with
  | nil => intro pos; rfl
  | cons a t ih =>
    intro pos
    simp only [scan_tokens]
    rw [hr a (by simp)]
    simp only [Bool.false_eq_true, if_false]
    exact ih (fun c hc => hr c (by simp [hc])) (pos + 1)

/-- A token followed by nothing but characters that are not word characters is the last
token. -/
theorem scan_tokens_closing_run (r : List Char) (hr : ∀ c ∈ r, is_word_char c = false)
    (hne : r ≠ []) (pos st : Nat) :
    scan_tokens r pos (some st) = [{ off := st, len := pos - st }] := by
  cases r with
  | nil => exact absurd rfl hne
  | cons a t =>
    simp only [scan_tokens]
    rw [hr a (by simp)]
    simp only [Bool.false_eq_true, if_false]
    rw [scan_tokens_nonword_run t (fun c hc => hr c (by simp [hc]))]

/-- The scan of the chunk "cd" followed by 4094 blanks, with "cd" in the dictionary of
misspellings, whose decoded index `i` is raw offset `i + 2`: one record, misspelled, with the
raw span `(2, 4)`. -/
theorem check_text_cut_word (r : List Char) (hr : ∀ c ∈ r, c = ' ') (hlen : r.length = 4094)
    (cursor : Int) :
    (check_text (spec_env ("abcd".toList ++ r) cursor ["cd"])
        (byte_range ("abcd".toList ++ r) 2 4098)).map
      (List.map fun w => (w.word_start, w.word_end, w.is_correct)) =
      some [(2, 4, false)] := by
  have hne : r ≠ [] := by
    intro h; rw [h] at hlen; cases hlen
  have hnonword : ∀ c ∈ r, is_word_char c = false := fun c hc => by rw [hr c hc]; decide
  have hstr : (byte_range ("abcd".toList ++ r) 2 4098).str = "cd".toList ++ r := by
    simp only [byte_range]
    have h1 : ((4098 : Int) - 2).toNat = 4096 := rfl
    have h2 : (2 : Int).toNat = 2 := rfl
    rw [h1, h2]
    show List.take 4096 ("cd".toList ++ r) = "cd".toList ++ r
    exact List.take_of_length_le (by simp [hlen])
  have htokens : spec_get_all_tokens ("cd".toList ++ r) = [{ off := 0, len := 2 }] := by
    rw [scan_tokens_leading_run "cd".toList r (by decide) (by decide),
      scan_tokens_closing_run r hnonword hne]
    rfl
  have hchars : View.chars ("cd".toList ++ r) { off := 0, len := 2 } = "cd".toList := rfl
  have hcut : spec_cut_apostrophes ("cd".toList ++ r) { off := 0, len := 2 } =
      { off := 0, len := 2 } := by
    simp only [spec_cut_apostrophes, hchars]
    decide
  have hcw : collect_words (spec_env ("abcd".toList ++ r) cursor ["cd"])
      (byte_range ("abcd".toList ++ r) 2 4098) (spec_get_all_tokens ("cd".toList ++ r)) =
      [word_record (spec_env ("abcd".toList ++ r) cursor ["cd"])
          (byte_range ("abcd".toList ++ r) 2 4098) { off := 0, len := 2 }] := by
    rw [htokens]
    simp only [collect_words, hstr]
    have e1 : (spec_env ("abcd".toList ++ r) cursor ["cd"]).settings.cut_apostrophes
        ("cd".toList ++ r) { off := 0, len := 2 } = { off := 0, len := 2 } := hcut
    rw [e1]
    have n1 : ∀ (v : View) (i : Int), is_spellchecking_needed
        (spec_env ("abcd".toList ++ r) cursor ["cd"]) ("cd".toList ++ r) v i = true :=
      fun _ _ => rfl
    rw [if_pos (n1 _ _)]
    simp only [word_record, hstr]
  have hne2 : (byte_range ("abcd".toList ++ r) 2 4098).str ≠ [] := by
    rw [hstr]
    simp
  rw [check_text_of_ne_nil _ _ hne2]
  have htk : (spec_env ("abcd".toList ++ r) cursor ["cd"]).settings.get_all_tokens
      (byte_range ("abcd".toList ++ r) 2 4098).str = spec_get_all_tokens ("cd".toList ++ r) := by
    rw [hstr]
    rfl
  rw [htk, hcw]
  have hresp : (spec_env ("abcd".toList ++ r) cursor ["cd"]).speller.check_words
      ([word_record (spec_env ("abcd".toList ++ r) cursor ["cd"])
          (byte_range ("abcd".toList ++ r) 2 4098) { off := 0, len := 2 }].map
        fun w => w.word_for_speller) = [false] := by
    simp only [List.map, word_record, to_word_for_speller, hstr]
    show [!(["cd"].map String.toList).contains
          (View.chars ("cd".toList ++ r) { off := 0, len := 2 })] = [false]
    rw [hchars]
    rfl
  rw [hresp]
  rfl

/-- With the cursor at the end of the document "abcd" followed by 4094 blanks and "cd" in the
dictionary of misspellings, the first pass of `find_prev_mistake` decodes `[2, 4098)` and
selects `(2, 4)`. -/
theorem find_prev_mistake_cut_word (r : List Char) (hr : ∀ c ∈ r, c = ' ')
    (hlen : r.length = 4094) (fuel : Nat) :
    find_prev_mistake (spec_env ("abcd".toList ++ r) 4098 ["cd"]) (fuel + 1) =
      Outcome.done { selection := some (2, 4), full_check := false } := by
  have hdoc : (spec_env ("abcd".toList ++ r) 4098 ["cd"]).editor.get_active_document_length
      = 4098 := by
    simp [spec_env, spec_env_with, byte_editor, hlen]
  have h0 : next_token_end_in_document (spec_env ("abcd".toList ++ r) 4098 ["cd"])
      (spec_env ("abcd".toList ++ r) 4098 ["cd"]).editor.get_current_pos = 4098 := by
    simp only [next_token_end_in_document, next_token_end_in_document_probe, hdoc]
    rfl
  have hfl : find_last_misspelling (spec_env ("abcd".toList ++ r) 4098 ["cd"])
      (byte_range ("abcd".toList ++ r) 2 4098) 4098 = some (some (2, 4)) := by
    obtain ⟨ws, hws, hproj⟩ := Option.map_eq_some'.mp (check_text_cut_word r hr hlen 4098)
    cases ws with
    | nil => cases hproj
    | cons w rest =>
      cases rest with
      | cons w2 rest2 => simp at hproj
      | nil =>
        simp only [List.map_cons, List.map_nil, List.cons.injEq, Prod.mk.injEq,
          and_true] at hproj
        simp only [find_last_misspelling, hws, Option.map_some', List.reverse_singleton,
          List.find?_cons, List.find?_nil, hproj.2.2, hproj.2.1, Bool.not_false,
          Bool.true_and]
        simp [SpellerWordData.span, hproj.1, hproj.2.1]
  have hstep : find_prev_step (spec_env ("abcd".toList ++ r) 4098 ["cd"])
      { current_position := 4098, iterator_pos := 4098, full_check := false } =
      Step.done { selection := some (2, 4), full_check := false } := by
    simp only [find_prev_step]
    have hfrom : (if (4098 : Int) - 4096 < 0 then (0 : Int) else 4098 - 4096) = 2 := by decide
    rw [hfrom]
    have hlt : (2 : Int) < 4098 := by decide
    rw [if_pos hlt]
    have hrng : (spec_env ("abcd".toList ++ r) 4098 ["cd"]).editor.get_mapped_wstring_range
        2 4098 = byte_range ("abcd".toList ++ r) 2 4098 := rfl
    rw [hrng, hfl]
  unfold find_prev_mistake
  rw [h0]
  have hcur : (spec_env ("abcd".toList ++ r) 4098 ["cd"]).editor.get_current_pos = 4098 := rfl
  rw [hcur]
  simp only [iterate_search, hstep]

/-- C18 (the code at the failing input): in the document "abcd" followed by 4094 blanks the
only token is "abcd" with raw span `(0, 4)`; with "cd" in the dictionary of misspellings and
the cursor at the document end, the first chunk of `find_prev_mistake` starts at raw offset
2 > 0, inside that token, its text is handed to `find_last_misspelling` with the head
untrimmed, and the search selects `(2, 4)`: a proper suffix of the token `(0, 4)`. -/
theorem find_prev_mistake_selects_cut_token :
    spec_get_all_tokens word_then_blanks = [{ off := 0, len := 4 }] ∧
    ∀ fuel : Nat, find_prev_mistake (spec_env word_then_blanks 4098 ["cd"]) (fuel + 1) =
      Outcome.done { selection := some (2, 4), full_check := false } := by
  have hnonword : ∀ c ∈ List.replicate 4094 ' ', is_word_char c = false := by
    intro c hc
    rw [List.eq_of_mem_replicate hc]
    decide
  have hne : List.replicate 4094 ' ' ≠ [] := by
    have h := replicate_append_ne_nil 4094 (by omega) ' ' []
    rwa [List.append_nil] at h
  constructor
  · unfold word_then_blanks
    rw [scan_tokens_leading_run "abcd".toList _ (by decide) (by decide),
      scan_tokens_closing_run _ hnonword hne]
    rfl
  · intro fuel
    exact find_prev_mistake_cut_word (List.replicate 4094 ' ')
      (fun c hc => List.eq_of_mem_replicate hc) (List.length_replicate _ _) fuel

/-! ## Scanning a range in two pieces -/

/-- Cutting the input right after a character that is not a word character cuts the list of
tokens in two. -/
theorem scan_tokens_append (c : Char) (hc : is_word_char c = false) (B : List Char) :
    ∀ (A : List Char) (pos : Nat) (cur : Option Nat),
      scan_tokens (A ++ c :: B) pos cur =
        scan_tokens (A ++ [c]) pos cur ++ scan_tokens B (pos + A.length + 1) none := by
  intro A
  induction A with
  | nil =>
    intro pos cur
    cases cur with
    | none => simp [scan_tokens, hc]
    | some st => simp [scan_tokens, hc]
  | cons x t ih =>
    intro pos cur
    have e : pos + (x :: t).length + 1 = pos + 1 + t.length + 1 := by
      simp only [List.length_cons]; omega
    rw [e]
    cases cur with
    | none =>
      simp only [List.cons_append, scan_tokens]
      split
      · exact ih (pos + 1) (some pos)
      · exact ih (pos + 1) none
    | some st =>
      simp only [List.cons_append, scan_tokens]
      split
      · exact ih (pos + 1) (some st)
      · exact congrArg (List.cons _) (ih (pos + 1) none)

/-- Scanning from a later position moves every token by the difference. -/
theorem scan_tokens_shift (q : Nat) :
    ∀ (B : List Char) (pos : Nat) (cur : Option Nat),
      scan_tokens B (pos + q) (cur.map (· + q)) = (scan_tokens B pos cur).map (View.shift q) := by
  intro B
  induction B with
  | nil =>
    intro pos cur
    cases cur with
    | none => rfl
    | some st =>
      have e : pos + q - (st + q) = pos - st := by omega
      simp only [Option.map_some', scan_tokens, List.map_cons, List.map_nil, View.shift, e]
  | cons x t ih =>
    intro pos cur
    have e : pos + q + 1 = pos + 1 + q := by omega
    cases cur with
    | none =>
      simp only [Option.map_none', scan_tokens]
      rw [e]
      split
      · exact ih (pos + 1) (some pos)
      · exact ih (pos + 1) none
    | some st =>
      simp only [Option.map_some', scan_tokens]
      rw [e]
      split
      · exact ih (pos + 1) (some st)
      · have e1 : pos + q - (st + q) = pos - st := by omega
        simp only [List.map_cons, View.shift, e1]
        exact congrArg (List.cons _) (ih (pos + 1) none)

/-- The tokens of a sequence cut after a character that is not a word character (or cut at
its very start) are the tokens of the first piece followed by those of the second piece, the
latter moved by the length of the first. -/
theorem spec_get_all_tokens_append (A B : List Char)
    (hA : ∀ c ∈ A.getLast?, is_word_char c = false) :
    spec_get_all_tokens (A ++ B) =
      spec_get_all_tokens A ++ (spec_get_all_tokens B).map (View.shift A.length) := by
  rcases List.eq_nil_or_concat A with h | ⟨L, c, h⟩
  · subst h
    simp only [List.nil_append, List.length_nil, spec_get_all_tokens, scan_tokens]
    have : (View.shift 0) = id := by
      funext v
      rfl
    rw [this, List.map_id]
  · rw [List.concat_eq_append] at h
    subst h
    have hc : is_word_char c = false := hA c (by simp)
    have h1 := scan_tokens_append c hc B L 0 none
    have h2 := scan_tokens_shift (L.length + 1) B 0 none
    simp only [Option.map_none', Nat.zero_add] at h1 h2
    simp only [spec_get_all_tokens, List.append_assoc, List.singleton_append, List.length_append,
      List.length_singleton]
    rw [h1, h2]

/-- A view that lies in the first piece of a sequence denotes the same characters there. -/
theorem View.chars_append_left (A B : List Char) (v : View) (hv : v.off + v.len ≤ A.length) :
    v.chars (A ++ B) = v.chars A := by
  unfold View.chars
  rw [List.drop_append_of_le_length (by omega),
    List.take_append_of_le_length (by rw [List.length_drop]; omega)]

/-- A view of the second piece of a sequence, moved by the length of the first piece, denotes
the same characters in the whole sequence. -/
theorem View.chars_shift (A B : List Char) (v : View) :
    (v.shift A.length).chars (A ++ B) = v.chars B := by
  unfold View.chars View.shift
  have e : v.off + A.length = A.length + v.off := by omega
  simp only [e, List.drop_append]

/-- Cutting apostrophes looks only at the characters the view denotes. -/
theorem spec_cut_apostrophes_congr (s t : List Char) (v : View) (h : v.chars t = v.chars s) :
    spec_cut_apostrophes t v = spec_cut_apostrophes s v := by
  simp only [spec_cut_apostrophes, h]

/-- Cutting apostrophes commutes with moving the view along with its sequence. -/
theorem spec_cut_apostrophes_shift (A B : List Char) (v : View) :
    spec_cut_apostrophes (A ++ B) (v.shift A.length) =
      (spec_cut_apostrophes B v).shift A.length := by
  simp only [spec_cut_apostrophes, View.chars_shift]
  simp only [View.shift, View.mk.injEq, and_true]
  omega

/-- The indexed loop run on a response that answers every record by `g`. -/
theorem assign_results_of_map (g : SpellerWordData → Bool) :
    ∀ (ws : List SpellerWordData) (pre : List Bool),
      assign_results (pre ++ ws.map g) pre.length ws =
        some (ws.map fun w => { w with is_correct := g w }) := by
  intro ws
  induction ws with
  | nil => intro pre; rfl
  | cons w rest ih =>
    intro pre
    have h := ih (pre ++ [g w])
    simp only [List.append_assoc, List.singleton_append, List.length_append,
      List.length_singleton] at h
    simp only [assign_results, List.map_cons]
    rw [List.getElem?_append_right (Nat.le_refl _)]
    simp only [Nat.sub_self, List.getElem?_cons_zero]
    rw [h]

/-- The records `check_text` returns with the tokenizer, the apostrophe cutting and the
dictionary speller of the specification: one record per token that passes `needed`, judged by
the dictionary. -/
theorem spec_check_text (needed : List Char → Bool) (doc : List Char) (cursor : Int)
    (misspelled : List String) (text : MappedWstring) :
    check_text (spec_env_with needed doc cursor misspelled) text =
      some ((((spec_get_all_tokens text.str).map (spec_cut_apostrophes text.str)).filter
        fun v => needed (v.chars text.str)).map fun v : View =>
          { word_record (spec_env_with needed doc cursor misspelled) text v with
            is_correct := !(misspelled.map String.toList).contains (v.chars text.str) }) := by
  by_cases hne : text.str = []
  · simp [check_text, check_text_run, hne, spec_get_all_tokens, scan_tokens]
  · rw [check_text_of_ne_nil _ _ hne, collect_words_eligible]
    have helig : eligible_tokens (spec_env_with needed doc cursor misspelled) text =
        ((spec_get_all_tokens text.str).map (spec_cut_apostrophes text.str)).filter
          fun v => needed (v.chars text.str) := rfl
    rw [helig]
    generalize ((spec_get_all_tokens text.str).map (spec_cut_apostrophes text.str)).filter
      (fun v => needed (v.chars text.str)) = L
    have hresp : (spec_env_with needed doc cursor misspelled).speller.check_words
        ((L.map (word_record (spec_env_with needed doc cursor misspelled) text)).map
          fun w => w.word_for_speller) =
        (L.map (word_record (spec_env_with needed doc cursor misspelled) text)).map
          fun w => !(misspelled.map String.toList).contains w.word_for_speller.str := by
      show List.map _ (List.map _ _) = _
      rw [List.map_map]
      rfl
    rw [hresp]
    split
    · have h := assign_results_of_map
        (fun w => !(misspelled.map String.toList).contains w.word_for_speller.str)
        (L.map (word_record (spec_env_with needed doc cursor misspelled) text)) []
      simp only [List.nil_append, List.length_nil] at h
      rw [h, List.map_map]
      rfl
    · rename_i hemp
      cases L with
      | nil => rfl
      | cons a t => simp at hemp

/-- The misspelled spans `check_text` finds with the tokenizer, the apostrophe cutting and
the dictionary speller of the specification: the raw spans of the tokens that pass `needed`
and are in the dictionary. -/
theorem spec_check_text_spans (needed : List Char → Bool) (doc : List Char) (cursor : Int)
    (misspelled : List String) (text : MappedWstring) :
    (check_text (spec_env_with needed doc cursor misspelled) text).map misspelled_spans =
      some (((((spec_get_all_tokens text.str).map (spec_cut_apostrophes text.str)).filter
        fun v => needed (v.chars text.str)).filter
        fun v => (misspelled.map String.toList).contains (v.chars text.str)).map
        (view_span text)) := by
  rw [spec_check_text]
  simp only [Option.map_some', misspelled_spans, List.filter_map, List.map_map]
  congr 1
  apply congrArg₂
  · rfl
  · apply List.filter_congr
    intro v _
    simp

/-- The tokens of the specification's tokenizer, apostrophes cut, lie inside the sequence. -/
theorem spec_cut_tokens_inside (A : List Char) (v : View)
    (hv : v ∈ (spec_get_all_tokens A).map (spec_cut_apostrophes A)) :
    v.off + v.len ≤ A.length := by
  obtain ⟨t, ht, rfl⟩ := List.mem_map.mp hv
  have h1 := (spec_cut_apostrophes_inside A t).2
  have h2 := ((scan_tokens_ordered A 0 none (fun _ h => by cases h)).1 t ht).2
  omega

/-- The tokens, apostrophes cut, of a sequence cut after a character that is not a word
character: those of the first piece, then those of the second piece moved by the length of
the first. -/
theorem spec_cut_tokens_append (A B : List Char)
    (hA : ∀ c ∈ A.getLast?, is_word_char c = false) :
    (spec_get_all_tokens (A ++ B)).map (spec_cut_apostrophes (A ++ B)) =
      (spec_get_all_tokens A).map (spec_cut_apostrophes A) ++
        ((spec_get_all_tokens B).map (spec_cut_apostrophes B)).map (View.shift A.length) := by
  rw [spec_get_all_tokens_append A B hA, List.map_append, List.map_map, List.map_map]
  congr 1
  · apply List.map_congr_left
    intro t ht
    have h2 := ((scan_tokens_ordered A 0 none (fun _ h => by cases h)).1 t ht).2
    exact spec_cut_apostrophes_congr A (A ++ B) t
      (View.chars_append_left A B t (by omega))
  · apply List.map_congr_left
    intro t _
    exact spec_cut_apostrophes_shift A B t

/-- Filtering twice and mapping a list made of a first part and a moved second part, when
the tests and the map agree with those of the parts. -/
theorem filter_map_append_moved {α β : Type} (sh : α → α) (p c pA cA pB cB : α → Bool)
    (f fA fB : α → β) (TA TB : List α)
    (hAp : ∀ v ∈ TA, p v = pA v) (hAc : ∀ v ∈ TA, c v = cA v) (hAf : ∀ v ∈ TA, f v = fA v)
    (hBp : ∀ v, p (sh v) = pB v) (hBc : ∀ v, c (sh v) = cB v) (hBf : ∀ v, f (sh v) = fB v) :
    (((TA ++ TB.map sh).filter p).filter c).map f =
      ((TA.filter pA).filter cA).map fA ++ ((TB.filter pB).filter cB).map fB := by
  rw [List.filter_append, List.filter_append, List.map_append]
  congr 1
  · rw [List.filter_congr hAp,
      List.filter_congr fun v hv => hAc v (List.mem_filter.mp hv).1]
    exact List.map_congr_left fun v hv =>
      hAf v (List.mem_filter.mp (List.mem_filter.mp hv).1).1
  · induction TB with
    | nil => rfl
    | cons v t ih =>
      simp only [List.map_cons, List.filter_cons, hBp]
      by_cases h1 : pB v = true
      · simp only [h1, if_true, List.filter_cons, hBc]
        by_cases h2 : cB v = true
        · simp only [h2, if_true, List.map_cons, hBf, ih]
        · simp only [h2, Bool.false_eq_true, if_false, ih]
      · simp only [h1, Bool.false_eq_true, if_false, ih]

/-- Chunk-boundary invariance of the scanner of the specification: when a decoded sequence
is cut after a character that is not a word character (or at its very start) and each piece
keeps its raw offsets, the misspelled spans of the whole are those of the first piece
followed by those of the second. -/
theorem spec_spans_append (needed : List Char → Bool) (doc : List Char) (cursor : Int)
    (misspelled : List String) (whole left right : MappedWstring)
    (hstr : whole.str = left.str ++ right.str)
    (hleft : ∀ i : Int, left.to_original_index i = whole.to_original_index i)
    (hright : ∀ i : Int, right.to_original_index i =
      whole.to_original_index (i + (left.str.length : Int)))
    (hcut : ∀ c ∈ left.str.getLast?, is_word_char c = false) :
    (check_text (spec_env_with needed doc cursor misspelled) whole).map misspelled_spans =
      some
        (((check_text (spec_env_with needed doc cursor misspelled) left).map
            misspelled_spans).getD [] ++
          ((check_text (spec_env_with needed doc cursor misspelled) right).map
            misspelled_spans).getD []) := by
  simp only [spec_check_text_spans, Option.getD_some, Option.some.injEq]
  rw [hstr, spec_cut_tokens_append _ _ hcut]
  have h1 : ∀ v ∈ (spec_get_all_tokens left.str).map (spec_cut_apostrophes left.str),
      v.chars (left.str ++ right.str) = v.chars left.str := fun v hv =>
    View.chars_append_left _ _ v (spec_cut_tokens_inside _ v hv)
  apply filter_map_append_moved (View.shift left.str.length)
  · exact fun v hv => by rw [h1 v hv]
  · exact fun v hv => by rw [h1 v hv]
  · exact fun v _ => by simp only [view_span, hleft]
  · exact fun v => by rw [View.chars_shift]
  · exact fun v => by rw [View.chars_shift]
  · intro v
    simp only [view_span, View.shift, hright, Nat.cast_add]
    have a1 : (v.off : Int) + (left.str.length : Int) + (v.len : Int) =
        (v.off : Int) + (v.len : Int) + (left.str.length : Int) := by omega
    rw [a1]

/-! ## The tail of a forward chunk -/

/-- Asked at or beyond the end of the sequence, the forward walk answers the length. -/
theorem spec_next_token_end_beyond (s : List Char) (i : Int) (h : (s.length : Int) ≤ i) :
    spec_next_token_end s i = (s.length : Int) := by
  have hm : min i.toNat s.length = s.length := by omega
  simp only [spec_next_token_end, hm, List.drop_length, run_length, Nat.add_zero]

/-- The backward walk stops at the start or right after a character that fails the test. -/
theorem walk_back_boundary (p : Char → Bool) (s : List Char) :
    ∀ n : Nat, walk_back p s n ≤ n ∧
      (walk_back p s n = 0 ∨ p (s.getD (walk_back p s n - 1) ' ') = false) := by
  intro n
  induction n with
  | zero => exact ⟨Nat.le_refl 0, Or.inl rfl⟩
  | succ m ih =>
    simp only [walk_back]
    by_cases h : p (s.getD m ' ') = true
    · rw [if_pos h]
      exact ⟨by omega, ih.2⟩
    · rw [if_neg h]
      refine ⟨Nat.le_refl _, Or.inr ?_⟩
      simpa using h

/-- The answer of `spec_prev_token_begin` is an index of the sequence that is 0 or follows a
character that is not a word character. -/
theorem spec_prev_token_begin_boundary (s : List Char) (i : Int) :
    ∃ k : Nat, spec_prev_token_begin s i = (k : Int) ∧ k ≤ s.length ∧
      (k = 0 ∨ is_word_char (s.getD (k - 1) ' ') = false) := by
  unfold spec_prev_token_begin
  by_cases hi : i < 0
  · rw [if_pos hi]
    exact ⟨0, rfl, Nat.zero_le _, Or.inl rfl⟩
  · rw [if_neg hi]
    have h1 := walk_back_boundary (fun c => !is_word_char c) s (min (i.toNat + 1) s.length)
    have h2 := walk_back_boundary is_word_char s
      (walk_back (fun c => !is_word_char c) s (min (i.toNat + 1) s.length))
    exact ⟨_, rfl, by omega, h2.2⟩

/-! ## Trimming -/

/-- Erasing up to the position found by `find_if` drops the leading run of elements that
fail the test. -/
theorem drop_find_if {α : Type} (p : α → Bool) (l : List α) :
    l.drop (find_if p l) = l.dropWhile fun a => !p a := by
  induction l with
  | nil => rfl
  | cons a t ih =>
    simp only [find_if, List.dropWhile_cons]
    by_cases h : p a = true
    · simp [h]
    · simp only [h, Bool.false_eq_true, if_false, List.drop_succ_cons, ih]
      simp [h]

/-- Erasing from the base of the reverse iterator found by `find_if` drops the trailing run
of elements that fail the test. -/
theorem take_find_if_reverse {α : Type} (p : α → Bool) (l : List α) :
    l.take (l.length - find_if p l.reverse) = l.rdropWhile fun a => !p a := by
  have h := drop_find_if p l.reverse
  have h2 := congrArg List.reverse h
  rw [List.reverse_drop, List.reverse_reverse, List.length_reverse] at h2
  exact h2

/-- The two tests for "not a whitespace character" agree. -/
theorem iswspace_tests_agree (iswspace : Char → Int) :
    (fun ch : Char => decide (iswspace ch = 0)) = fun ch => !decide (iswspace ch ≠ 0) := by
  funext ch
  by_cases h : iswspace ch = 0 <;> simp [h]

/-- Both trimming functions drop the leading and then the trailing run of whitespace
characters. -/
theorem trim_eq (iswspace : Char → Int) (s : List Char) :
    trim iswspace s =
      (s.dropWhile fun ch => decide (iswspace ch ≠ 0)).rdropWhile
        fun ch => decide (iswspace ch ≠ 0) := by
  simp only [trim, rtrim, ltrim, take_find_if_reverse, drop_find_if, Bool.not_not]

/-- A list is what is left by `rdropWhile` followed by elements that pass the test. -/
theorem rdropWhile_append_tail {α : Type} (p : α → Bool) (l : List α) :
    ∃ post, l = l.rdropWhile p ++ post ∧ ∀ c ∈ post, p c = true := by
  refine ⟨(l.reverse.takeWhile p).reverse, ?_, ?_⟩
  · have h := congrArg List.reverse (List.takeWhile_append_dropWhile p l.reverse)
    rw [List.reverse_append, List.reverse_reverse] at h
    exact h.symm
  · intro c hc
    exact List.mem_takeWhile_imp (List.mem_reverse.mp hc)

/-- C25: for every wide string `s` (and whatever `iswspace` answers), `trim_inplace` of
`string_utils.cpp` and `trim` of `CommonFunctions.h` compute the same result; `s` is a run
of whitespace characters, then the result, then a run of whitespace characters, and the
result neither starts nor ends with a whitespace character, so exactly the maximal leading
and trailing runs are removed and everything else is kept in order; the result is empty
when `s` is all whitespace; and trimming the result changes nothing.  With the blank and
the tab as whitespace, "  a b", blank, tab, is trimmed to "a b". -/
theorem trim_functions_agree (iswspace : Char → Int) (s : List Char) :
    trim_inplace iswspace s = trim iswspace s ∧
    (∃ pre post : List Char, s = pre ++ trim iswspace s ++ post ∧
      (∀ c ∈ pre, iswspace c ≠ 0) ∧ (∀ c ∈ post, iswspace c ≠ 0)) ∧
    (∀ c ∈ (trim iswspace s).head?, iswspace c = 0) ∧
    (∀ c ∈ (trim iswspace s).getLast?, iswspace c = 0) ∧
    ((∀ c ∈ s, iswspace c ≠ 0) → trim iswspace s = []) ∧
    trim iswspace (trim iswspace s) = trim iswspace s ∧
    trim_inplace iswspace (trim_inplace iswspace s) = trim_inplace iswspace s ∧
    trim_inplace blank_iswspace ("  a b ".toList ++ [Char.ofNat 9]) = "a b".toList := by
  have hagree : trim_inplace iswspace = trim iswspace := by
    funext t
    simp only [trim_inplace, rtrim_inplace, ltrim_inplace, trim, rtrim, ltrim,
      iswspace_tests_agree]
  have hhead : ∀ c ∈ (trim iswspace s).head?, iswspace c = 0 := by
    intro c hc
    rw [trim_eq] at hc
    obtain ⟨post, hpost, _⟩ := rdropWhile_append_tail (fun ch => decide (iswspace ch ≠ 0))
      (s.dropWhile fun ch => decide (iswspace ch ≠ 0))
    have hnot := List.head?_dropWhile_not (fun ch => decide (iswspace ch ≠ 0)) s
    rw [hpost] at hnot
    cases hr : List.rdropWhile (fun ch => decide (iswspace ch ≠ 0))
        (s.dropWhile fun ch => decide (iswspace ch ≠ 0)) with
    | nil => rw [hr] at hc; cases hc
    | cons a t =>
      rw [hr] at hc hnot
      simp only [List.head?_cons, Option.mem_def, Option.some.injEq] at hc
      simp only [List.cons_append, List.head?_cons] at hnot
      rw [← hc]
      simpa using hnot
  have hlast : ∀ c ∈ (trim iswspace s).getLast?, iswspace c = 0 := by
    intro c hc
    rw [trim_eq] at hc
    by_cases hne : List.rdropWhile (fun ch => decide (iswspace ch ≠ 0))
        (s.dropWhile fun ch => decide (iswspace ch ≠ 0)) = []
    · rw [hne] at hc; cases hc
    · have h := List.rdropWhile_last_not (fun ch => decide (iswspace ch ≠ 0)) _ hne
      rw [List.getLast?_eq_getLast _ hne] at hc
      simp only [Option.mem_def, Option.some.injEq] at hc
      rw [hc] at h
      simpa using h
  have hidem : trim iswspace (trim iswspace s) = trim iswspace s := by
    have hd : (trim iswspace s).dropWhile (fun ch => decide (iswspace ch ≠ 0)) =
        trim iswspace s := by
      cases ht : trim iswspace s with
      | nil => rfl
      | cons a t =>
        have := hhead a (by rw [ht]; rfl)
        simp [List.dropWhile_cons, this]
    rw [trim_eq iswspace (trim iswspace s), hd, trim_eq, List.rdropWhile_idempotent]
  refine ⟨congrFun hagree s, ?_, hhead, hlast, ?_, hidem, ?_, by decide⟩
  · obtain ⟨post, hpost, hall⟩ := rdropWhile_append_tail (fun ch => decide (iswspace ch ≠ 0))
      (s.dropWhile fun ch => decide (iswspace ch ≠ 0))
    refine ⟨s.takeWhile fun ch => decide (iswspace ch ≠ 0), post, ?_, ?_, ?_⟩
    · rw [trim_eq, List.append_assoc, ← hpost, List.takeWhile_append_dropWhile]
    · intro c hc
      simpa using List.mem_takeWhile_imp hc
    · intro c hc
      simpa using hall c hc
  · intro hall
    rw [trim_eq]
    have : s.dropWhile (fun ch => decide (iswspace ch ≠ 0)) = [] :=
      List.dropWhile_eq_nil_iff.mpr fun c hc => by simpa using hall c hc
    rw [this]
    rfl
  · rw [hagree]
    exact hidem

/-- A string of three blanks is trimmed to the empty string. -/
theorem trim_functions_agree_witness : trim blank_iswspace "   ".toList = [] :=
  (trim_functions_agree blank_iswspace "   ".toList).2.2.2.2.1 (by decide)

/-! ## Searching without regard to case -/

/-- The inner loop of `std::search` uses up the pattern exactly when the pattern occurs at
the start of the range. -/
theorem search_match_true_iff (toupper : Char → Int) :
    ∀ (needle hay : List Char),
      search_match (fun ch1 ch2 => decide (toupper ch1 = toupper ch2)) hay needle = some true ↔
        occurs_at toupper hay needle 0 := by
  intro needle
  induction needle with
  | nil =>
    intro hay
    cases hay <;> simp [search_match, occurs_at]
  | cons b n ih =>
    intro hay
    cases hay with
    | nil => simp [search_match, occurs_at]
    | cons a l =>
      simp only [search_match]
      by_cases h : toupper a = toupper b
      · simp only [h, decide_True, if_true, ih l]
        simp only [occurs_at, Nat.zero_add, List.length_cons]
        constructor
        · rintro ⟨hlen, hall⟩
          refine ⟨by omega, fun j hj => ?_⟩
          cases j with
          | zero => simp [h]
          | succ k =>
            simp only [List.getElem?_cons_succ]
            exact hall k (by omega)
        · rintro ⟨hlen, hall⟩
          refine ⟨by omega, fun j hj => ?_⟩
          have := hall (j + 1) (by omega)
          simpa only [List.getElem?_cons_succ] using this
      · simp only [h, decide_False, Bool.false_eq_true, if_false]
        constructor
        · intro hc; cases hc
        · rintro ⟨_, hall⟩
          have := hall 0 (by simp)
          simp at this
          exact absurd this h

/-- The inner loop of `std::search` runs out of range only when the range is shorter than
the pattern. -/
theorem search_match_none {α β : Type} (p : α → β → Bool) :
    ∀ (needle : List β) (hay : List α), search_match p hay needle = none →
      hay.length < needle.length := by
  intro needle
  induction needle with
  | nil =>
    intro hay h
    cases hay <;> simp [search_match] at h
  | cons b n ih =>
    intro hay h
    cases hay with
    | nil => simp
    | cons a l =>
      simp only [search_match] at h
      split at h
      · have := ih l h
        simp only [List.length_cons]
        omega
      · cases h

/-- An occurrence after the first character is an occurrence in the rest. -/
theorem occurs_at_succ (toupper : Char → Int) (a : Char) (l needle : List Char) (i : Nat) :
    occurs_at toupper (a :: l) needle (i + 1) ↔ occurs_at toupper l needle i := by
  simp only [occurs_at, List.length_cons]
  constructor
  · rintro ⟨hlen, hall⟩
    refine ⟨by omega, fun j hj => ?_⟩
    have := hall j hj
    rwa [show i + 1 + j = (i + j) + 1 by omega, List.getElem?_cons_succ] at this
  · rintro ⟨hlen, hall⟩
    refine ⟨by omega, fun j hj => ?_⟩
    rw [show i + 1 + j = (i + j) + 1 by omega, List.getElem?_cons_succ]
    exact hall j hj

/-- What `std::search` returns for a pattern that is not empty: the first occurrence of the
pattern, or the end of the range when there is none. -/
theorem search_spec (toupper : Char → Int) (needle : List Char) (hne : needle ≠ []) :
    ∀ hay : List Char,
      search (fun ch1 ch2 => decide (toupper ch1 = toupper ch2)) hay needle ≤ hay.length ∧
      (∀ i, i < search (fun ch1 ch2 => decide (toupper ch1 = toupper ch2)) hay needle →
        ¬ occurs_at toupper hay needle i) ∧
      (search (fun ch1 ch2 => decide (toupper ch1 = toupper ch2)) hay needle < hay.length →
        occurs_at toupper hay needle
          (search (fun ch1 ch2 => decide (toupper ch1 = toupper ch2)) hay needle)) ∧
      (search (fun ch1 ch2 => decide (toupper ch1 = toupper ch2)) hay needle = hay.length →
        ∀ i, ¬ occurs_at toupper hay needle i) := by
  have hpos : 0 < needle.length := List.length_pos.mpr hne
  intro hay
  induction hay with
  | nil =>
    refine ⟨Nat.le_refl _, fun i hi => absurd hi (Nat.not_lt_zero _), fun h => absurd h
      (Nat.lt_irrefl _), fun _ i hocc => ?_⟩
    have := hocc.1
    simp only [List.length_nil] at this
    omega
  | cons a l ih =>
    obtain ⟨ih1, ih2, ih3, ih4⟩ := ih
    cases hm : search_match (fun ch1 ch2 => decide (toupper ch1 = toupper ch2)) (a :: l)
        needle with
    | none =>
      have hs : search (fun ch1 ch2 => decide (toupper ch1 = toupper ch2)) (a :: l) needle =
          (a :: l).length := by
        simp only [search, hm]
      have hshort := search_match_none _ needle (a :: l) hm
      have hno : ∀ i, ¬ occurs_at toupper (a :: l) needle i := fun i hocc => by
        have := hocc.1
        omega
      rw [hs]
      exact ⟨Nat.le_refl _, fun i _ => hno i, fun h => absurd h (Nat.lt_irrefl _),
        fun _ => hno⟩
    | some b =>
      cases b with
      | true =>
        have hs : search (fun ch1 ch2 => decide (toupper ch1 = toupper ch2)) (a :: l) needle =
            0 := by
          simp only [search, hm]
        rw [hs]
        refine ⟨Nat.zero_le _, fun i hi => absurd hi (Nat.not_lt_zero _),
          fun _ => (search_match_true_iff toupper needle (a :: l)).mp hm, fun h => ?_⟩
        simp at h
      | false =>
        have hs : search (fun ch1 ch2 => decide (toupper ch1 = toupper ch2)) (a :: l) needle =
            search (fun ch1 ch2 => decide (toupper ch1 = toupper ch2)) l needle + 1 := by
          simp only [search, hm]
        have h0 : ¬ occurs_at toupper (a :: l) needle 0 := fun hocc => by
          have := (search_match_true_iff toupper needle (a :: l)).mpr hocc
          rw [hm] at this
          cases this
        rw [hs]
        refine ⟨by simp only [List.length_cons]; omega, fun i hi => ?_, fun h => ?_,
          fun h i => ?_⟩
        · cases i with
          | zero => exact h0
          | succ k =>
            rw [occurs_at_succ]
            exact ih2 k (by omega)
        · rw [occurs_at_succ]
          exact ih3 (by simp only [List.length_cons] at h; omega)
        · cases i with
          | zero => exact h0
          | succ k =>
            rw [occurs_at_succ]
            exact ih4 (by simp only [List.length_cons] at h; omega) k

/-- C26: for every haystack and every needle that is not empty, `find_case_insensitive`
returns `i` exactly when the needle occurs at `i` ignoring case and at no smaller index,
and returns `npos` (`none`) exactly when the needle occurs nowhere; for the empty needle it
returns 0 when the haystack is not empty and `npos` when it is.  In "Hello World" the
needle "WORLD" is found at 6, and "xyz" is not found. -/
theorem find_case_insensitive_finds_first (toupper : Char → Int) (haystack needle : List Char) :
    (needle ≠ [] →
      (∀ i : Nat, find_case_insensitive toupper haystack needle = some i ↔
        (occurs_at toupper haystack needle i ∧
          ∀ k, k < i → ¬ occurs_at toupper haystack needle k)) ∧
      (find_case_insensitive toupper haystack needle = none ↔
        ∀ i, ¬ occurs_at toupper haystack needle i)) ∧
    (needle = [] →
      (haystack ≠ [] → find_case_insensitive toupper haystack needle = some 0) ∧
      (haystack = [] → find_case_insensitive toupper haystack needle = none)) ∧
    find_case_insensitive ascii_toupper "Hello World".toList "WORLD".toList = some 6 ∧
    find_case_insensitive ascii_toupper "Hello World".toList "xyz".toList = none := by
  refine ⟨fun hne => ?_, fun hnil => ?_, by decide, by decide⟩
  · obtain ⟨h1, h2, h3, h4⟩ := search_spec toupper needle hne haystack
    constructor
    · intro i
      simp only [find_case_insensitive]
      constructor
      · intro h
        split at h
        · cases h
        · rename_i hlt
          simp only [Option.some.injEq] at h
          rw [← h]
          exact ⟨h3 (by omega), h2⟩
      · rintro ⟨hocc, hleast⟩
        have hfound : search (fun ch1 ch2 => decide (toupper ch1 = toupper ch2)) haystack needle
            ≠ haystack.length := fun heq => h4 heq i hocc
        rw [if_neg hfound]
        have hs := h3 (by omega)
        congr 1
        rcases Nat.lt_trichotomy
          (search (fun ch1 ch2 => decide (toupper ch1 = toupper ch2)) haystack needle) i
          with hlt | heq | hgt
        · exact absurd hs (hleast _ hlt)
        · exact heq
        · exact absurd hocc (h2 i hgt)
    · simp only [find_case_insensitive]
      constructor
      · intro h
        split at h
        · rename_i heq
          exact h4 heq
        · cases h
      · intro hno
        have heq : search (fun ch1 ch2 => decide (toupper ch1 = toupper ch2)) haystack needle =
            haystack.length := by
          rcases Nat.lt_or_ge
            (search (fun ch1 ch2 => decide (toupper ch1 = toupper ch2)) haystack needle)
            haystack.length with hlt | hge
          · exact absurd (h3 hlt) (hno _)
          · omega
        rw [if_pos heq]
  · subst hnil
    constructor
    · intro hne
      cases haystack with
      | nil => exact absurd rfl hne
      | cons a l => simp [find_case_insensitive, search, search_match]
    · intro h
      subst h
      rfl

/-- In "Hello World" the needle "o w" occurs at 4 ignoring case and nowhere before, so the
result is 4. -/
theorem find_case_insensitive_finds_first_witness :
    find_case_insensitive ascii_toupper "Hello World".toList "o w".toList = some 4 :=
  (((find_case_insensitive_finds_first ascii_toupper "Hello World".toList "o w".toList).1
    (by decide)).1 4).mpr (by
      refine ⟨⟨by decide, fun j hj => ?_⟩, fun k hk hocc => ?_⟩
      · have hj3 : j < 3 := hj
        interval_cases j <;> decide
      · have hk4 : k < 4 := hk
        have h0 := hocc.2 0 (by decide)
        interval_cases k <;> revert h0 <;> decide)

/-! ## The boundary probes stay inside the document -/

/-- The backward probe answers an offset between 0 and the position it started from. -/
theorem prev_loop_bounds (env : Env) (h : ProbeAssumptions env) (p : Int) :
    ∀ (fuel : Nat) (start prev_start shift : Int) (n : Nat),
      0 ≤ start → start ≤ p → prev_start ≤ p + 1 → 0 ≤ shift →
      0 ≤ (prev_token_begin_in_document_loop env fuel start prev_start shift n).pos ∧
        (prev_token_begin_in_document_loop env fuel start prev_start shift n).pos ≤ p := by
  intro fuel
  induction fuel with
  | zero =>
    intro start prev_start shift n h0 hp _ _
    exact ⟨h0, hp⟩
  | succ f ih =>
    intro start prev_start shift n h0 hp hprev hshift
    simp only [prev_token_begin_in_document_loop]
    by_cases hs : start > 0
    · rw [if_pos hs]
      have hm0 : 0 ≤ max (start - shift) 0 := le_max_right _ _
      have hmp : max (start - shift) 0 ≤ p := max_le (by omega) (by omega)
      by_cases hi : prev_token_begin env
          (env.editor.get_mapped_wstring_range (max (start - shift) 0) prev_start).str
          (((env.editor.get_mapped_wstring_range (max (start - shift) 0)
            prev_start).str.length : Int) - 1) > 0
      · rw [if_pos hi]
        have hle := h.prev_le
          (env.editor.get_mapped_wstring_range (max (start - shift) 0) prev_start).str
          (((env.editor.get_mapped_wstring_range (max (start - shift) 0)
            prev_start).str.length : Int) - 1)
        have hidx := h.index_in_range (max (start - shift) 0) prev_start
          (prev_token_begin env
            (env.editor.get_mapped_wstring_range (max (start - shift) 0) prev_start).str
            (((env.editor.get_mapped_wstring_range (max (start - shift) 0)
              prev_start).str.length : Int) - 1)) hm0 (by omega)
          (by
            simp only [prev_token_begin] at hi ⊢
            omega)
        simp only
        omega
      · rw [if_neg hi]
        exact ih _ _ _ _ hm0 hmp (by omega) (by omega)
    · rw [if_neg hs]
      exact ⟨h0, hp⟩

/-- The forward probe answers an offset between the position it started from and the
document length. -/
theorem next_loop_bounds (env : Env) (h : ProbeAssumptions env) (p length : Int)
    (hp0 : 0 ≤ p) :
    ∀ (fuel : Nat) (end_ prev_end shift : Int) (n : Nat),
      p ≤ prev_end → prev_end ≤ end_ → end_ ≤ length → 0 ≤ shift →
      p ≤ (next_token_end_in_document_loop env length fuel end_ prev_end shift n).pos ∧
        (next_token_end_in_document_loop env length fuel end_ prev_end shift n).pos ≤
          length := by
  intro fuel
  induction fuel with
  | zero =>
    intro end_ prev_end shift n h1 h2 h3 _
    exact ⟨by simp only [next_token_end_in_document_loop]; omega, h3⟩
  | succ f ih =>
    intro end_ prev_end shift n h1 h2 h3 hshift
    simp only [next_token_end_in_document_loop]
    by_cases he : end_ > 0
    · rw [if_pos he]
      have hmin1 : end_ ≤ min (end_ + shift) length := le_min (by omega) h3
      have hmin2 : min (end_ + shift) length ≤ length := min_le_right _ _
      by_cases hi : next_token_end env
          (env.editor.get_mapped_wstring_range prev_end (min (end_ + shift) length)).str 0 <
          ((env.editor.get_mapped_wstring_range prev_end
            (min (end_ + shift) length)).str.length : Int)
      · rw [if_pos hi]
        have hidx := h.index_in_range prev_end (min (end_ + shift) length) _ (by omega)
          (h.next_nonneg _) hi
        simp only
        simp only [next_token_end] at hidx ⊢
        omega
      · rw [if_neg hi]
        by_cases hl : min (end_ + shift) length = length
        · rw [if_pos hl]
          simp only
          omega
        · rw [if_neg hl]
          exact ih _ _ _ _ (by omega) (Int.le_refl _) hmin2 (by omega)
    · rw [if_neg he]
      simp only
      omega

/-- The backward walk of the specification's tokenizer never answers an index after the one
it was asked about. -/
theorem spec_prev_token_begin_le (s : List Char) (i : Int) :
    spec_prev_token_begin s i ≤ max i 0 := by
  unfold spec_prev_token_begin
  by_cases hi : i < 0
  · rw [if_pos hi]
    exact le_max_right _ _
  · rw [if_neg hi]
    have hn : min (i.toNat + 1) s.length ≤ i.toNat + 1 := Nat.min_le_left _ _
    have hgoal : walk_back is_word_char s
        (walk_back (fun c => !is_word_char c) s (min (i.toNat + 1) s.length)) ≤ i.toNat := by
      cases hm : min (i.toNat + 1) s.length with
      | zero => exact Nat.zero_le _
      | succ m =>
        rw [hm] at hn
        simp only [walk_back]
        by_cases hw : is_word_char (s.getD m ' ') = true
        · simp only [hw, Bool.not_true, Bool.false_eq_true, if_false, walk_back, if_true]
          have := (walk_back_boundary is_word_char s m).1
          omega
        · simp only [hw, Bool.not_false, if_true]
          have h1 := (walk_back_boundary (fun c => !is_word_char c) s m).1
          have h2 := (walk_back_boundary is_word_char s
            (walk_back (fun c => !is_word_char c) s m)).1
          omega
    have : ((walk_back is_word_char s
        (walk_back (fun c => !is_word_char c) s (min (i.toNat + 1) s.length)) : Nat) : Int) ≤
        i := by omega
    exact le_trans this (le_max_left _ _)

/-- The tokenizer and the single-byte mapping of the specification meet the assumptions of
the probes. -/
theorem spec_env_probe_assumptions (needed : List Char → Bool) (doc : List Char)
    (cursor : Int) (misspelled : List String) :
    ProbeAssumptions (spec_env_with needed doc cursor misspelled) where
  index_in_range := by
    intro from_ to_ i hfrom hi hlt
    have hlen : ((byte_range doc from_ to_).str.length : Int) ≤ to_ - from_ ∨
        (byte_range doc from_ to_).str.length = 0 := by
      simp only [byte_range, List.length_take, List.length_drop]
      omega
    have hlt2 : i < ((byte_range doc from_ to_).str.length : Int) := hlt
    show from_ ≤ i + from_ ∧ i + from_ < to_
    omega
  prev_le := fun s i => spec_prev_token_begin_le s i
  next_nonneg := fun s => by
    show 0 ≤ spec_next_token_end s 0
    unfold spec_next_token_end
    exact Int.ofNat_nonneg _

/-- C24: when the index of every character of a decoded range maps to a raw offset of that
range and the tokenizer answers indices as §4.2 says, for every position `p` with
`0 ≤ p ≤ L` the probes stay inside the document and do not move the wrong way:
`0 ≤ prev_token_begin_in_document (p) ≤ p` and `p ≤ next_token_end_in_document (p) ≤ L`.
Whatever the tokenizer and the mapping, `prev_token_begin_in_document (0) = 0`,
`next_token_end_in_document (L) = L` and `next_token_end_in_document (0) = 0`, each
without decoding anything. -/
theorem probes_stay_inside_document (env : Env) :
    (ProbeAssumptions env → ∀ p : Int, 0 ≤ p → p ≤ env.editor.get_active_document_length →
      0 ≤ prev_token_begin_in_document env p ∧ prev_token_begin_in_document env p ≤ p ∧
      p ≤ next_token_end_in_document env p ∧
      next_token_end_in_document env p ≤ env.editor.get_active_document_length) ∧
    prev_token_begin_in_document_probe env 0 = { pos := 0, decodes := 0 } ∧
    next_token_end_in_document_probe env env.editor.get_active_document_length =
      { pos := env.editor.get_active_document_length, decodes := 0 } ∧
    next_token_end_in_document_probe env 0 = { pos := 0, decodes := 0 } := by
  refine ⟨fun h p hp0 hpL => ?_, rfl, ?_, ?_⟩
  · have hprev := prev_loop_bounds env h p (p.toNat + 1) p (p + 1) 15 0 hp0 (Int.le_refl _)
      (Int.le_refl _) (by decide)
    refine ⟨hprev.1, hprev.2, ?_⟩
    simp only [next_token_end_in_document, next_token_end_in_document_probe]
    by_cases heq : p = env.editor.get_active_document_length
    · rw [if_pos heq]
      simp only
      omega
    · rw [if_neg heq]
      exact next_loop_bounds env h p _ hp0 _ p p 15 0 (Int.le_refl _) (Int.le_refl _) hpL
        (by decide)
  · simp only [next_token_end_in_document_probe, if_true]
  · simp only [next_token_end_in_document_probe]
    split
    · rfl
    · rfl

/-- In "Helo wrold again" the probes from offset 7 (inside "wrold") answer 5 and 10, the
bounds of the word, which lie between 0, 7 and the length 16. -/
theorem probes_stay_inside_document_witness :
    prev_token_begin_in_document (spec_env "Helo wrold again".toList 7 []) 7 = 5 ∧
    next_token_end_in_document (spec_env "Helo wrold again".toList 7 []) 7 = 10 ∧
    (0 ≤ prev_token_begin_in_document (spec_env "Helo wrold again".toList 7 []) 7 ∧
      prev_token_begin_in_document (spec_env "Helo wrold again".toList 7 []) 7 ≤ 7 ∧
      7 ≤ next_token_end_in_document (spec_env "Helo wrold again".toList 7 []) 7 ∧
      next_token_end_in_document (spec_env "Helo wrold again".toList 7 []) 7 ≤
        (spec_env "Helo wrold again".toList 7 []).editor.get_active_document_length) :=
  ⟨by decide, by decide,
    (probes_stay_inside_document (spec_env "Helo wrold again".toList 7 [])).1
      (spec_env_probe_assumptions _ _ _ _) 7 (by decide) (by decide)⟩

/-! ## What is reported for the word under the cursor -/

/-- Every way `is_word_under_cursor_correct` comes back with `true` leaves `length` 0. -/
theorem word_under_cursor_true (env : Env) (q : CursorQuery) (use_text_cursor : Bool)
    (r : WordUnderCursor) (h : is_word_under_cursor_correct env q use_text_cursor = some r)
    (ht : r.is_correct = true) : r.length = 0 := by
  unfold is_word_under_cursor_correct at h
  simp only at h
  split at h
  · cases h; rfl
  · split at h
    · cases h; rfl
    · split at h
      · cases h; rfl
      · split at h
        · cases h
        · split at h
          · cases h; rfl
          · split at h
            · cases h; rfl
            · split at h
              · cases h; rfl
              · cases h
                cases ht

/-- The one way `is_word_under_cursor_correct` comes back with `false`: the document is not
empty, a position `c` was asked about, `get_word_at` found a word that is not empty in the
text decoded around `c`, the selection is empty or is the span of the word after apostrophe
stripping, and `check_word` judged the stripped word misspelled. -/
theorem word_under_cursor_false (env : Env) (q : CursorQuery) (use_text_cursor : Bool)
    (r : WordUnderCursor) (h : is_word_under_cursor_correct env q use_text_cursor = some r)
    (hf : r.is_correct = false) :
    ∃ (c ss se : Int) (word : View),
      cursor_query_position q use_text_cursor = some (c, ss, se) ∧
      get_word_at env c (text_around env c) = some word ∧ word.len ≠ 0 ∧
      r.pos = (text_around env c).to_original_index
        ((env.settings.cut_apostrophes (text_around env c).str word).off : Int) ∧
      r.length =
        (text_around env c).to_original_index
          (((env.settings.cut_apostrophes (text_around env c).str word).off : Int) +
            ((env.settings.cut_apostrophes (text_around env c).str word).len : Int)) -
        (text_around env c).to_original_index
          ((env.settings.cut_apostrophes (text_around env c).str word).off : Int) ∧
      check_word env (text_around env c).str
          (env.settings.cut_apostrophes (text_around env c).str word) r.pos =
        (false, r.speller_calls) ∧
      (ss = se ∨ (ss = r.pos ∧ se = r.pos + r.length)) := by
  unfold is_word_under_cursor_correct at h
  simp only at h
  split at h
  · cases h; cases hf
  · split at h
    · cases h; cases hf
    · rename_i c ss se hq
      split at h
      · cases h; cases hf
      · split at h
        · cases h
        · rename_i word hw
          split at h
          · cases h; cases hf
          · rename_i hlen
            split at h
            · cases h; cases hf
            · rename_i hsel
              split at h
              · cases h; cases hf
              · rename_i hchk
                cases h
                refine ⟨c, ss, se, word, hq, hw, hlen, rfl, rfl, ?_, ?_⟩
                · simp only [text_around]
                  apply Prod.ext
                  · simpa using hchk
                  · rfl
                · by_cases hss : ss = se
                  · exact Or.inl hss
                  · right
                    simp only [not_and_or, not_not, not_or] at hsel
                    rcases hsel with h1 | h2
                    · exact absurd h1 hss
                    · exact h2

/-- With a selection that is not empty and is not the span of the word after apostrophe
stripping, `is_word_under_cursor_correct` comes back with `true` and has made no call to the
speller. -/
theorem word_under_cursor_selection (env : Env) (q : CursorQuery) (use_text_cursor : Bool)
    (r : WordUnderCursor) (h : is_word_under_cursor_correct env q use_text_cursor = some r)
    (c ss se : Int) (hq : cursor_query_position q use_text_cursor = some (c, ss, se))
    (hne : ss ≠ se)
    (hmis : ∀ word, get_word_at env c (text_around env c) = some word →
      ss ≠ (text_around env c).to_original_index
          ((env.settings.cut_apostrophes (text_around env c).str word).off : Int) ∨
      se ≠ (text_around env c).to_original_index
          (((env.settings.cut_apostrophes (text_around env c).str word).off : Int) +
            ((env.settings.cut_apostrophes (text_around env c).str word).len : Int))) :
    r.is_correct = true ∧ r.speller_calls = [] := by
  unfold is_word_under_cursor_correct at h
  simp only at h
  split at h
  · cases h; exact ⟨rfl, rfl⟩
  · split at h
    · cases h; exact ⟨rfl, rfl⟩
    · rename_i c1 ss1 se1 hq1
      rw [hq] at hq1
      simp only [Option.some.injEq, Prod.mk.injEq] at hq1
      obtain ⟨hc, hs, he⟩ := hq1
      subst hc hs he
      split at h
      · cases h; exact ⟨rfl, rfl⟩
      · split at h
        · cases h
        · rename_i word hw
          split at h
          · cases h; exact ⟨rfl, rfl⟩
          · split at h
            · cases h; exact ⟨rfl, rfl⟩
            · rename_i hsel
              exfalso
              apply hsel
              refine ⟨hne, ?_⟩
              rcases hmis word hw with h1 | h2
              · exact Or.inl h1
              · right
                simp only [text_around] at h2
                intro heq
                apply h2
                rw [heq]
                omega

/-- C23, as stated, fails: in the document of three apostrophes with the caret at offset 1,
every token eligible and the empty word judged misspelled, the token found is all
apostrophes, nothing is left of it after apostrophe stripping, and
`is_word_under_cursor_correct` returns `false` with `pos = 3` and `length = 0`. -/
theorem word_under_cursor_false_with_length_zero :
    spec_get_all_tokens [Char.ofNat 39, Char.ofNat 39, Char.ofNat 39] =
      [{ off := 0, len := 3 }] ∧
    is_word_under_cursor_correct
        (spec_env [Char.ofNat 39, Char.ofNat 39, Char.ofNat 39] 1 [""]) (caret_query 1) true =
      some { is_correct := false, pos := 3, length := 0,
             speller_calls := [SpellerCall.check_word { str := [], ends_with_dot := false }] } := by
  refine ⟨by decide, by decide⟩

/-- C23 (amended): whenever `is_word_under_cursor_correct` comes back, `true` goes with
`length = 0`; `false` is reported only for a word found by `get_word_at` in the text decoded
around the position asked about, with `pos` and `length` the raw start and the raw length of
that word after apostrophe stripping, for which `check_word` answered `false`, and with a
strictly increasing mapping that length is positive exactly when the stripped word is not
empty; with a selection that is not empty and is not exactly the span of that stripped word
the answer is `true` and the speller is not consulted.  When moreover the eligibility test
rejects the empty word, the length reported with `false` is positive, so `length = 0`
exactly when the answer is `true`. -/
theorem word_under_cursor_report (env : Env) (q : CursorQuery) (use_text_cursor : Bool)
    (r : WordUnderCursor) (h : is_word_under_cursor_correct env q use_text_cursor = some r) :
    (r.is_correct = true → r.length = 0) ∧
    (r.is_correct = false →
      ∃ (c ss se : Int) (word : View),
        cursor_query_position q use_text_cursor = some (c, ss, se) ∧
        get_word_at env c (text_around env c) = some word ∧ word.len ≠ 0 ∧
        r.pos = (text_around env c).to_original_index
          ((env.settings.cut_apostrophes (text_around env c).str word).off : Int) ∧
        r.length =
          (text_around env c).to_original_index
            (((env.settings.cut_apostrophes (text_around env c).str word).off : Int) +
              ((env.settings.cut_apostrophes (text_around env c).str word).len : Int)) -
          (text_around env c).to_original_index
            ((env.settings.cut_apostrophes (text_around env c).str word).off : Int) ∧
        check_word env (text_around env c).str
            (env.settings.cut_apostrophes (text_around env c).str word) r.pos =
          (false, r.speller_calls) ∧
        (ss = se ∨ (ss = r.pos ∧ se = r.pos + r.length)) ∧
        ((∀ i j : Int, i < j →
            (text_around env c).to_original_index i <
              (text_around env c).to_original_index j) →
          (0 < r.length ↔
            (env.settings.cut_apostrophes (text_around env c).str word).len ≠ 0))) ∧
    (∀ c ss se : Int, cursor_query_position q use_text_cursor = some (c, ss, se) → ss ≠ se →
      (∀ word, get_word_at env c (text_around env c) = some word →
        ss ≠ (text_around env c).to_original_index
            ((env.settings.cut_apostrophes (text_around env c).str word).off : Int) ∨
        se ≠ (text_around env c).to_original_index
            (((env.settings.cut_apostrophes (text_around env c).str word).off : Int) +
              ((env.settings.cut_apostrophes (text_around env c).str word).len : Int))) →
      r.is_correct = true ∧ r.speller_calls = []) ∧
    ((∀ (s : List Char) (v : View) (start : Int), v.len = 0 →
        env.settings.is_word_spell_checking_needed s v start = false) →
      (∀ (c i j : Int), i < j →
        (text_around env c).to_original_index i < (text_around env c).to_original_index j) →
      (r.is_correct = false → 0 < r.length) ∧ (r.length = 0 ↔ r.is_correct = true)) := by
  refine ⟨word_under_cursor_true env q use_text_cursor r h, fun hf => ?_,
    fun c ss se hq hne hmis => word_under_cursor_selection env q use_text_cursor r h c ss se hq
      hne hmis, fun hempty hstrict => ?_⟩
  · obtain ⟨c, ss, se, word, hq, hw, hlen, hp, hl, hchk, hsel⟩ :=
      word_under_cursor_false env q use_text_cursor r h hf
    refine ⟨c, ss, se, word, hq, hw, hlen, hp, hl, hchk, hsel, fun hstrict => ?_⟩
    by_cases h0 : (env.settings.cut_apostrophes (text_around env c).str word).len = 0
    · rw [h0, Nat.cast_zero, Int.add_zero] at hl
      constructor
      · intro hpos
        omega
      · intro hne
        exact absurd h0 hne
    · have := hstrict
        ((env.settings.cut_apostrophes (text_around env c).str word).off : Int)
        (((env.settings.cut_apostrophes (text_around env c).str word).off : Int) +
          ((env.settings.cut_apostrophes (text_around env c).str word).len : Int))
        (by omega)
      exact ⟨fun _ => h0, fun _ => by omega⟩
  have hpos : r.is_correct = false → 0 < r.length := by
    intro hf
    obtain ⟨c, ss, se, word, _, _, _, hp, hl, hchk, _⟩ :=
      word_under_cursor_false env q use_text_cursor r h hf
    have hlen : (env.settings.cut_apostrophes (text_around env c).str word).len ≠ 0 := by
      intro h0
      have hn := hempty (text_around env c).str
        (env.settings.cut_apostrophes (text_around env c).str word) r.pos h0
      simp only [check_word, is_spellchecking_needed, hn] at hchk
      simp at hchk
    have := hstrict c
      ((env.settings.cut_apostrophes (text_around env c).str word).off : Int)
      (((env.settings.cut_apostrophes (text_around env c).str word).off : Int) +
        ((env.settings.cut_apostrophes (text_around env c).str word).len : Int)) (by omega)
    omega
  refine ⟨hpos, fun h0 => ?_, word_under_cursor_true env q use_text_cursor r h⟩
  cases hc : r.is_correct with
  | true => rfl
  | false =>
    have := hpos hc
    omega

/-- In "foo bar" with "bar" misspelled, the caret at offset 4 and every word that is not
empty eligible, the answer is `false` with `pos = 4` and `length = 3`. -/
theorem word_under_cursor_report_witness :
    is_word_under_cursor_correct
        (spec_env_with (fun w => !w.isEmpty) "foo bar".toList 4 ["bar"]) (caret_query 4) true =
      some { is_correct := false, pos := 4, length := 3,
             speller_calls :=
              [SpellerCall.check_word { str := "bar".toList, ends_with_dot := false }] } ∧
    ((false = false → (0 : Int) < 3) ∧ ((3 : Int) = 0 ↔ false = true)) :=
  ⟨by decide,
    (word_under_cursor_report
      (spec_env_with (fun w => !w.isEmpty) "foo bar".toList 4 ["bar"]) (caret_query 4) true
      { is_correct := false, pos := 4, length := 3,
        speller_calls :=
          [SpellerCall.check_word { str := "bar".toList, ends_with_dot := false }] }
      (by decide)).2.2.2
      (fun s v start h0 => by
        show (!(v.chars s).isEmpty) = false
        simp [View.chars, h0])
      (fun c i j hij => by
        show i + _ < j + _
        omega)⟩

/-! ## The word reported and the point asked about -/

/-- The tokenizer, the apostrophe cutting and the single-byte mapping of the specification
meet the assumptions of `is_word_under_cursor_correct`. -/
theorem spec_env_cursor_assumptions (needed : List Char → Bool) (doc : List Char)
    (cursor : Int) (misspelled : List String) :
    CursorAssumptions (spec_env_with needed doc cursor misspelled) where
  probes := spec_env_probe_assumptions needed doc cursor misspelled
  monotone := by
    intro from_ to_ i j hij
    show i + from_ ≤ j + from_
    omega
  from_original := by
    intro from_ to_ r hr
    show 0 ≤ max 0 (min (r - from_) ((byte_range doc from_ to_).str.length : Int)) ∧
      max 0 (min (r - from_) ((byte_range doc from_ to_).str.length : Int)) + from_ ≤ r
    omega
  cut_inside := fun s v => spec_cut_apostrophes_inside s v

/-- A view returned by `substr` starts at the position asked for. -/
theorem substr_view_off (size : Nat) (begin_ end_ : Int) (word : View)
    (h : substr_view size begin_ end_ = some word) :
    0 ≤ begin_ ∧ begin_ ≤ (size : Int) ∧ (word.off : Int) = begin_ := by
  unfold substr_view at h
  by_cases hb : 0 ≤ begin_ ∧ begin_ ≤ (size : Int)
  · rw [if_pos hb] at h
    simp only [Option.some.injEq] at h
    refine ⟨hb.1, hb.2, ?_⟩
    rw [← h]
    simp only
    omega
  · rw [if_neg hb] at h
    cases h

/-- The word `get_word_at` finds in the text decoded around `c` starts at or before `c`. -/
theorem get_word_at_starts_before (env : Env) (hA : CursorAssumptions env) (c : Int)
    (hc : 0 ≤ c) (word : View) (hw : get_word_at env c (text_around env c) = some word) :
    (text_around env c).to_original_index (word.off : Int) ≤ c := by
  have hstart := prev_loop_bounds env hA.probes c (c.toNat + 1) c (c + 1) 15 0 hc
    (Int.le_refl _) (Int.le_refl _) (by decide)
  have hfo : 0 ≤ (text_around env c).from_original_index c ∧
      (text_around env c).to_original_index ((text_around env c).from_original_index c) ≤ c :=
    hA.from_original (prev_token_begin_in_document env c)
      (next_token_end_in_document env (prev_token_begin_in_document env c + 1)) c hstart.2
  have hple := hA.probes.prev_le (text_around env c).str
    (if (text_around env c).from_original_index c ≥ ((text_around env c).str.length : Int)
      then ((text_around env c).str.length : Int) - 1
      else (text_around env c).from_original_index c)
  have hw2 : substr_view (text_around env c).str.length
      (env.settings.prev_token_begin (text_around env c).str
        (if (text_around env c).from_original_index c ≥ ((text_around env c).str.length : Int)
          then ((text_around env c).str.length : Int) - 1
          else (text_around env c).from_original_index c))
      (next_token_end env (text_around env c).str
        (env.settings.prev_token_begin (text_around env c).str
          (if (text_around env c).from_original_index c ≥
              ((text_around env c).str.length : Int)
            then ((text_around env c).str.length : Int) - 1
            else (text_around env c).from_original_index c))) = some word := hw
  obtain ⟨_, _, hoff⟩ := substr_view_off _ _ _ _ hw2
  have hle : (word.off : Int) ≤ (text_around env c).from_original_index c := by
    rw [hoff]
    have h0 : 0 ≤ (text_around env c).from_original_index c := hfo.1
    by_cases hcond : (text_around env c).from_original_index c ≥
        ((text_around env c).str.length : Int)
    · rw [if_pos hcond] at hple ⊢
      omega
    · rw [if_neg hcond] at hple ⊢
      omega
  exact le_trans (hA.monotone _ _ _ _ hle) hfo.2

/-- C21, as stated, fails: in "foo'" with "foo" misspelled and the caret at offset 4, the end
of the token "foo'", the span reported is that of the word after apostrophe stripping,
`pos = 0` and `length = 3`, and 4 is not in `[0, 3]`; in "foo   bar" with the caret at
offset 5, among the blanks, the word found is the token before the caret, again with
`pos = 0` and `length = 3`. -/
theorem word_under_cursor_reports_span_without_point :
    spec_get_all_tokens "foo'".toList = [{ off := 0, len := 4 }] ∧
    (is_word_under_cursor_correct (spec_env "foo'".toList 4 ["foo"]) (caret_query 4) true).map
        (fun r => (r.is_correct, r.pos, r.length)) = some (false, 0, 3) ∧
    ¬ ((0 : Int) ≤ 4 ∧ (4 : Int) ≤ 0 + 3) ∧
    (is_word_under_cursor_correct (spec_env "foo   bar".toList 5 ["foo"]) (caret_query 5)
        true).map (fun r => (r.is_correct, r.pos, r.length)) = some (false, 0, 3) ∧
    ¬ ((0 : Int) ≤ 5 ∧ (5 : Int) ≤ 0 + 3) := by
  refine ⟨by decide, by decide, by decide, by decide, by decide⟩

/-- C21 (amended): when the mapping, the tokenizer and the apostrophe cutting behave as §4.1
to §4.3 say, whenever `is_word_under_cursor_correct` returns `false` for the position `c`,
the span reported is the raw span, after apostrophe stripping, of the word that
`get_word_at` finds for `c`: that word is not empty, it starts at or before `c` (for
`c ≥ 0`), and `pos` and `pos + length` lie inside its raw span. -/
theorem word_under_cursor_starts_before_point (env : Env) (hA : CursorAssumptions env)
    (q : CursorQuery) (use_text_cursor : Bool) (r : WordUnderCursor)
    (h : is_word_under_cursor_correct env q use_text_cursor = some r)
    (hf : r.is_correct = false) :
    ∃ (c ss se : Int) (word : View),
      cursor_query_position q use_text_cursor = some (c, ss, se) ∧
      get_word_at env c (text_around env c) = some word ∧ word.len ≠ 0 ∧
      (0 ≤ c → (text_around env c).to_original_index (word.off : Int) ≤ c) ∧
      (text_around env c).to_original_index (word.off : Int) ≤ r.pos ∧
      r.pos + r.length ≤
        (text_around env c).to_original_index ((word.off : Int) + (word.len : Int)) ∧
      r.pos = (text_around env c).to_original_index
        ((env.settings.cut_apostrophes (text_around env c).str word).off : Int) ∧
      r.pos + r.length = (text_around env c).to_original_index
        (((env.settings.cut_apostrophes (text_around env c).str word).off : Int) +
          ((env.settings.cut_apostrophes (text_around env c).str word).len : Int)) := by
  obtain ⟨c, ss, se, word, hq, hw, hlen, hp, hl, _, _⟩ :=
    word_under_cursor_false env q use_text_cursor r h hf
  have hcut := hA.cut_inside (text_around env c).str word
  refine ⟨c, ss, se, word, hq, hw, hlen,
    fun hc => get_word_at_starts_before env hA c hc word hw, ?_, ?_, hp, by omega⟩
  · rw [hp]
    exact hA.monotone _ _ _ _ (by omega)
  · have : r.pos + r.length = (text_around env c).to_original_index
        (((env.settings.cut_apostrophes (text_around env c).str word).off : Int) +
          ((env.settings.cut_apostrophes (text_around env c).str word).len : Int)) := by
      omega
    rw [this]
    exact hA.monotone _ _ _ _ (by omega)

/-- In "foo   bar" with "foo" misspelled and the caret at offset 5, the word found is "foo",
which starts at 0, before the caret, and the span reported is `(0, 3)`. -/
theorem word_under_cursor_starts_before_point_witness :
    ∃ (c ss se : Int) (word : View),
      cursor_query_position (caret_query 5) true = some (c, ss, se) ∧
      get_word_at (spec_env "foo   bar".toList 5 ["foo"]) c
        (text_around (spec_env "foo   bar".toList 5 ["foo"]) c) = some word ∧
      word.len ≠ 0 ∧
      (0 ≤ c → (text_around (spec_env "foo   bar".toList 5 ["foo"]) c).to_original_index
        (word.off : Int) ≤ c) ∧
      (text_around (spec_env "foo   bar".toList 5 ["foo"]) c).to_original_index
        (word.off : Int) ≤ 0 ∧
      (0 : Int) + 3 ≤ (text_around (spec_env "foo   bar".toList 5 ["foo"]) c).to_original_index
        ((word.off : Int) + (word.len : Int)) ∧
      (0 : Int) = (text_around (spec_env "foo   bar".toList 5 ["foo"]) c).to_original_index
        (((spec_env "foo   bar".toList 5 ["foo"]).settings.cut_apostrophes
          (text_around (spec_env "foo   bar".toList 5 ["foo"]) c).str word).off : Int) ∧
      (0 : Int) + 3 = (text_around (spec_env "foo   bar".toList 5 ["foo"]) c).to_original_index
        ((((spec_env "foo   bar".toList 5 ["foo"]).settings.cut_apostrophes
          (text_around (spec_env "foo   bar".toList 5 ["foo"]) c).str word).off : Int) +
          (((spec_env "foo   bar".toList 5 ["foo"]).settings.cut_apostrophes
            (text_around (spec_env "foo   bar".toList 5 ["foo"]) c).str word).len : Int)) :=
  word_under_cursor_starts_before_point (spec_env "foo   bar".toList 5 ["foo"])
    (spec_env_cursor_assumptions _ _ _ _) (caret_query 5) true
    { is_correct := false, pos := 0, length := 3,
      speller_calls :=
        [SpellerCall.check_word { str := "foo".toList, ends_with_dot := false }] }
    (by decide) rfl

/-! ## Long lines in the viewport highlighter -/

/-- With the tokenizer and the speller of the specification, the misspelled spans found in a
text that starts with characters that are not word characters are those found in the rest
of it, whatever the document and the caret are. -/
theorem spec_spans_after_nonwords (needed : List Char → Bool) (doc doc1 : List Char)
    (cursor cursor1 : Int) (misspelled : List String) (text right : MappedWstring)
    (r : List Char) (hr : ∀ c ∈ r, is_word_char c = false)
    (hstr : text.str = r ++ right.str)
    (hright : ∀ i : Int, right.to_original_index i =
      text.to_original_index (i + (r.length : Int))) :
    (check_text (spec_env_with needed doc cursor misspelled) text).map misspelled_spans =
      (check_text (spec_env_with needed doc1 cursor1 misspelled) right).map
        misspelled_spans := by
  have hcut : ∀ c ∈ r.getLast?, is_word_char c = false := by
    intro c hc
    rcases List.eq_nil_or_concat r with h | ⟨L, b, h⟩
    · rw [h] at hc
      cases hc
    · rw [List.concat_eq_append] at h
      rw [h] at hc
      have hb : c = b := by simpa using hc.symm
      exact hr c (by rw [h, hb]; simp)
  have h := spec_spans_append needed doc cursor misspelled text
    { text with str := r } right hstr (fun _ => rfl) hright hcut
  have hleft : (check_text (spec_env_with needed doc cursor misspelled)
      { text with str := r }).map misspelled_spans = some [] := by
    rw [spec_check_text_spans]
    have : spec_get_all_tokens r = [] := scan_tokens_nonword_run r hr 0
    simp only [this, List.map_nil, List.filter_nil]
  rw [h, hleft]
  simp only [spec_check_text_spans, Option.getD_some, List.nil_append]

/-- A chunk without a misspelled word is cleared from its start to its end. -/
theorem underline_nothing (env : Env) (indicator : Int) (text : MappedWstring) (start_pos : Int)
    (h : (check_text env text).map misspelled_spans = some []) :
    underline_misspelled_words env indicator text start_pos =
      some (remove_underline indicator start_pos text.original_length) := by
  unfold underline_misspelled_words
  cases hc : check_text env text with
  | none => rw [hc] at h; cases h
  | some words =>
    rw [hc] at h
    simp only [Option.map_some', Option.some.injEq] at h
    simp only [Option.map_some', underline_buffer_eq, h, List.flatMap_nil, underline_sweep]

/-- The highlighting pass over one line of 4090 blanks followed by "Helo wrold again", shown
in full, with only "wrold" misspelled: the scanner is handed `[0, 4096)` and
`[4097, 4106)`, finds nothing in either, and both ranges are cleared. -/
theorem visible_pass_two_chunks (r : List Char) (hr : ∀ c ∈ r, c = ' ')
    (hlen : r.length = 4090) (fuel : Nat) :
    underline_misspelled_words_in_visible_text
        (spec_env (r ++ "Helo wrold again".toList) 0 ["wrold"]) (single_line_viewport 4106) 7
        (fuel + 3) =
      some
        { calls :=
            [IndicatorCall.set_current_indicator 7, IndicatorCall.indicator_clear_range 0 4096,
              IndicatorCall.set_current_indicator 7,
              IndicatorCall.indicator_clear_range 4097 4106]
          speller_calls :=
            (check_text_run (spec_env (r ++ "Helo wrold again".toList) 0 ["wrold"])
                (byte_range (r ++ "Helo wrold again".toList) 0 4096)).calls ++
              (check_text_run (spec_env (r ++ "Helo wrold again".toList) 0 ["wrold"])
                (byte_range (r ++ "Helo wrold again".toList) 4097 4106)).calls
          decodes := 2 } := by
  have hnw : ∀ c ∈ r, is_word_char c = false := fun c hc => by rw [hr c hc]; decide
  have hstr1 : (byte_range (r ++ "Helo wrold again".toList) 0 4096).str =
      r ++ "Helo w".toList := by
    show List.take 4096 (r ++ "Helo wrold again".toList) = _
    rw [List.take_append_eq_append_take, List.take_of_length_le (by omega), hlen]
    rfl
  have hstr2 : (byte_range (r ++ "Helo wrold again".toList) 4097 4106).str =
      [] ++ "old again".toList := by
    show List.take 9 (List.drop 4097 (r ++ "Helo wrold again".toList)) = _
    rw [List.drop_append_eq_append_drop, List.drop_eq_nil_of_le (by omega), hlen]
    rfl
  have hsp1 : (check_text (spec_env (r ++ "Helo wrold again".toList) 0 ["wrold"])
      (byte_range (r ++ "Helo wrold again".toList) 0 4096)).map misspelled_spans = some [] := by
    rw [spec_env, spec_spans_after_nonwords (fun _ => true) _ [] 0 0 ["wrold"] _
      { str := "Helo w".toList, to_original_index := fun i => i + 4090,
        from_original_index := fun i => i, original_length := 0 } r hnw hstr1
      (fun i => by
        show i + 4090 = i + (r.length : Int) + 0
        omega)]
    decide
  have hsp2 : (check_text (spec_env (r ++ "Helo wrold again".toList) 0 ["wrold"])
      (byte_range (r ++ "Helo wrold again".toList) 4097 4106)).map misspelled_spans =
      some [] := by
    rw [spec_env, spec_spans_after_nonwords (fun _ => true) _ [] 0 0 ["wrold"] _
      { str := "old again".toList, to_original_index := fun i => i + 4097,
        from_original_index := fun i => i, original_length := 0 } [] (fun _ h => by cases h)
      hstr2
      (fun i => by
        show i + 4097 = i + 0 + 4097
        omega)]
    decide
  have hol1 : (byte_range (r ++ "Helo wrold again".toList) 0 4096).original_length = 4096 := by
    show (0 : Int) + ((byte_range (r ++ "Helo wrold again".toList) 0 4096).str.length : Int) =
      4096
    rw [hstr1, List.length_append, hlen]
    rfl
  have hol2 : (byte_range (r ++ "Helo wrold again".toList) 4097 4106).original_length =
      4106 := by
    show (4097 : Int) +
      ((byte_range (r ++ "Helo wrold again".toList) 4097 4106).str.length : Int) = 4106
    rw [hstr2]
    rfl
  have hu1 := underline_nothing _ 7 _ 0 hsp1
  have hu2 := underline_nothing _ 7 _ 4097 hsp2
  rw [hol1] at hu1
  rw [hol2] at hu2
  have hdl : (spec_env (r ++ "Helo wrold again".toList) 0 ["wrold"]).editor.get_active_document_length
      = 4106 := by
    show ((r ++ "Helo wrold again".toList).length : Int) = 4106
    rw [List.length_append, hlen]
    rfl
  have hrange : ∀ a b : Int,
      (spec_env (r ++ "Helo wrold again".toList) 0 ["wrold"]).editor.get_mapped_wstring_range a b
        = byte_range (r ++ "Helo wrold again".toList) a b := fun _ _ => rfl
  have hloop3 : ∀ f : Nat, visible_range_loop
      (spec_env (r ++ "Helo wrold again".toList) 0 ["wrold"]) (single_line_viewport 4106) 7
      4106 (f + 1) (4106 + 1) (4106 + 1 + 4096) = some Run.empty := by
    intro f
    simp only [visible_range_loop]
    rw [if_neg (by decide)]
  have hloop2 : ∀ f : Nat, visible_range_loop
      (spec_env (r ++ "Helo wrold again".toList) 0 ["wrold"]) (single_line_viewport 4106) 7
      4106 (f + 2) (4096 + 1) (4096 + 1 + 4096) =
      some { calls := remove_underline 7 4097 4106
             speller_calls :=
              (check_text_run (spec_env (r ++ "Helo wrold again".toList) 0 ["wrold"])
                (byte_range (r ++ "Helo wrold again".toList) 4097 4106)).calls
             decodes := 1 } := by
    intro f
    have hsp : visible_start_probe (spec_env (r ++ "Helo wrold again".toList) 0 ["wrold"])
        (single_line_viewport 4106) (4096 + 1) = { pos := 4097, decodes := 0 } := by
      simp [visible_start_probe, single_line_viewport]
    have hep : visible_end_probe (spec_env (r ++ "Helo wrold again".toList) 0 ["wrold"])
        (single_line_viewport 4106) 4106 (4096 + 1 + 4096) = { pos := 4106, decodes := 0 } := by
      simp [visible_end_probe, single_line_viewport]
    rw [visible_range_loop, if_pos (by decide), hsp, hep]
    simp only
    rw [if_neg (by decide), hrange, hu2]
    simp only
    rw [hloop3 f]
    simp [Run.append, Run.empty]
  have hloop1 : visible_range_loop
      (spec_env (r ++ "Helo wrold again".toList) 0 ["wrold"]) (single_line_viewport 4106) 7
      4106 (fuel + 3) 0 (0 + 4096) =
      some { calls := remove_underline 7 0 4096 ++ remove_underline 7 4097 4106
             speller_calls :=
              (check_text_run (spec_env (r ++ "Helo wrold again".toList) 0 ["wrold"])
                (byte_range (r ++ "Helo wrold again".toList) 0 4096)).calls ++
              (check_text_run (spec_env (r ++ "Helo wrold again".toList) 0 ["wrold"])
                (byte_range (r ++ "Helo wrold again".toList) 4097 4106)).calls
             decodes := 2 } := by
    have hsp : visible_start_probe (spec_env (r ++ "Helo wrold again".toList) 0 ["wrold"])
        (single_line_viewport 4106) 0 = { pos := 0, decodes := 0 } := by
      simp [visible_start_probe, single_line_viewport]
    have hep : visible_end_probe (spec_env (r ++ "Helo wrold again".toList) 0 ["wrold"])
        (single_line_viewport 4106) 4106 (0 + 4096) = { pos := 4096, decodes := 0 } := by
      simp [visible_end_probe, single_line_viewport]
    rw [visible_range_loop, if_pos (by decide), hsp, hep]
    simp only
    rw [if_neg (by decide), hrange, hu1]
    simp only
    rw [hloop2 fuel]
    simp [Run.append]
  simp only [underline_misspelled_words_in_visible_text]
  have hrem : ((single_line_viewport 4106).get_document_line_from_visible
      ((single_line_viewport 4106).get_first_visible_line +
        (single_line_viewport 4106).get_lines_on_screen - 1) -
      (single_line_viewport 4106).get_document_line_from_visible
        (single_line_viewport 4106).get_first_visible_line + 1).toNat = 1 := by decide
  rw [hrem]
  have hline : (single_line_viewport 4106).get_document_line_from_visible
      (single_line_viewport 4106).get_first_visible_line = 0 := rfl
  rw [hline]
  simp only [visible_lines_loop, hdl]
  have h1 : (single_line_viewport 4106).is_line_visible 0 = true := rfl
  have h2 : (single_line_viewport 4106).get_line_start_position 0 = 0 := rfl
  have h3 : (single_line_viewport 4106).get_line_end_position 0 = 4106 := rfl
  have h4 : (single_line_viewport 4106).get_first_visible_column = 0 := rfl
  simp only [h1, h2, h3, h4, Bool.not_true, Bool.false_eq_true, if_false]
  rw [if_neg (by decide), if_neg (by decide), if_neg (by decide), if_neg (by decide),
    show ((0 : Int) + 0) = 0 from rfl, hloop1]
  simp [Run.append, Run.empty, remove_underline]

/-- Scanning the line of 4090 blanks followed by "Helo wrold again" in one piece, with only
"wrold" misspelled, finds the span `(4095, 4100)`. -/
theorem single_pass_finds_wrold (r : List Char) (hr : ∀ c ∈ r, c = ' ')
    (hlen : r.length = 4090) :
    (check_text (spec_env (r ++ "Helo wrold again".toList) 0 ["wrold"])
        (byte_range (r ++ "Helo wrold again".toList) 0 4106)).map misspelled_spans =
      some [(4095, 4100)] := by
  have hnw : ∀ c ∈ r, is_word_char c = false := fun c hc => by rw [hr c hc]; decide
  have hstr : (byte_range (r ++ "Helo wrold again".toList) 0 4106).str =
      r ++ "Helo wrold again".toList := by
    show List.take 4106 (r ++ "Helo wrold again".toList) = _
    exact List.take_of_length_le (by rw [List.length_append, hlen]; decide)
  rw [spec_env, spec_spans_after_nonwords (fun _ => true) _ [] 0 0 ["wrold"] _
    { str := "Helo wrold again".toList, to_original_index := fun i => i + 4090,
      from_original_index := fun i => i, original_length := 0 } r hnw hstr
    (fun i => by
      show i + 4090 = i + (r.length : Int) + 0
      omega)]
  decide

/-- C22 (the code at the failing input): one line of 4090 blanks followed by
"Helo wrold again" (4106 raw offsets), shown in full without scrolling, only "wrold"
misspelled.  The highlighting pass hands the scanner the ranges `[0, 4096)` and
`[4097, 4106)`: offset 4096 is in neither, the word "wrold" at `(4095, 4100)` is cut into
"w" and "old", and the pass only clears the two ranges without filling anything, whereas
scanning `[0, 4106)` in one piece finds the misspelled span `(4095, 4100)`. -/
theorem visible_pass_splits_long_line :
    (∀ fuel : Nat, ∃ run,
      underline_misspelled_words_in_visible_text (spec_env blanks_then_words 0 ["wrold"])
        (single_line_viewport 4106) 7 (fuel + 3) = some run ∧
      run.calls =
        [IndicatorCall.set_current_indicator 7, IndicatorCall.indicator_clear_range 0 4096,
          IndicatorCall.set_current_indicator 7,
          IndicatorCall.indicator_clear_range 4097 4106] ∧
      run.decodes = 2) ∧
    (check_text (spec_env blanks_then_words 0 ["wrold"])
        (byte_range blanks_then_words 0 4106)).map misspelled_spans = some [(4095, 4100)] := by
  have hr : ∀ c ∈ List.replicate 4090 ' ', c = ' ' := fun c hc => List.eq_of_mem_replicate hc
  have hlen : (List.replicate 4090 ' ').length = 4090 := List.length_replicate _ _
  constructor
  · intro fuel
    exact ⟨_, visible_pass_two_chunks (List.replicate 4090 ' ') hr hlen fuel, rfl, rfl⟩
  · exact single_pass_finds_wrold (List.replicate 4090 ' ') hr hlen

/-! ## What the forward search scans behind a token that fills a chunk -/

/-- In a pass of `find_next_mistake` from offset 0 over a chunk of 4096 word characters that
is not the final chunk, the cut is at index 0 and the text handed to the scanner is empty. -/
theorem find_next_chunk_text_stuck (needed : List Char → Bool) (misspelled : List String)
    (cursor : Int) (w tail : List Char) (hw : ∀ c ∈ w, is_word_char c = true)
    (hlen : w.length = 4096) (htail : tail ≠ []) (s : SearchState) (hs : s.iterator_pos = 0) :
    find_next_chunk_text (spec_env_with needed (w ++ tail) cursor misspelled) s =
      some { byte_range (w ++ tail) 0 4096 with str := [] } := by
  have htl : 0 < tail.length := List.length_pos.mpr htail
  have hne : w ≠ [] := by
    intro h
    rw [h] at hlen
    cases hlen
  have hdoc : (spec_env_with needed (w ++ tail) cursor misspelled).editor.get_active_document_length
      = 4096 + (tail.length : Int) := by
    simp [spec_env_with, byte_editor, hlen]
  have hstr : (byte_range (w ++ tail) 0 4096).str = w := by
    simp only [byte_range]
    have : ((4096 : Int) - 0).toNat = w.length := by rw [hlen]; rfl
    rw [this]
    simp
  have hsize : ((byte_range (w ++ tail) 0 4096).str.length : Int) = 4096 := by
    rw [hstr, hlen]
    rfl
  have hnte : spec_next_token_end w 4096 = 4096 := by
    have := spec_next_token_end_at_end w
    rw [hlen] at this
    exact this
  have hptb : spec_prev_token_begin w (4096 - 1) = 0 := by
    have := spec_prev_token_begin_all_word w hw hne
    rw [hlen] at this
    exact this
  simp only [find_next_chunk_text, hs, hdoc]
  have hto : ¬ ((0 : Int) + 4096 > 4096 + (tail.length : Int)) := by omega
  rw [if_neg hto]
  have hlt : (0 : Int) < 0 + 4096 := by omega
  rw [if_pos hlt]
  have hrng : (spec_env_with needed (w ++ tail) cursor misspelled).editor.get_mapped_wstring_range
      0 (0 + 4096) = byte_range (w ++ tail) 0 4096 := rfl
  rw [hrng, hsize, hstr]
  have hcond : (0 : Int) + 4096 ≠ 4096 + (tail.length : Int) ∧
      next_token_end (spec_env_with needed (w ++ tail) cursor misspelled) w (0 + 4096) = 4096 := by
    refine ⟨by omega, ?_⟩
    show spec_next_token_end w (0 + 4096) = 4096
    rw [show (0 : Int) + 4096 = 4096 from rfl]
    exact hnte
  rw [if_pos hcond]
  have hidx : prev_token_begin (spec_env_with needed (w ++ tail) cursor misspelled) w (4096 - 1)
      = 0 := hptb
  rw [hidx]
  have her : erase_tail w 0 = some [] := by simp [erase_tail]
  rw [her]
  rfl

/-- While every pass hands the scanner the empty text and leaves the state as it was, nothing
is found chunk by chunk, however many passes are made. -/
theorem chunk_by_chunk_spans_stuck (env : Env) (s : SearchState) (text : MappedWstring)
    (htext : find_next_chunk_text env s = some text) (hstr : text.str = [])
    (hstep : find_next_step env s = Step.next s) :
    ∀ fuel : Nat, chunk_by_chunk_spans env fuel s = [] := by
  intro fuel
  induction fuel with
  | zero => rfl
  | succ f ih =>
    have hct : check_text env text = some [] := by
      simp [check_text, check_text_run, hstr]
    simp only [chunk_by_chunk_spans, htext, hstep, hct, ih]
    rfl

/-- The misspelled spans of the one-piece scan of 5000 letters, a blank and "Helo", with only
"Helo" misspelled. -/
theorem spans_long_word_then_helo (w : List Char) (hw : ∀ c ∈ w, c = 'a')
    (hlen : w.length = 5000) (cursor : Int) :
    (check_text (spec_env (w ++ " Helo".toList) cursor ["Helo"])
        (byte_range (w ++ " Helo".toList) 0 5005)).map misspelled_spans =
      some [(5001, 5005)] := by
  obtain ⟨ws, hws, hproj⟩ :=
    Option.map_eq_some'.mp (check_text_long_word_then_helo w hw hlen cursor)
  rw [hws]
  cases ws with
  | nil => cases hproj
  | cons a rest =>
    cases rest with
    | nil => simp at hproj
    | cons b rest2 =>
      cases rest2 with
      | cons c rest3 => simp at hproj
      | nil =>
        simp only [List.map_cons, List.map_nil, List.cons.injEq, Prod.mk.injEq,
          and_true] at hproj
        obtain ⟨⟨_, _, ha⟩, hb1, hb2, hb3⟩ := hproj
        simp [misspelled_spans, List.filter_cons, ha, hb3, SpellerWordData.span, hb1, hb2]

/-- C17 (the code at the failing input): in the document of 5000 letters `a`, a blank and
"Helo" with only "Helo" misspelled and the cursor at 0, the search starts at offset 0; in
every pass the chunk `[0, 4096)`, which is not the final one, is cut at index 0, a token
boundary, so the scanner is handed the empty text and the state is left as it was.  Chunk by
chunk no misspelled span is ever found, while scanning the same raw range `[0, 5005)` in one
piece finds `(5001, 5005)`. -/
theorem find_next_mistake_chunks_miss_span :
    prev_token_begin_in_document (spec_env long_word_then_helo 0 ["Helo"]) 0 = 0 ∧
    (find_next_chunk_text (spec_env long_word_then_helo 0 ["Helo"])
        { current_position := 0, iterator_pos := 0, full_check := false }).map
      (fun text => text.str) = some [] ∧
    find_next_step (spec_env long_word_then_helo 0 ["Helo"])
        { current_position := 0, iterator_pos := 0, full_check := false } =
      Step.next { current_position := 0, iterator_pos := 0, full_check := false } ∧
    (∀ fuel : Nat, chunk_by_chunk_spans (spec_env long_word_then_helo 0 ["Helo"]) fuel
        { current_position := 0, iterator_pos := 0, full_check := false } = []) ∧
    (check_text (spec_env long_word_then_helo 0 ["Helo"])
        (byte_range long_word_then_helo 0 5005)).map misspelled_spans =
      some [(5001, 5005)] := by
  have hsplit : long_word_then_helo =
      List.replicate 4096 'a' ++ (List.replicate 904 'a' ++ " Helo".toList) := by
    unfold long_word_then_helo
    rw [← List.append_assoc, List.append_replicate_replicate]
  have htext := find_next_chunk_text_stuck (fun _ => true) ["Helo"] 0 (List.replicate 4096 'a')
    (List.replicate 904 'a' ++ " Helo".toList) (replicate_a_word 4096)
    (List.length_replicate _ _) (replicate_append_ne_nil 904 (by omega) 'a' _)
    { current_position := 0, iterator_pos := 0, full_check := false } rfl
  have hstep := find_next_step_stuck (fun _ => true) ["Helo"] 0 (List.replicate 4096 'a')
    (List.replicate 904 'a' ++ " Helo".toList) (replicate_a_word 4096)
    (List.length_replicate _ _) (replicate_append_ne_nil 904 (by omega) 'a' _)
    { current_position := 0, iterator_pos := 0, full_check := false } rfl
  refine ⟨rfl, ?_, ?_, ?_, ?_⟩
  · rw [hsplit]
    show (find_next_chunk_text (spec_env_with (fun _ => true) _ 0 ["Helo"]) _).map _ = _
    rw [htext]
    rfl
  · rw [hsplit]
    exact hstep
  · rw [hsplit]
    exact chunk_by_chunk_spans_stuck _ _ _ htext rfl hstep
  · exact spans_long_word_then_helo (List.replicate 5000 'a')
      (fun c hc => List.eq_of_mem_replicate hc) (List.length_replicate _ _) 0

/-! ## A highlighting pass that does not come back -/

/-- On "ab cd  ef" in the window scrolled by one column, a round of the range loop that
starts at offset 6 is moved back to 3, scans `[3, 5)` and starts the next round at 6 again:
no amount of fuel lets the loop end. -/
theorem visible_range_loop_restarts :
    ∀ fuel : Nat, visible_range_loop (spec_env "ab cd  ef".toList 0 []) (scrolled_viewport 9)
      7 9 fuel (5 + 1) (5 + 1 + 4096) = none := by
  intro fuel
  induction fuel with
  | zero => rfl
  | succ f ih =>
    have hsp : visible_start_probe (spec_env "ab cd  ef".toList 0 []) (scrolled_viewport 9)
        (5 + 1) = { pos := 3, decodes := 1 } := by decide
    have hep : visible_end_probe (spec_env "ab cd  ef".toList 0 []) (scrolled_viewport 9) 9
        (5 + 1 + 4096) = { pos := 5, decodes := 1 } := by decide
    have hu : underline_misspelled_words (spec_env "ab cd  ef".toList 0 []) 7
        ((spec_env "ab cd  ef".toList 0 []).editor.get_mapped_wstring_range 3 5) 3 =
        some [IndicatorCall.set_current_indicator 7, IndicatorCall.indicator_clear_range 3 5] := by
      decide
    rw [visible_range_loop, if_pos (by decide), hsp, hep]
    simp only
    rw [if_neg (by decide), hu]
    simp only
    rw [ih]

/-- On "ab cd  ef" in the window scrolled by one column the range loop of the only line scans
`[0, 5)` and then never ends. -/
theorem visible_range_loop_never_ends :
    ∀ fuel : Nat, visible_range_loop (spec_env "ab cd  ef".toList 0 []) (scrolled_viewport 9)
      7 9 fuel (0 + 1) (0 + 1 + 4096) = none := by
  intro fuel
  cases fuel with
  | zero => rfl
  | succ f =>
    have hsp : visible_start_probe (spec_env "ab cd  ef".toList 0 []) (scrolled_viewport 9)
        (0 + 1) = { pos := 0, decodes := 1 } := by decide
    have hep : visible_end_probe (spec_env "ab cd  ef".toList 0 []) (scrolled_viewport 9) 9
        (0 + 1 + 4096) = { pos := 5, decodes := 1 } := by decide
    have hu : underline_misspelled_words (spec_env "ab cd  ef".toList 0 []) 7
        ((spec_env "ab cd  ef".toList 0 []).editor.get_mapped_wstring_range 0 5) 0 =
        some [IndicatorCall.set_current_indicator 7, IndicatorCall.indicator_clear_range 0 5] := by
      decide
    rw [visible_range_loop, if_pos (by decide), hsp, hep]
    simp only
    rw [if_neg (by decide), hu]
    simp only
    rw [visible_range_loop_restarts f]

/-- C12 (the code at the failing input): the document "ab cd  ef" (one line, no word
misspelled) in a window 3 points wide that is scrolled horizontally by one column.  The
range loop scans `[0, 5)`; every later round starts at offset 6, is moved back to the token
start 3 because of the horizontal scroll, has its end moved to 5, scans `[3, 5)` without a
fault and starts the next round at 6 again.  Neither `underline_misspelled_words_in_visible_text`
nor `recheck_visible` comes back, whatever the fuel, so not even one pass is completed. -/
theorem highlighting_pass_never_returns :
    visible_start_probe (spec_env "ab cd  ef".toList 0 []) (scrolled_viewport 9) (5 + 1) =
      { pos := 3, decodes := 1 } ∧
    visible_end_probe (spec_env "ab cd  ef".toList 0 []) (scrolled_viewport 9) 9
      (5 + 1 + 4096) = { pos := 5, decodes := 1 } ∧
    underline_misspelled_words (spec_env "ab cd  ef".toList 0 []) 7
        (byte_range "ab cd  ef".toList 3 5) 3 =
      some [IndicatorCall.set_current_indicator 7, IndicatorCall.indicator_clear_range 3 5] ∧
    (∀ fuel : Nat, underline_misspelled_words_in_visible_text
      (spec_env "ab cd  ef".toList 0 []) (scrolled_viewport 9) 7 fuel = none) ∧
    (∀ fuel : Nat, recheck_visible (spec_env "ab cd  ef".toList 0 []) (scrolled_viewport 9) 7
      fuel = none) := by
  have hpass : ∀ fuel : Nat, underline_misspelled_words_in_visible_text
      (spec_env "ab cd  ef".toList 0 []) (scrolled_viewport 9) 7 fuel = none := by
    intro fuel
    simp only [underline_misspelled_words_in_visible_text]
    have hrem : ((scrolled_viewport 9).get_document_line_from_visible
        ((scrolled_viewport 9).get_first_visible_line +
          (scrolled_viewport 9).get_lines_on_screen - 1) -
        (scrolled_viewport 9).get_document_line_from_visible
          (scrolled_viewport 9).get_first_visible_line + 1).toNat = 1 := by decide
    rw [hrem]
    have hline : (scrolled_viewport 9).get_document_line_from_visible
        (scrolled_viewport 9).get_first_visible_line = 0 := rfl
    rw [hline]
    have hdl : (spec_env "ab cd  ef".toList 0 []).editor.get_active_document_length = 9 := rfl
    simp only [visible_lines_loop, hdl]
    have h1 : (scrolled_viewport 9).is_line_visible 0 = true := rfl
    have h2 : (scrolled_viewport 9).get_line_start_position 0 = 0 := rfl
    have h3 : (scrolled_viewport 9).get_line_end_position 0 = 9 := rfl
    have h4 : (scrolled_viewport 9).get_first_visible_column = 1 := rfl
    simp only [h1, h2, h3, h4, Bool.not_true, Bool.false_eq_true, if_false]
    rw [if_neg (by decide), if_neg (by decide), if_neg (by decide), if_neg (by decide),
      visible_range_loop_never_ends fuel]
  refine ⟨by decide, by decide, by decide, hpass, fun fuel => ?_⟩
  simp only [recheck_visible, check_visible]
  rw [if_neg (by decide), if_neg (by decide)]
  exact hpass fuel

end DSpellCheck
